import Mathlib

/-!
# Peer-id client identification (`libtransmission/clients.cc`)

A shallow embedding of `tr_clientForId` and of everything it calls.

* A byte is a `Nat` below 256; a `string_view` is the `List Nat` of its bytes.
* The caller's output buffer is addressed by offsets from its first byte.  The
  memory `Mem` is the log of every store the code performs, so stores that land
  beyond the capacity the caller announced stay visible.
* `size_t` is 64 bits wide; `buflen - 1` and `buflen - len` wrap.
* `int` values are `Int`; `/` and `%` on `int` truncate (`Int.tdiv`, `Int.tmod`).
* Whether plain `char` is signed is fixed by the compiler, not by the source:
  it is the parameter `char_signed` of the two places that widen a `char`
  to `int` without a cast.
-/

namespace Transmission

/-! ## Bytes, strings, memory -/

/-- Bytes of a string literal (every literal of the source is below U+0100). -/
def sv (s : String) : List Nat := s.data.map Char.toNat

/-- Modulus of `size_t`. -/
def SIZE_MOD : Nat := 2 ^ 64

/-- Subtraction on `size_t`: wraps below zero. -/
def size_sub (a b : Nat) : Nat := (a + SIZE_MOD - b % SIZE_MOD) % SIZE_MOD

/-- Conversion of an `int` to `char`, as the stored byte. -/
def int_to_byte (n : Int) : Nat := (n % 256).toNat

/-- Value of a plain `char` holding byte `b`, widened to `int`. -/
def char_to_int (char_signed : Bool) (b : Nat) : Int :=
  if char_signed && 128 ≤ b then (b : Int) - 256 else (b : Int)

/-- Store log: `(offset, byte)`, most recent store first. -/
structure Mem where
  writes : List (Nat × Nat)
deriving DecidableEq

/-- Memory in which the code has stored nothing yet. -/
def Mem.fresh : Mem := ⟨[]⟩

/-- The store `buf[pos] = b`. -/
def Mem.store (m : Mem) (pos b : Nat) : Mem := ⟨(pos, b) :: m.writes⟩

/-- Byte last stored at `pos`, `none` when the code never stored there. -/
def Mem.load (m : Mem) (pos : Nat) : Option Nat :=
  match m.writes.find? (fun w => w.1 == pos) with
  | some w => some w.2
  | none => none

/-- Consecutive stores `*p++ = x` for each `x` of the list. -/
def Mem.storeList (m : Mem) : Nat → List Nat → Mem
  | _, [] => m
  | pos, x :: xs => (m.store pos x).storeList (pos + 1) xs

/-- Every store so far landed at an offset below `cap`. -/
def Mem.within (m : Mem) (cap : Nat) : Bool := m.writes.all (fun w => w.1 < cap)

/-- The C string starting at offset `pos`: the bytes up to the first NUL.  `none` when a
byte that was never stored is reached first, or no NUL shows up within `fuel` bytes. -/
def Mem.c_str (m : Mem) : Nat → Nat → Option (List Nat)
  | 0, _ => none
  | fuel + 1, pos =>
    match m.load pos with
    | none => none
    | some 0 => some []
    | some b =>
      match m.c_str fuel (pos + 1) with
      | none => none
      | some rest => some (b :: rest)

/-- Write pointer and remaining-size pair that the `buf_append` overloads thread along. -/
structure Cursor where
  mem : Mem
  buf : Nat
  buflen : Nat
deriving DecidableEq

/-! ## `buf_append` -/

/-- Overload `buf_append(char* buf, size_t buflen, char ch)`. -/
def buf_append_char (c : Cursor) (ch : Nat) : Cursor :=
  let c1 : Cursor :=
    if 2 ≤ c.buflen then { c with mem := c.mem.store c.buf ch, buf := c.buf + 1 } else c
  { mem := c1.mem.store c1.buf 0, buf := c1.buf, buflen := size_sub c.buflen 1 }

/-- Overload `buf_append(char* buf, size_t buflen, std::string_view name)`. -/
def buf_append_sv (c : Cursor) (name : List Nat) : Cursor :=
  let len := min (size_sub c.buflen 1) name.length
  let m := c.mem.storeList c.buf (name.take len)
  { mem := m.store (c.buf + len) 0, buf := c.buf + len, buflen := size_sub c.buflen len }

/-- The digit loop `while ((n / base) > 0) { *--ptr = '0' + n % base; n /= base; }`;
`acc` is `[ptr, end)`.  `fuel` bounds the iterations by the room left in `mybuf`. -/
def itoa_loop : Nat → Int → List Nat → Int × List Nat
  | 0, n, acc => (n, acc)
  | fuel + 1, n, acc =>
    if 0 < Int.tdiv n 10 then
      itoa_loop fuel (Int.tdiv n 10) (int_to_byte (48 + Int.tmod n 10) :: acc)
    else (n, acc)

/-- Bytes `[ptr, end)` of `mybuf` after the digit loop and the last `*--ptr`. -/
def itoa (n : Int) : List Nat :=
  let r := itoa_loop 31 n []
  int_to_byte (48 + Int.tmod r.1 10) :: r.2

/-- Overload `buf_append(char* buf, size_t buflen, int n)`. -/
def buf_append_int (c : Cursor) (n : Int) : Cursor := buf_append_sv c (itoa n)

/-- One argument of the variadic `buf_append`, tagged with the overload it selects. -/
inductive Arg where
  | ch (c : Nat)
  | str (s : List Nat)
  | num (n : Int)
deriving DecidableEq

/-- Overload resolution for one argument. -/
def buf_append1 (c : Cursor) : Arg → Cursor
  | .ch x => buf_append_char c x
  | .str s => buf_append_sv c s
  | .num n => buf_append_int c n

/-- The variadic `buf_append(buf, buflen, t, args...)`: one argument after the other. -/
def buf_append (c : Cursor) : List Arg → Cursor
  | [] => c
  | a :: rest => buf_append (buf_append1 c a) rest

/-! ## The `fmt` calls -/

/-- Decimal digits of a natural number (`fuel` digits at most). -/
def dec_digits : Nat → Nat → List Nat → List Nat
  | 0, _, acc => acc
  | fuel + 1, n, acc =>
    if n < 10 then (48 + n) :: acc else dec_digits fuel (n / 10) ((48 + n % 10) :: acc)

/-- Format spec `{:d}` of `fmt` on an `int`. -/
def fmt_d (n : Int) : List Nat :=
  if n < 0 then 45 :: dec_digits 20 n.natAbs [] else dec_digits 20 n.natAbs []

/-- Format spec `{:02d}` of `fmt` on an `int`: minimum width 2, padded with `0` after the sign. -/
def fmt_02d (n : Int) : List Nat :=
  let d := fmt_d n
  if d.length < 2 then 48 :: d else d

/-- Uppercase hexadecimal digit. -/
def hex_digit (n : Nat) : Nat := if n < 10 then 48 + n else 55 + n

/-- Format spec `{:02X}` of `fmt` on an `unsigned char`. -/
def fmt_02X (b : Nat) : List Nat := [hex_digit (b / 16), hex_digit (b % 16)]

/-- The call `fmt::format_to_n(out, n, ...)` where the formatted text is `s`: at most `n` bytes
are stored, and `.out` is the position after the last one. -/
def format_to_n (m : Mem) (out n : Nat) (s : List Nat) : Mem × Nat :=
  (m.storeList out (s.take n), out + min n s.length)

/-- The statement `*fmt::format_to_n(buf, buflen - 1, ...).out = '\0';`. -/
def format_to_n_nul (c : Cursor) (s : List Nat) : Mem :=
  let r := format_to_n c.mem c.buf (size_sub c.buflen 1) s
  r.1.store r.2 0

/-! ## Small helpers of the source -/

/-- Byte `id[i]` of a peer id. -/
def at_ (pid : List Nat) (i : Nat) : Nat := pid.getD i 0

/-- The view `std::string_view(&id[off], len)`. -/
def sub_view (pid : List Nat) (off len : Nat) : List Nat := (pid.drop off).take len

/-- Translation of `charint`. -/
def charint (ch : Nat) : List Nat :=
  if ch = 48 then sv "0"
  else if ch = 49 then sv "1"
  else if ch = 50 then sv "2"
  else if ch = 51 then sv "3"
  else if ch = 52 then sv "4"
  else if ch = 53 then sv "5"
  else if ch = 54 then sv "6"
  else if ch = 55 then sv "7"
  else if ch = 56 then sv "8"
  else if ch = 57 then sv "9"
  else if ch = 97 ∨ ch = 65 then sv "10"
  else if ch = 98 ∨ ch = 66 then sv "11"
  else if ch = 99 ∨ ch = 67 then sv "12"
  else if ch = 100 ∨ ch = 68 then sv "13"
  else if ch = 101 ∨ ch = 69 then sv "14"
  else if ch = 102 ∨ ch = 70 then sv "15"
  else if ch = 103 ∨ ch = 71 then sv "16"
  else if ch = 104 ∨ ch = 72 then sv "17"
  else if ch = 105 ∨ ch = 73 then sv "18"
  else if ch = 106 ∨ ch = 74 then sv "19"
  else if ch = 107 ∨ ch = 75 then sv "20"
  else if ch = 108 ∨ ch = 76 then sv "21"
  else if ch = 109 ∨ ch = 77 then sv "22"
  else if ch = 110 ∨ ch = 78 then sv "23"
  else if ch = 111 ∨ ch = 79 then sv "24"
  else if ch = 112 ∨ ch = 80 then sv "25"
  else if ch = 113 ∨ ch = 81 then sv "26"
  else if ch = 114 ∨ ch = 82 then sv "27"
  else if ch = 115 ∨ ch = 83 then sv "28"
  else if ch = 116 ∨ ch = 84 then sv "29"
  else if ch = 117 ∨ ch = 85 then sv "30"
  else if ch = 118 ∨ ch = 86 then sv "31"
  else if ch = 119 ∨ ch = 87 then sv "32"
  else if ch = 120 ∨ ch = 88 then sv "33"
  else if ch = 121 ∨ ch = 89 then sv "34"
  else if ch = 122 ∨ ch = 90 then sv "35"
  else sv "x"

/-- Value of an ASCII digit or letter as a digit (letters of either case count from 10). -/
def digit_value (b : Nat) : Option Nat :=
  if 48 ≤ b ∧ b ≤ 57 then some (b - 48)
  else if 97 ≤ b ∧ b ≤ 122 then some (b - 87)
  else if 65 ≤ b ∧ b ≤ 90 then some (b - 55)
  else none

/-- Longest run of leading digits valid in `base`, as a number; `acc` is `none` until the
first digit has been read. -/
def parse_digits (base : Nat) : List Nat → Option Nat → Option Nat
  | [], acc => acc
  | b :: rest, acc =>
    match digit_value b with
    | some d => if d < base then parse_digits base rest (some (acc.getD 0 * base + d)) else acc
    | none => acc

/-- Modelled from the spec: `tr_parseNum<int>` is declared in `utils.h`, which is not part of
the sources at hand.  The spec has it parse "the ASCII digit span as an integer in the given
base", with a failure when that cannot be done.  The model reads an optional `-` and then the
leading digits of the base, as `std::from_chars` does; no digit, or a value outside `int`, is
the failure. -/
def tr_parseNum (s : List Nat) (base : Nat) : Option Int :=
  let r : Option Int :=
    match s with
    | 45 :: rest => (parse_digits base rest none).map (fun n => -(n : Int))
    | _ => (parse_digits base s none).map (fun n => (n : Int))
  match r with
  | some v => if -2147483648 ≤ v ∧ v ≤ 2147483647 then some v else none
  | none => none

/-- Translation of `strint(&id[off], span, base)`. -/
def strint (pid : List Nat) (off span : Nat) (base : Nat) : Int :=
  (tr_parseNum (sub_view pid off span) base).getD 0

/-- Translation of `getMnemonicEnd`. -/
def getMnemonicEnd (ch : Nat) : List Nat :=
  if ch = 98 ∨ ch = 66 then sv " (Beta)"
  else if ch = 100 then sv " (Debug)"
  else if ch = 120 ∨ ch = 88 ∨ ch = 90 then sv " (Dev)"
  else sv ""

/-! ## The two bespoke decoders -/

/-- The constant `Str` of `get_shad0w_int`. -/
def shad0w_alphabet : List Nat :=
  sv "0123456789ABCDEFGHIJKLMNOPQRSTUVWXYZabcdefghijklmnopqrstuvwxyz.-"

/-- Translation of `get_shad0w_int`: position of `ch` in `Str`, if any. -/
def get_shad0w_int (ch : Nat) : Option Nat :=
  let pos := shad0w_alphabet.indexOf ch
  if pos < shad0w_alphabet.length then some pos else none

/-- The loop `while (!empty(peer_id) && peer_id.back() == '-') peer_id.remove_suffix(1);`.
The view is passed reversed, so that `back()` is the head. -/
def strip_dashes : List Nat → List Nat
  | [] => []
  | b :: rest => if b = 45 then strip_dashes rest else b :: rest

/-- The loop `while (size(peer_id) > 1)` that fills `vals`, on the reversed view; `none` is
the `return false` inside it.  Returns `vals` and the view that is left. -/
def shad0w_vals : List Nat → List Int → Option (List Int × List Nat)
  | b :: c :: rest, vals =>
    match get_shad0w_int b with
    | none => none
    | some num => shad0w_vals (c :: rest) (vals ++ [(num : Int)])
  | view, vals => some (vals, view)

/-- The `switch (peer_id.front())` of `decodeShad0wClient`; `none` is its `default`. -/
def shad0w_name (front : Nat) : Option (List Nat) :=
  if front = 65 then some (sv "ABC")
  else if front = 79 then some (sv "Osprey")
  else if front = 81 then some (sv "BTQueue")
  else if front = 82 then some (sv "Tribler")
  else if front = 83 then some (sv "Shad0w")
  else if front = 84 then some (sv "BitTornado")
  else if front = 85 then some (sv "UPnP NAT Bit Torrent")
  else none

/-- Size of the view `peer_id` at the moment `decodeShad0wClient` evaluates
`peer_id.front()`; `none` when the function returns before that. -/
def shad0w_front_size (input : List Nat) : Option Nat :=
  let peer_id := input.take 9
  if peer_id.length ≠ 9 ∨ at_ peer_id 6 ≠ 45 ∨ at_ peer_id 7 ≠ 45 ∨ at_ peer_id 8 ≠ 45 then none
  else
    match shad0w_vals (strip_dashes peer_id.reverse) [] with
    | none => none
    | some r => some r.2.length

/-- Translation of `decodeShad0wClient(buf, buflen, in)`.  `front()` is the byte at `data()`,
which `remove_suffix` never moves, hence `in[0]`, whatever is left of the view. -/
def decodeShad0wClient (m : Mem) (buf buflen : Nat) (input : List Nat) : Bool × Mem :=
  let buf_in := buf
  let peer_id := input.take 9
  if peer_id.length ≠ 9 ∨ at_ peer_id 6 ≠ 45 ∨ at_ peer_id 7 ≠ 45 ∨ at_ peer_id 8 ≠ 45 then
    (false, m)
  else
    match shad0w_vals (strip_dashes peer_id.reverse) [] with
    | none => (false, m)
    | some r =>
      match shad0w_name (at_ input 0) with
      | none => (false, m)
      | some name =>
        let c0 := buf_append ⟨m, buf, buflen⟩ [.str name, .ch 32]
        let c1 := r.1.reverse.foldl (fun c num => buf_append c [.num num, .ch 46]) c0
        if buf_in < c1.buf then (true, c1.mem.store (c1.buf - 1) 0) else (true, c1.mem)

/-- Translation of `decodeBitCometClient(buf, buflen, peer_id)`. -/
def decodeBitCometClient (m : Mem) (buf buflen : Nat) (peer_id : List Nat) : Bool × Mem :=
  let lead := peer_id.take (min peer_id.length 4)
  let mod : Option (List Nat) :=
    if lead = sv "exbc" then some (sv "")
    else if lead = sv "FUTB" then some (sv "(Solidox Mod) ")
    else if lead = sv "xUTB" then some (sv "(Mod 2) ")
    else none
  match mod with
  | none => (false, m)
  | some mod =>
    let is_bitlord := sub_view peer_id 6 4 = sv "LORD"
    let name := if is_bitlord then sv "BitLord" else sv "BitComet"
    let major : Int := Int.ofNat (at_ peer_id 4 % 256)
    let minor : Int := Int.ofNat (at_ peer_id 5 % 256)
    let c := buf_append ⟨m, buf, buflen⟩ [.str name, .ch 32, .str mod, .num major, .ch 46]
    (true, format_to_n_nul c (fmt_02d minor))

/-! ## The version formatters

Each takes the memory, `buf`, `buflen`, the display name and the peer id, and gives back the
memory it leaves (the C++ functions return `void`). -/

/-- Translation of `two_major_two_minor_formatter`. -/
def two_major_two_minor_formatter (m : Mem) (buf buflen : Nat) (name pid : List Nat) : Mem :=
  let c := buf_append ⟨m, buf, buflen⟩ [.str name, .ch 32, .num (strint pid 3 2 10), .ch 46]
  format_to_n_nul c (fmt_02d (strint pid 5 2 10))

/-- Translation of `three_digit_formatter`. -/
def three_digit_formatter (m : Mem) (buf buflen : Nat) (name pid : List Nat) : Mem :=
  (buf_append ⟨m, buf, buflen⟩ [.str name, .ch 32, .str (charint (at_ pid 3)), .ch 46,
    .str (charint (at_ pid 4)), .ch 46, .str (charint (at_ pid 5))]).mem

/-- Translation of `four_digit_formatter`. -/
def four_digit_formatter (m : Mem) (buf buflen : Nat) (name pid : List Nat) : Mem :=
  (buf_append ⟨m, buf, buflen⟩ [.str name, .ch 32, .str (charint (at_ pid 3)), .ch 46,
    .str (charint (at_ pid 4)), .ch 46, .str (charint (at_ pid 5)), .ch 46,
    .str (charint (at_ pid 6))]).mem

/-- Translation of `no_version_formatter`. -/
def no_version_formatter (m : Mem) (buf buflen : Nat) (name _pid : List Nat) : Mem :=
  (buf_append ⟨m, buf, buflen⟩ [.str name]).mem

/-- Translation of `amazon_formatter`. -/
def amazon_formatter (m : Mem) (buf buflen : Nat) (name pid : List Nat) : Mem :=
  (buf_append ⟨m, buf, buflen⟩ [.str name, .ch 32, .ch (at_ pid 3), .ch 46, .ch (at_ pid 5),
    .ch 46, .ch (at_ pid 7)]).mem

/-- Translation of `aria2_formatter`. -/
def aria2_formatter (m : Mem) (buf buflen : Nat) (name pid : List Nat) : Mem :=
  if at_ pid 4 = 45 ∧ at_ pid 6 = 45 ∧ at_ pid 8 = 45 then
    (buf_append ⟨m, buf, buflen⟩ [.str name, .ch 32, .ch (at_ pid 3), .ch 46, .ch (at_ pid 5),
      .ch 46, .ch (at_ pid 7)]).mem
  else if at_ pid 4 = 45 ∧ at_ pid 7 = 45 ∧ at_ pid 9 = 45 then
    (buf_append ⟨m, buf, buflen⟩ [.str name, .ch 32, .ch (at_ pid 3), .ch 46, .ch (at_ pid 5),
      .ch (at_ pid 6), .ch 46, .ch (at_ pid 8)]).mem
  else
    (buf_append ⟨m, buf, buflen⟩ [.str name]).mem

/-- Translation of `bitbuddy_formatter`. -/
def bitbuddy_formatter (m : Mem) (buf buflen : Nat) (name pid : List Nat) : Mem :=
  (buf_append ⟨m, buf, buflen⟩ [.str name, .ch 32, .ch (at_ pid 3), .ch 46, .ch (at_ pid 4),
    .ch (at_ pid 5), .ch (at_ pid 6)]).mem

/-- Translation of `bitlord_formatter`. -/
def bitlord_formatter (m : Mem) (buf buflen : Nat) (name pid : List Nat) : Mem :=
  (buf_append ⟨m, buf, buflen⟩ [.str name, .ch 32, .ch (at_ pid 3), .ch 46, .ch (at_ pid 4),
    .ch 46, .ch (at_ pid 5), .ch 45, .str (sub_view pid 6 3)]).mem

/-- Translation of `bitrocket_formatter`. -/
def bitrocket_formatter (m : Mem) (buf buflen : Nat) (name pid : List Nat) : Mem :=
  (buf_append ⟨m, buf, buflen⟩ [.str name, .ch 32, .ch (at_ pid 3), .ch 46, .ch (at_ pid 4),
    .ch 32, .ch 40, .ch (at_ pid 5), .ch (at_ pid 6), .ch 41]).mem

/-- Translation of `bittorrent_dna_formatter`. -/
def bittorrent_dna_formatter (m : Mem) (buf buflen : Nat) (name pid : List Nat) : Mem :=
  let c := buf_append ⟨m, buf, buflen⟩ [.str name, .ch 32]
  format_to_n_nul c
    (fmt_d (strint pid 3 2 10) ++ [46] ++ fmt_d (strint pid 5 2 10) ++ [46] ++
      fmt_d (strint pid 7 2 10))

/-- Translation of `bits_on_wheels_formatter`. -/
def bits_on_wheels_formatter (m : Mem) (buf buflen : Nat) (name pid : List Nat) : Mem :=
  if sub_view pid 4 3 = sv "A0B" then
    (buf_append ⟨m, buf, buflen⟩ [.str name, .str (sv " 1.0.5")]).mem
  else if sub_view pid 4 3 = sv "A0C" then
    (buf_append ⟨m, buf, buflen⟩ [.str name, .str (sv " 1.0.6")]).mem
  else
    (buf_append ⟨m, buf, buflen⟩ [.str name, .ch 32, .ch (at_ pid 4), .ch 46, .ch (at_ pid 5),
      .ch 46, .ch (at_ pid 6)]).mem

/-- Translation of `blizzard_formatter`; `id[3] + 1` and `int(id[4])` widen a plain `char`. -/
def blizzard_formatter (char_signed : Bool) (m : Mem) (buf buflen : Nat) (name pid : List Nat) :
    Mem :=
  (buf_append ⟨m, buf, buflen⟩ [.str name, .ch 32, .num (char_to_int char_signed (at_ pid 3) + 1),
    .num (char_to_int char_signed (at_ pid 4))]).mem

/-- Translation of `btpd_formatter`. -/
def btpd_formatter (m : Mem) (buf buflen : Nat) (name pid : List Nat) : Mem :=
  (buf_append ⟨m, buf, buflen⟩ [.str name, .ch 32, .str (sub_view pid 5 3)]).mem

/-- Translation of `burst_formatter`. -/
def burst_formatter (m : Mem) (buf buflen : Nat) (name pid : List Nat) : Mem :=
  (buf_append ⟨m, buf, buflen⟩ [.str name, .ch 32, .ch (at_ pid 5), .ch 46, .ch (at_ pid 7),
    .ch 46, .ch (at_ pid 9)]).mem

/-- Translation of `ctorrent_formatter`. -/
def ctorrent_formatter (m : Mem) (buf buflen : Nat) (name pid : List Nat) : Mem :=
  (buf_append ⟨m, buf, buflen⟩ [.str name, .ch 32, .str (charint (at_ pid 3)), .ch 46,
    .str (charint (at_ pid 4)), .ch 46, .ch (at_ pid 5), .ch (at_ pid 6)]).mem

/-- Translation of `folx_formatter`. -/
def folx_formatter (m : Mem) (buf buflen : Nat) (name pid : List Nat) : Mem :=
  (buf_append ⟨m, buf, buflen⟩ [.str name, .ch 32, .str (charint (at_ pid 3)), .ch 46,
    .ch 120]).mem

/-- Translation of `ktorrent_formatter`. -/
def ktorrent_formatter (m : Mem) (buf buflen : Nat) (name pid : List Nat) : Mem :=
  if at_ pid 5 = 68 then
    (buf_append ⟨m, buf, buflen⟩ [.str name, .ch 32, .str (charint (at_ pid 3)), .ch 46,
      .str (charint (at_ pid 4)), .str (sv " Dev "), .str (charint (at_ pid 6))]).mem
  else if at_ pid 5 = 82 then
    (buf_append ⟨m, buf, buflen⟩ [.str name, .ch 32, .str (charint (at_ pid 3)), .ch 46,
      .str (charint (at_ pid 4)), .str (sv " RC "), .str (charint (at_ pid 6))]).mem
  else
    three_digit_formatter m buf buflen name pid

/-- Translation of `mainline_formatter`. -/
def mainline_formatter (m : Mem) (buf buflen : Nat) (name pid : List Nat) : Mem :=
  if at_ pid 4 = 45 ∧ at_ pid 6 = 45 then
    (buf_append ⟨m, buf, buflen⟩ [.str name, .ch 32, .ch (at_ pid 1), .ch 46, .ch (at_ pid 3),
      .ch 46, .ch (at_ pid 5)]).mem
  else if at_ pid 5 = 45 then
    (buf_append ⟨m, buf, buflen⟩ [.str name, .ch 32, .ch (at_ pid 1), .ch 46, .ch (at_ pid 3),
      .ch (at_ pid 4), .ch 46, .ch (at_ pid 6)]).mem
  else
    (buf_append ⟨m, buf, buflen⟩ [.str name]).mem

/-- Translation of `mediaget_formatter`. -/
def mediaget_formatter (m : Mem) (buf buflen : Nat) (name pid : List Nat) : Mem :=
  (buf_append ⟨m, buf, buflen⟩ [.str name, .ch 32, .str (charint (at_ pid 3)), .ch 46,
    .str (charint (at_ pid 4))]).mem

/-- Translation of `mldonkey_formatter`. -/
def mldonkey_formatter (m : Mem) (buf buflen : Nat) (name pid : List Nat) : Mem :=
  (buf_append ⟨m, buf, buflen⟩ [.str name, .ch 32, .str (sub_view pid 3 5)]).mem

/-- Translation of `opera_formatter`. -/
def opera_formatter (m : Mem) (buf buflen : Nat) (name pid : List Nat) : Mem :=
  (buf_append ⟨m, buf, buflen⟩ [.str name, .ch 32, .str (sub_view pid 2 4)]).mem

/-- Translation of `picotorrent_formatter`. -/
def picotorrent_formatter (m : Mem) (buf buflen : Nat) (name pid : List Nat) : Mem :=
  (buf_append ⟨m, buf, buflen⟩ [.str name, .ch 32, .str (charint (at_ pid 3)), .ch 46,
    .ch (at_ pid 4), .ch (at_ pid 5), .ch 46, .str (charint (at_ pid 6))]).mem

/-- Translation of `plus_formatter`. -/
def plus_formatter (m : Mem) (buf buflen : Nat) (name pid : List Nat) : Mem :=
  (buf_append ⟨m, buf, buflen⟩ [.str name, .ch 32, .ch (at_ pid 4), .ch 46, .ch (at_ pid 5),
    .ch (at_ pid 6)]).mem

/-- Translation of `qvod_formatter`. -/
def qvod_formatter (m : Mem) (buf buflen : Nat) (name pid : List Nat) : Mem :=
  (buf_append ⟨m, buf, buflen⟩ [.str name, .ch 32, .str (charint (at_ pid 4)), .ch 46,
    .str (charint (at_ pid 5)), .ch 46, .str (charint (at_ pid 6)), .ch 46,
    .str (charint (at_ pid 7))]).mem

/-- Translation of `transmission_formatter`. -/
def transmission_formatter (m : Mem) (buf buflen : Nat) (name pid : List Nat) : Mem :=
  let c := buf_append ⟨m, buf, buflen⟩ [.str name, .ch 32]
  if sub_view pid 3 3 = sv "000" then
    format_to_n_nul c (sv "0." ++ [at_ pid 6])
  else if sub_view pid 3 2 = sv "00" then
    format_to_n_nul c (sv "0." ++ fmt_02d (strint pid 5 2 10))
  else
    format_to_n_nul c
      (fmt_d (strint pid 3 1 10) ++ [46] ++ fmt_02d (strint pid 4 2 10) ++
        (if at_ pid 6 = 90 ∨ at_ pid 6 = 88 then sv "+" else sv ""))

/-- Translation of `utorrent_formatter`. -/
def utorrent_formatter (m : Mem) (buf buflen : Nat) (name pid : List Nat) : Mem :=
  if at_ pid 7 = 45 then
    (buf_append ⟨m, buf, buflen⟩ [.str name, .ch 32, .num (strint pid 3 1 16), .ch 46,
      .num (strint pid 4 1 16), .ch 46, .num (strint pid 5 1 16),
      .str (getMnemonicEnd (at_ pid 6))]).mem
  else
    (buf_append ⟨m, buf, buflen⟩ [.str name, .ch 32, .num (strint pid 3 1 16), .ch 46,
      .num (strint pid 4 1 16), .ch 46, .num (strint pid 5 2 10),
      .str (getMnemonicEnd (at_ pid 7))]).mem

/-- Translation of `xbt_formatter`. -/
def xbt_formatter (m : Mem) (buf buflen : Nat) (name pid : List Nat) : Mem :=
  (buf_append ⟨m, buf, buflen⟩ [.str name, .ch 32, .ch (at_ pid 3), .ch 46, .ch (at_ pid 4),
    .ch 46, .ch (at_ pid 5), .str (getMnemonicEnd (at_ pid 6))]).mem

/-- Translation of `xfplay_formatter`. -/
def xfplay_formatter (m : Mem) (buf buflen : Nat) (name pid : List Nat) : Mem :=
  if at_ pid 6 = 48 then
    three_digit_formatter m buf buflen name pid
  else
    (buf_append ⟨m, buf, buflen⟩ [.str name, .ch 32, .ch (at_ pid 3), .ch 46, .ch (at_ pid 4),
      .ch 46, .ch (at_ pid 5), .ch (at_ pid 6)]).mem

/-- Translation of `xtorrent_formatter`. -/
def xtorrent_formatter (m : Mem) (buf buflen : Nat) (name pid : List Nat) : Mem :=
  let c := buf_append ⟨m, buf, buflen⟩ [.str name, .ch 32, .str (charint (at_ pid 3)), .ch 46,
    .str (charint (at_ pid 4)), .str (sv " (")]
  format_to_n_nul c (fmt_d (strint pid 5 2 10))

/-! ## The registry -/

/-- The values a `format_func` pointer of the table takes, one per formatter. -/
inductive format_func where
  | amazon
  | aria2
  | bitbuddy
  | bitlord
  | bitrocket
  | bits_on_wheels
  | bittorrent_dna
  | blizzard
  | btpd
  | burst
  | ctorrent
  | folx
  | four_digit
  | ktorrent
  | mainline
  | mediaget
  | mldonkey
  | no_version
  | opera
  | picotorrent
  | plus
  | qvod
  | three_digit
  | transmission
  | two_major_two_minor
  | utorrent
  | xbt
  | xfplay
  | xtorrent
deriving DecidableEq

/-- The call through a `format_func` pointer. -/
def format_func.call (char_signed : Bool) (f : format_func) (m : Mem) (buf buflen : Nat)
    (name pid : List Nat) : Mem :=
  match f with
  | .amazon => amazon_formatter m buf buflen name pid
  | .aria2 => aria2_formatter m buf buflen name pid
  | .bitbuddy => bitbuddy_formatter m buf buflen name pid
  | .bitlord => bitlord_formatter m buf buflen name pid
  | .bitrocket => bitrocket_formatter m buf buflen name pid
  | .bits_on_wheels => bits_on_wheels_formatter m buf buflen name pid
  | .bittorrent_dna => bittorrent_dna_formatter m buf buflen name pid
  | .blizzard => blizzard_formatter char_signed m buf buflen name pid
  | .btpd => btpd_formatter m buf buflen name pid
  | .burst => burst_formatter m buf buflen name pid
  | .ctorrent => ctorrent_formatter m buf buflen name pid
  | .folx => folx_formatter m buf buflen name pid
  | .four_digit => four_digit_formatter m buf buflen name pid
  | .ktorrent => ktorrent_formatter m buf buflen name pid
  | .mainline => mainline_formatter m buf buflen name pid
  | .mediaget => mediaget_formatter m buf buflen name pid
  | .mldonkey => mldonkey_formatter m buf buflen name pid
  | .no_version => no_version_formatter m buf buflen name pid
  | .opera => opera_formatter m buf buflen name pid
  | .picotorrent => picotorrent_formatter m buf buflen name pid
  | .plus => plus_formatter m buf buflen name pid
  | .qvod => qvod_formatter m buf buflen name pid
  | .three_digit => three_digit_formatter m buf buflen name pid
  | .transmission => transmission_formatter m buf buflen name pid
  | .two_major_two_minor => two_major_two_minor_formatter m buf buflen name pid
  | .utorrent => utorrent_formatter m buf buflen name pid
  | .xbt => xbt_formatter m buf buflen name pid
  | .xfplay => xfplay_formatter m buf buflen name pid
  | .xtorrent => xtorrent_formatter m buf buflen name pid

/-- Translation of `struct Client`. -/
structure Client where
  begins_with : List Nat
  name : List Nat
  formatter : format_func
deriving DecidableEq

/-- The table `Clients`, in the order of the source. -/
def Clients : List Client := [
    Client.mk (sv "-AD") (sv "Advanced Download Manager") format_func.three_digit,
    Client.mk (sv "-AG") (sv "Ares") format_func.four_digit,
    Client.mk (sv "-AR") (sv "Arctic") format_func.four_digit,
    Client.mk (sv "-AT") (sv "Artemis") format_func.four_digit,
    Client.mk (sv "-AV") (sv "Avicora") format_func.four_digit,
    Client.mk (sv "-AX") (sv "BitPump") format_func.two_major_two_minor,
    Client.mk (sv "-AZ") (sv "Azureus / Vuze") format_func.four_digit,
    Client.mk (sv "-A~") (sv "Ares") format_func.three_digit,
    Client.mk (sv "-BB") (sv "BitBuddy") format_func.bitbuddy,
    Client.mk (sv "-BC") (sv "BitComet") format_func.two_major_two_minor,
    Client.mk (sv "-BE") (sv "BitTorrent SDK") format_func.four_digit,
    Client.mk (sv "-BF") (sv "BitFlu") format_func.no_version,
    Client.mk (sv "-BG") (sv "BTGetit") format_func.four_digit,
    Client.mk (sv "-BH") (sv "BitZilla") format_func.four_digit,
    Client.mk (sv "-BI") (sv "BiglyBT") format_func.four_digit,
    Client.mk (sv "-BL") (sv "BitLord") format_func.bitlord,
    Client.mk (sv "-BM") (sv "BitMagnet") format_func.four_digit,
    Client.mk (sv "-BN") (sv "Baidu Netdisk") format_func.no_version,
    Client.mk (sv "-BOW") (sv "Bits on Wheels") format_func.bits_on_wheels,
    Client.mk (sv "-BP") (sv "BitTorrent Pro (Azureus + Spyware)") format_func.four_digit,
    Client.mk (sv "-BR") (sv "BitRocket") format_func.bitrocket,
    Client.mk (sv "-BS") (sv "BTSlave") format_func.four_digit,
    Client.mk (sv "-BT") (sv "BitTorrent") format_func.utorrent,
    Client.mk (sv "-BW") (sv "BitWombat") format_func.four_digit,
    Client.mk (sv "-BX") (sv "BittorrentX") format_func.four_digit,
    Client.mk (sv "-CD") (sv "Enhanced CTorrent") format_func.two_major_two_minor,
    Client.mk (sv "-CT") (sv "CTorrent") format_func.ctorrent,
    Client.mk (sv "-DE") (sv "Deluge") format_func.four_digit,
    Client.mk (sv "-DP") (sv "Propagate Data Client") format_func.four_digit,
    Client.mk (sv "-EB") (sv "EBit") format_func.four_digit,
    Client.mk (sv "-ES") (sv "Electric Sheep") format_func.three_digit,
    Client.mk (sv "-FC") (sv "FileCroc") format_func.four_digit,
    Client.mk (sv "-FD") (sv "Free Download Manager") format_func.three_digit,
    Client.mk (sv "-FG") (sv "FlashGet") format_func.two_major_two_minor,
    Client.mk (sv "-FL") (sv "Folx") format_func.folx,
    Client.mk (sv "-FT") (sv "FoxTorrent/RedSwoosh") format_func.four_digit,
    Client.mk (sv "-FW") (sv "FrostWire") format_func.three_digit,
    Client.mk (sv "-FX") (sv "Freebox") format_func.four_digit,
    Client.mk (sv "-G3") (sv "G3 Torrent") format_func.no_version,
    Client.mk (sv "-GR") (sv "GetRight") format_func.four_digit,
    Client.mk (sv "-GS") (sv "GSTorrent") format_func.four_digit,
    Client.mk (sv "-HK") (sv "Hekate") format_func.four_digit,
    Client.mk (sv "-HL") (sv "Halite") format_func.three_digit,
    Client.mk (sv "-HN") (sv "Hydranode") format_func.four_digit,
    Client.mk (sv "-KG") (sv "KGet") format_func.four_digit,
    Client.mk (sv "-KT") (sv "KTorrent") format_func.ktorrent,
    Client.mk (sv "-LC") (sv "LeechCraft") format_func.four_digit,
    Client.mk (sv "-LH") (sv "LH-ABC") format_func.four_digit,
    Client.mk (sv "-LP") (sv "Lphant") format_func.two_major_two_minor,
    Client.mk (sv "-LT") (sv "libtorrent (Rasterbar)") format_func.three_digit,
    Client.mk (sv "-LW") (sv "LimeWire") format_func.no_version,
    Client.mk (sv "-Lr") (sv "LibreTorrent") format_func.three_digit,
    Client.mk (sv "-MG") (sv "MediaGet") format_func.mediaget,
    Client.mk (sv "-MK") (sv "Meerkat") format_func.four_digit,
    Client.mk (sv "-ML") (sv "MLDonkey") format_func.mldonkey,
    Client.mk (sv "-MO") (sv "MonoTorrent") format_func.four_digit,
    Client.mk (sv "-MP") (sv "MooPolice") format_func.three_digit,
    Client.mk (sv "-MR") (sv "Miro") format_func.four_digit,
    Client.mk (sv "-MT") (sv "Moonlight") format_func.four_digit,
    Client.mk (sv "-NE") (sv "BT Next Evolution") format_func.four_digit,
    Client.mk (sv "-NX") (sv "Net Transport") format_func.four_digit,
    Client.mk (sv "-OS") (sv "OneSwarm") format_func.four_digit,
    Client.mk (sv "-OT") (sv "OmegaTorrent") format_func.four_digit,
    Client.mk (sv "-PD") (sv "Pando") format_func.four_digit,
    Client.mk (sv "-PI") (sv "PicoTorrent") format_func.picotorrent,
    Client.mk (sv "-QD") (sv "QQDownload") format_func.four_digit,
    Client.mk (sv "-QT") (sv "QT 4 Torrent example") format_func.four_digit,
    Client.mk (sv "-RS") (sv "Rufus") format_func.four_digit,
    Client.mk (sv "-RT") (sv "Retriever") format_func.four_digit,
    Client.mk (sv "-RZ") (sv "RezTorrent") format_func.four_digit,
    Client.mk (sv "-SB") (sv "~Swiftbit") format_func.four_digit,
    Client.mk (sv "-SD") (sv "Thunder") format_func.four_digit,
    Client.mk (sv "-SM") (sv "SoMud") format_func.four_digit,
    Client.mk (sv "-SP") (sv "BitSpirit") format_func.three_digit,
    Client.mk (sv "-SS") (sv "SwarmScope") format_func.four_digit,
    Client.mk (sv "-ST") (sv "SymTorrent") format_func.four_digit,
    Client.mk (sv "-SZ") (sv "Shareaza") format_func.four_digit,
    Client.mk (sv "-S~") (sv "Shareaza") format_func.four_digit,
    Client.mk (sv "-TN") (sv "Torrent .NET") format_func.four_digit,
    Client.mk (sv "-TR") (sv "Transmission") format_func.transmission,
    Client.mk (sv "-TS") (sv "Torrentstorm") format_func.four_digit,
    Client.mk (sv "-TT") (sv "TuoTu") format_func.four_digit,
    Client.mk (sv "-UE") (sv "\xc2\xb5Torrent Embedded") format_func.utorrent,
    Client.mk (sv "-UL") (sv "uLeecher!") format_func.four_digit,
    Client.mk (sv "-UM") (sv "\xc2\xb5Torrent Mac") format_func.utorrent,
    Client.mk (sv "-UT") (sv "\xc2\xb5Torrent") format_func.utorrent,
    Client.mk (sv "-UW") (sv "\xc2\xb5Torrent Web") format_func.utorrent,
    Client.mk (sv "-VG") (sv "Vagaa") format_func.four_digit,
    Client.mk (sv "-WS") (sv "HTTP Seed") format_func.no_version,
    Client.mk (sv "-WT") (sv "BitLet") format_func.four_digit,
    Client.mk (sv "-WT-") (sv "BitLet") format_func.no_version,
    Client.mk (sv "-WW") (sv "WebTorrent") format_func.four_digit,
    Client.mk (sv "-WY") (sv "FireTorrent") format_func.four_digit,
    Client.mk (sv "-XC") (sv "Xtorrent") format_func.xtorrent,
    Client.mk (sv "-XF") (sv "Xfplay") format_func.xfplay,
    Client.mk (sv "-XL") (sv "Xunlei") format_func.four_digit,
    Client.mk (sv "-XS") (sv "XSwifter") format_func.four_digit,
    Client.mk (sv "-XT") (sv "XanTorrent") format_func.four_digit,
    Client.mk (sv "-XX") (sv "Xtorrent") format_func.xtorrent,
    Client.mk (sv "-ZO") (sv "Zona") format_func.four_digit,
    Client.mk (sv "-ZT") (sv "Zip Torrent") format_func.four_digit,
    Client.mk (sv "-bk") (sv "BitKitten (libtorrent)") format_func.four_digit,
    Client.mk (sv "-lt") (sv "libTorrent (Rakshasa)") format_func.three_digit,
    Client.mk (sv "-pb") (sv "pbTorrent") format_func.three_digit,
    Client.mk (sv "-qB") (sv "qBittorrent") format_func.three_digit,
    Client.mk (sv "-st") (sv "SharkTorrent") format_func.four_digit,
    Client.mk (sv "10-------") (sv "JVtorrent") format_func.no_version,
    Client.mk (sv "346-") (sv "TorrentTopia") format_func.no_version,
    Client.mk (sv "A2") (sv "aria2") format_func.aria2,
    Client.mk (sv "AZ2500BT") (sv "BitTyrant (Azureus Mod)") format_func.no_version,
    Client.mk (sv "BLZ") (sv "Blizzard Downloader") format_func.blizzard,
    Client.mk (sv "DNA") (sv "BitTorrent DNA") format_func.bittorrent_dna,
    Client.mk (sv "LIME") (sv "Limewire") format_func.no_version,
    Client.mk (sv "M") (sv "BitTorrent") format_func.mainline,
    Client.mk (sv "Mbrst") (sv "burst!") format_func.burst,
    Client.mk (sv "OP") (sv "Opera") format_func.opera,
    Client.mk (sv "Pando") (sv "Pando") format_func.no_version,
    Client.mk (sv "Plus") (sv "Plus!") format_func.plus,
    Client.mk (sv "Q") (sv "Queen Bee") format_func.mainline,
    Client.mk (sv "QVOD") (sv "QVOD") format_func.qvod,
    Client.mk (sv "S3") (sv "Amazon S3") format_func.amazon,
    Client.mk (sv "TIX") (sv "Tixati") format_func.two_major_two_minor,
    Client.mk (sv "XBT") (sv "XBT Client") format_func.xbt,
    Client.mk (sv "a00---0") (sv "Swarmy") format_func.no_version,
    Client.mk (sv "a02---0") (sv "Swarmy") format_func.no_version,
    Client.mk (sv "aria2-") (sv "aria2") format_func.no_version,
    Client.mk (sv "btpd") (sv "BT Protocol Daemon") format_func.btpd,
    Client.mk (sv "eX") (sv "eXeem") format_func.no_version,
    Client.mk (sv "martini") (sv "Martini Man") format_func.no_version
  ]

/-! ## `tr_clientForId` -/

/-- Order `operator<` of `std::string_view`: bytes compared as unsigned, a proper prefix is
smaller. -/
def sv_lt : List Nat → List Nat → Bool
  | _, [] => false
  | [], _ :: _ => true
  | a :: as, b :: bs => if a < b then true else if b < a then false else sv_lt as bs

/-- The member `Compare::operator()(std::string_view const& key, Client const& client)`. -/
def Compare_key_client (key : List Nat) (client : Client) : Bool :=
  let key_lhs := key.take (min key.length client.begins_with.length)
  sv_lt key_lhs client.begins_with

/-- The member `Compare::operator()(Client const& client, std::string_view const& key)`. -/
def Compare_client_key (client : Client) (key : List Nat) : Bool :=
  let key_lhs := key.take (min key.length client.begins_with.length)
  sv_lt client.begins_with key_lhs

/-- Element `first[i]` of a table; the searches below only read inside the table. -/
def elem (table : List Client) (i : Nat) : Client :=
  table.getD i ⟨[], [], format_func.no_version⟩

/-- The `std::lower_bound(first, first + len, key, comp)` halving loop on indices.  `fuel`
bounds the iterations; `len` shrinks in each, so `len ≤ fuel` is enough. -/
def lower_bound (table : List Client) (key : List Nat) : Nat → Nat → Nat → Nat
  | 0, first, _ => first
  | fuel + 1, first, len =>
    if 0 < len then
      let half := len / 2
      let middle := first + half
      if Compare_client_key (elem table middle) key then
        lower_bound table key fuel (middle + 1) (len - half - 1)
      else
        lower_bound table key fuel first half
    else first

/-- The `std::upper_bound(first, first + len, key, comp)` halving loop on indices. -/
def upper_bound (table : List Client) (key : List Nat) : Nat → Nat → Nat → Nat
  | 0, first, _ => first
  | fuel + 1, first, len =>
    if 0 < len then
      let half := len / 2
      let middle := first + half
      if Compare_key_client key (elem table middle) then
        upper_bound table key fuel first half
      else
        upper_bound table key fuel (middle + 1) (len - half - 1)
    else first

/-- The loop of `std::equal_range(first, first + len, key, comp)`: halve until an element
equivalent to the key is met, then finish with `lower_bound` to its left and `upper_bound`
to its right. -/
def equal_range_loop (table : List Client) (key : List Nat) : Nat → Nat → Nat → Nat × Nat
  | 0, first, _ => (first, first)
  | fuel + 1, first, len =>
    if 0 < len then
      let half := len / 2
      let middle := first + half
      if Compare_client_key (elem table middle) key then
        equal_range_loop table key fuel (middle + 1) (len - half - 1)
      else if Compare_key_client key (elem table middle) then
        equal_range_loop table key fuel first half
      else
        let left := lower_bound table key half first half
        let right := upper_bound table key (len - half - 1) (middle + 1) (len - half - 1)
        (left, right)
    else (first, first)

/-- The call `std::equal_range(std::begin(table), std::end(table), key, Compare{})`, as the
pair of indices `(eq.first, eq.second)`. -/
def equal_range (table : List Client) (key : List Nat) : Nat × Nat :=
  equal_range_loop table key table.length 0 table.length

/-- The registry lookup of `tr_clientForId`: index of `*eq.first` when
`eq.first != end && eq.first != eq.second`. -/
def lookup (table : List Client) (key : List Nat) : Option Nat :=
  let eq := equal_range table key
  if eq.1 ≠ table.length ∧ eq.1 ≠ eq.2 then some eq.1 else none

/-- The test `isprint((unsigned char)c) != 0` in the "C" locale. -/
def isprint (c : Nat) : Bool := 32 ≤ c && c ≤ 126

/-- Modelled from the spec: `tr_str_is_empty` is declared in `utils.h`, which is not part of
the sources at hand.  The fallback "only runs if ... the output buffer is still empty at this
point": the string at `buf` is empty when its first byte is the NUL. -/
def tr_str_is_empty (m : Mem) (buf : Nat) : Bool := m.load buf == some 0

/-- The `for (size_t i = 0; i < 8; ++i)` loop of the fallback, over the bytes still to do;
`out` is `[begin, walk)` of the 32-byte scratch array, `end - walk - 1` the limit handed to
`format_to_n`. -/
def escape_loop : List Nat → List Nat → List Nat
  | [], out => out
  | c :: rest, out =>
    if isprint c then escape_loop rest (out ++ [c])
    else escape_loop rest (out ++ ((37 :: fmt_02X c).take (32 - out.length - 1)))

/-- Translation of `tr_clientForId(buf, buflen, peer_id)`, with `buf` at offset 0 of the
caller's buffer; the returned pointer is `buf` itself, the result is the memory left. -/
def tr_clientForId (char_signed : Bool) (m : Mem) (buflen : Nat) (peer_id : List Nat) : Mem :=
  let buf := 0
  let m := m.store buf 0
  let key := peer_id
  let r1 := decodeShad0wClient m buf buflen key
  if r1.1 then r1.2
  else
    let r2 := decodeBitCometClient r1.2 buf buflen key
    if r2.1 then r2.2
    else
      let m := r2.2
      if at_ peer_id 0 = 0 ∧ at_ peer_id 2 = 66 ∧ at_ peer_id 3 = 83 then
        format_to_n_nul ⟨m, buf, buflen⟩
          (sv "BitSpirit " ++
            fmt_d (if at_ peer_id 1 = 0 then 1 else char_to_int char_signed (at_ peer_id 1)))
      else
        match lookup Clients key with
        | some i =>
          (elem Clients i).formatter.call char_signed m buf buflen (elem Clients i).name peer_id
        | none =>
          if tr_str_is_empty m buf then
            let out := escape_loop (List.range 8 |>.map (at_ peer_id)) []
            (buf_append ⟨m, buf, buflen⟩ [.str out]).mem
          else m

/-- The label the caller reads back: the C string at the returned pointer. -/
def label (m : Mem) : Option (List Nat) := m.c_str 64 0

/-- A peer id as `tr_peer_id_t` holds it: 20 bytes. -/
abbrev is_peer_id (pid : List Nat) : Prop := pid.length = 20 ∧ ∀ b ∈ pid, b < 256

/-! ## Reference definitions, written from the specification's wording -/

/-- Following the spec's words: a record matches when its prefix and the identifier agree on
their first `min(len(prefix), len(identifier))` bytes. -/
def prefix_matches (client : Client) (key : List Nat) : Bool :=
  let n := min client.begins_with.length key.length
  client.begins_with.take n == key.take n

/-- Following the spec's words: the linear scan, giving the first record in table order whose
prefix matches, as an index. -/
def linear_scan (table : List Client) (key : List Nat) : Option Nat :=
  let i := table.findIdx (fun client => prefix_matches client key)
  if i < table.length then some i else none

/-- Following the spec's words (section 9): a decoder looks at an identifier and either
declines (`none`) or produces output, here the memory it leaves. -/
abbrev Decoder := Mem → Nat → List Nat → Option Mem

/-- The Shadow decoder, run on its own. -/
def shadow_decoder : Decoder := fun m buflen pid =>
  if (decodeShad0wClient m 0 buflen pid).1 then some (decodeShad0wClient m 0 buflen pid).2
  else none

/-- The BitComet decoder, run on its own. -/
def bitcomet_decoder : Decoder := fun m buflen pid =>
  if (decodeBitCometClient m 0 buflen pid).1 then some (decodeBitCometClient m 0 buflen pid).2
  else none

/-- The BitSpirit zero-prefix rule, run on its own. -/
def bitspirit_decoder (char_signed : Bool) : Decoder := fun m buflen pid =>
  if at_ pid 0 = 0 ∧ at_ pid 2 = 66 ∧ at_ pid 3 = 83 then
    some (format_to_n_nul ⟨m, 0, buflen⟩
      (sv "BitSpirit " ++ fmt_d (if at_ pid 1 = 0 then 1 else char_to_int char_signed (at_ pid 1))))
  else none

/-- The registry step, run on its own: the lookup, then the formatter of the record found. -/
def registry_decoder (char_signed : Bool) : Decoder := fun m buflen pid =>
  match lookup Clients pid with
  | some i =>
    some ((elem Clients i).formatter.call char_signed m 0 buflen (elem Clients i).name pid)
  | none => none

/-- The fallback, run on its own; it never declines. -/
def fallback_decoder : Decoder := fun m buflen pid =>
  some (buf_append ⟨m, 0, buflen⟩ [.str (escape_loop (List.range 8 |>.map (at_ pid)) [])]).mem

/-- Following the spec's words: the decoders are tried in a fixed order and the first one
that matches determines the result. -/
def first_match : List Decoder → Decoder
  | [], _, _, _ => none
  | d :: rest, m, buflen, pid =>
    match d m buflen pid with
    | some r => some r
    | none => first_match rest m buflen pid

/-- The priority order of the spec: Shadow, BitComet, BitSpirit zero-prefix, registry,
fallback. -/
def decoders (char_signed : Bool) : List Decoder :=
  [shadow_decoder, bitcomet_decoder, bitspirit_decoder char_signed,
    registry_decoder char_signed, fallback_decoder]

/-- Following the spec's words: the fixed 7-entry map from the leading byte to the display
name of the Shadow family. -/
def shad0w_names : List (Nat × List Nat) :=
  [(65, sv "ABC"), (79, sv "Osprey"), (81, sv "BTQueue"), (82, sv "Tribler"), (83, sv "Shad0w"),
    (84, sv "BitTornado"), (85, sv "UPnP NAT Bit Torrent")]

/-- Decimal rendering of a natural number, as bytes. -/
def decimal (n : Nat) : List Nat := (Nat.toDigits 10 n).map Char.toNat

/-- Decimal rendering padded with a zero to two digits at least. -/
def decimal2 (n : Nat) : List Nat := if n < 10 then 48 :: decimal n else decimal n

/-- The pieces joined with `.` between them. -/
def dotted : List (List Nat) → List Nat
  | [] => []
  | [x] => x
  | x :: y :: rest => x ++ [46] ++ dotted (y :: rest)

/-- Following the spec's words: the modifier that goes with each of the three BitComet
leads. -/
def bitcomet_modifiers : List (List Nat × List Nat) :=
  [(sv "exbc", sv ""), (sv "FUTB", sv "(Solidox Mod) "), (sv "xUTB", sv "(Mod 2) ")]

/-- Uppercase hexadecimal digit of a value below 16. -/
def hexU (n : Nat) : Nat := (sv "0123456789ABCDEF").getD n 0

/-- Following the spec's words: a printable ASCII byte is copied, any other byte becomes `%`
and its two uppercase hex digits. -/
def escape_byte (b : Nat) : List Nat :=
  if 32 ≤ b ∧ b ≤ 126 then [b] else [37, hexU (b / 16), hexU (b % 16)]

/-- The escaped rendering of a byte string. -/
def escaped : List Nat → List Nat
  | [] => []
  | b :: rest => escape_byte b ++ escaped rest

/-! ## Vocabulary of the proofs: what the buffer holds -/

/-- Text the Shadow decoder appends for its values: each number followed by a `.`. -/
def dots : List Int → List Nat
  | [] => []
  | v :: rest => itoa v ++ [46] ++ dots rest

/-- The memory holds the string `s` from offset 0 on, closed by a NUL. -/
def Str (m : Mem) (s : List Nat) : Prop :=
  (∀ i, i < s.length → m.load i = some (s.getD i 0)) ∧ m.load s.length = some 0

/-- Text an argument of `buf_append` stands for. -/
def Arg.text : Arg → List Nat
  | .ch x => [x]
  | .str s => s
  | .num n => itoa n

/-- Text of an argument list. -/
def text : List Arg → List Nat
  | [] => []
  | a :: rest => a.text ++ text rest

/-- The cursor stands right after the text `s`, which starts at offset 0 of a buffer of
`cap` bytes, and `buflen` is what is left of `cap`. -/
structure At (c : Cursor) (cap : Nat) (s : List Nat) : Prop where
  buf_eq : c.buf = s.length
  len_eq : c.buflen = cap - s.length
  room : s.length < cap
  cap_lt : cap < SIZE_MOD
  bytes : ∀ i, i < s.length → c.mem.load i = some (s.getD i 0)

/-- As `At`, and the text is closed by a NUL. -/
def Holds (c : Cursor) (cap : Nat) (s : List Nat) : Prop :=
  At c cap s ∧ c.mem.load s.length = some 0

/-! ## Further reference definitions -/

/-- Following the spec's words: a byte read as a case-insensitive base-36 digit, rendered in
decimal: the digit itself for `0`..`9`, 10 plus the alphabet position for a letter of either
case, and `x` for any other byte. -/
def charint_spec (ch : Nat) : List Nat :=
  if 48 ≤ ch ∧ ch ≤ 57 then [ch]
  else if 97 ≤ ch ∧ ch ≤ 122 then decimal (10 + (ch - 97))
  else if 65 ≤ ch ∧ ch ≤ 90 then decimal (10 + (ch - 65))
  else sv "x"

/-- The two `Compare` calls that make a record and a key equivalent: neither is below the
other. -/
abbrev Compare_equivalent (key : List Nat) (client : Client) : Prop :=
  Compare_key_client key client = false ∧ Compare_client_key client key = false

/-- Following the spec's words: the key and the prefix agree byte for byte on their first
`min(len(prefix), len(key))` bytes. -/
abbrev agree_on_shorter (key prefix_bytes : List Nat) : Prop :=
  key.take (min prefix_bytes.length key.length) =
    prefix_bytes.take (min prefix_bytes.length key.length)

/-- An ASCII decimal digit. -/
abbrev is_digit (b : Nat) : Prop := 48 ≤ b ∧ b ≤ 57

/-- An ASCII letter. -/
abbrev is_letter (b : Nat) : Prop := (65 ≤ b ∧ b ≤ 90) ∨ (97 ≤ b ∧ b ≤ 122)

/-- Value of two ASCII decimal digits read as a number. -/
def two_digits (a b : Nat) : Nat := 10 * (a - 48) + (b - 48)

/-- Value of a byte read as a hexadecimal digit of either case, 0 for any other byte. -/
def hex_value (b : Nat) : Nat :=
  if 48 ≤ b ∧ b ≤ 57 then b - 48
  else if 97 ≤ b ∧ b ≤ 102 then b - 87
  else if 65 ≤ b ∧ b ≤ 70 then b - 55
  else 0

/-- Following the spec's words: the mnemonic suffix, ` (Beta)` for `b` and `B`, ` (Debug)`
for `d`, ` (Dev)` for `x`, `X` and `Z`, nothing otherwise. -/
def mnemonic_suffix (b : Nat) : List Nat :=
  if b ∈ sv "bB" then sv " (Beta)"
  else if b ∈ sv "d" then sv " (Debug)"
  else if b ∈ sv "xXZ" then sv " (Dev)"
  else []

/-- The C string a byte sequence denotes once it is stored with a closing NUL: its bytes up
to the first NUL among them. -/
def c_string (s : List Nat) : List Nat := s.takeWhile (fun b => b ≠ 0)

/-- Index and prefix of the records whose rules the theorems below go through: the ones
registered with `three_digit_formatter`, `two_major_two_minor_formatter`,
`utorrent_formatter` and `transmission_formatter`. -/
def simple_heads : List (Nat × List Nat) :=
  [(0, sv "-AD"), (7, sv "-A~"), (30, sv "-ES"), (32, sv "-FD"), (36, sv "-FW"),
    (42, sv "-HL"), (49, sv "-LT"), (51, sv "-Lr"), (56, sv "-MP"), (73, sv "-SP"),
    (102, sv "-lt"), (103, sv "-pb"), (104, sv "-qB"),
    (5, sv "-AX"), (9, sv "-BC"), (25, sv "-CD"), (33, sv "-FG"), (48, sv "-LP"),
    (121, sv "TIX"),
    (22, sv "-BT"), (82, sv "-UE"), (84, sv "-UM"), (85, sv "-UT"), (86, sv "-UW"),
    (79, sv "-TR")]

/-! ## Vocabulary of the size bound -/

/-- The function `f`, which fills a buffer of `buflen` bytes starting from the memory `m`,
leaves one and the same text of at most `bound` bytes, closed by a NUL, in every buffer of
more than `bound` bytes, and stores nowhere outside the buffer. -/
def Fits (f : Mem → Nat → Mem) (bound : Nat) : Prop :=
  ∃ s : List Nat, s.length ≤ bound ∧
    ∀ (m : Mem) (buflen : Nat), bound < buflen → buflen < SIZE_MOD →
      Str (f m buflen) s ∧ (m.within buflen = true → (f m buflen).within buflen = true)

/-- The most bytes each formatter appends after the name. -/
def extra : format_func → Nat
  | .amazon => 6
  | .aria2 => 7
  | .bitbuddy => 6
  | .bitlord => 10
  | .bitrocket => 9
  | .bits_on_wheels => 6
  | .bittorrent_dna => 9
  | .blizzard => 7
  | .btpd => 4
  | .burst => 6
  | .ctorrent => 9
  | .folx => 5
  | .four_digit => 12
  | .ktorrent => 13
  | .mainline => 7
  | .mediaget => 6
  | .mldonkey => 6
  | .no_version => 0
  | .opera => 5
  | .picotorrent => 9
  | .plus => 5
  | .qvod => 12
  | .three_digit => 9
  | .transmission => 7
  | .two_major_two_minor => 6
  | .utorrent => 17
  | .xbt => 14
  | .xfplay => 9
  | .xtorrent => 10

/-! ## Vocabulary of the reachability of the records -/

/-- A record's prefix filled up with bytes `0` to the 20 bytes of an identifier. -/
def padded (p : List Nat) : List Nat := p ++ List.replicate (20 - p.length) 48

/-! ## Vocabulary of the Shadow label and of the digit spans -/

/-- Following the spec's words: the label of the Shadow family, the mapped name, a space, and
the alphabet indices of the bytes 1..k in their order, in decimal, joined by `.`. -/
def shad0w_label (name pid : List Nat) (k : Nat) : List Nat :=
  name ++ [32] ++ dotted ((List.range k).map
    (fun i => decimal (List.indexOf (at_ pid (i + 1)) shad0w_alphabet)))

/-- Following the spec's words: a digit span as `buf_append(int)` shows it, `0` when the span
cannot be parsed. -/
def span_int (pid : List Nat) (off span base : Nat) : List Nat :=
  match tr_parseNum (sub_view pid off span) base with
  | some v => itoa v
  | none => sv "0"

/-- Following the spec's words: a digit span as `{:d}` shows it, `0` when the span cannot be
parsed. -/
def span_d (pid : List Nat) (off span base : Nat) : List Nat :=
  match tr_parseNum (sub_view pid off span) base with
  | some v => fmt_d v
  | none => sv "0"

/-- Following the spec's words: a digit span as `{:02d}` shows it, `00` when the span cannot
be parsed. -/
def span_02d (pid : List Nat) (off span base : Nat) : List Nat :=
  match tr_parseNum (sub_view pid off span) base with
  | some v => fmt_02d v
  | none => sv "00"

/-- The rules that read a digit span with `strint`. -/
def strint_rules : List format_func :=
  [.two_major_two_minor, .bittorrent_dna, .transmission, .utorrent, .xtorrent]

/-- Following the spec's words: the text each rule of `strint_rules` lays out, every digit
span shown as above; `none` for the other rules, which read no digit span. -/
def strint_layout (f : format_func) (name pid : List Nat) : Option (List Nat) :=
  match f with
  | .two_major_two_minor =>
    some (name ++ [32] ++ span_int pid 3 2 10 ++ [46] ++ span_02d pid 5 2 10)
  | .bittorrent_dna =>
    some (name ++ [32] ++ span_d pid 3 2 10 ++ [46] ++ span_d pid 5 2 10 ++ [46] ++
      span_d pid 7 2 10)
  | .transmission =>
    if sub_view pid 3 3 = sv "000" then some (name ++ [32] ++ sv "0." ++ [at_ pid 6])
    else if sub_view pid 3 2 = sv "00" then
      some (name ++ [32] ++ sv "0." ++ span_02d pid 5 2 10)
    else
      some (name ++ [32] ++ span_d pid 3 1 10 ++ [46] ++ span_02d pid 4 2 10 ++
        (if at_ pid 6 = 90 ∨ at_ pid 6 = 88 then sv "+" else []))
  | .utorrent =>
    if at_ pid 7 = 45 then
      some (name ++ [32] ++ span_int pid 3 1 16 ++ [46] ++ span_int pid 4 1 16 ++ [46] ++
        span_int pid 5 1 16 ++ mnemonic_suffix (at_ pid 6))
    else
      some (name ++ [32] ++ span_int pid 3 1 16 ++ [46] ++ span_int pid 4 1 16 ++ [46] ++
        span_int pid 5 2 10 ++ mnemonic_suffix (at_ pid 7))
  | .xtorrent =>
    some (name ++ [32] ++ charint (at_ pid 3) ++ [46] ++ charint (at_ pid 4) ++ sv " (" ++
      span_d pid 5 2 10)
  | _ => none

/-- The records of `Clients` whose rule is one of `strint_rules`, by index, with their
prefix. -/
def strint_heads : List (Nat × List Nat) :=
  [(5, sv "-AX"), (9, sv "-BC"), (22, sv "-BT"), (25, sv "-CD"), (33, sv "-FG"),
    (48, sv "-LP"), (79, sv "-TR"), (82, sv "-UE"), (84, sv "-UM"), (85, sv "-UT"),
    (86, sv "-UW"), (93, sv "-XC"), (98, sv "-XX"), (111, sv "DNA"), (121, sv "TIX")]

set_option maxRecDepth 100000

/-! ## Memory lemmas -/

theorem load_store (m : Mem) (p b i : Nat) :
    (m.store p b).load i = if p = i then some b else m.load i := by
  unfold Mem.load Mem.store
  by_cases h : p = i
  · simp [List.find?, h]
  · have hb : (p == i) = false := by simpa using h
    simp only [List.find?, hb, if_neg h]

theorem load_storeList (l : List Nat) : ∀ (m : Mem) (p i : Nat),
    (m.storeList p l).load i =
      if p ≤ i ∧ i < p + l.length then some (l.getD (i - p) 0) else m.load i := by
  induction l with
  | nil =>
    intro m p i
    have h : ¬ (p ≤ i ∧ i < p + ([] : List Nat).length) := by simp
    rw [if_neg h]; rfl
  | cons x xs ih =>
    intro m p i
    simp only [Mem.storeList]
    rw [ih, load_store]
    have hlen : (x :: xs).length = xs.length + 1 := rfl
    by_cases h1 : p + 1 ≤ i
    · have h2 : p ≠ i := by omega
      have h3 : i - p = (i - (p + 1)) + 1 := by omega
      by_cases h4 : i < p + 1 + xs.length
      · have h5 : p ≤ i ∧ i < p + (x :: xs).length := by rw [hlen]; omega
        rw [if_pos ⟨h1, h4⟩, if_pos h5, h3]
        rfl
      · have h5 : ¬ (p ≤ i ∧ i < p + (x :: xs).length) := by rw [hlen]; omega
        have h6 : ¬ (p + 1 ≤ i ∧ i < p + 1 + xs.length) := by omega
        rw [if_neg h6, if_neg h5, if_neg h2]
    · have h6 : ¬ (p + 1 ≤ i ∧ i < p + 1 + xs.length) := by omega
      rw [if_neg h6]
      by_cases h2 : p = i
      · subst h2
        have h5 : p ≤ p ∧ p < p + (x :: xs).length := by rw [hlen]; omega
        rw [if_pos rfl, if_pos h5, Nat.sub_self]
        rfl
      · have h5 : ¬ (p ≤ i ∧ i < p + (x :: xs).length) := by rw [hlen]; omega
        rw [if_neg h2, if_neg h5]

theorem Str_storeList (m : Mem) (s t : List Nat)
    (h : ∀ i, i < s.length → m.load i = some (s.getD i 0)) :
    Str ((m.storeList s.length t).store (s.length + t.length) 0) (s ++ t) := by
  constructor
  · intro i hi
    rw [load_store, load_storeList]
    have hi2 : i < s.length + t.length := by simpa using hi
    have h1 : s.length + t.length ≠ i := by omega
    by_cases h2 : i < s.length
    · have h3 : ¬ (s.length ≤ i ∧ i < s.length + t.length) := by omega
      simp only [h1, h3, if_false]
      rw [h i h2]
      simp [List.getD_eq_getElem?_getD, List.getElem?_append_left h2]
    · have h3 : s.length ≤ i ∧ i < s.length + t.length := by omega
      simp only [h1, h3, if_false, and_self, if_true]
      simp [List.getD_eq_getElem?_getD, List.getElem?_append_right (Nat.le_of_not_lt h2)]
  · rw [load_store]; simp

theorem c_str_of_bytes (m : Mem) (t : List Nat) : ∀ (fuel pos : Nat),
    (∀ i, i < t.length → m.load (pos + i) = some (t.getD i 0)) →
    m.load (pos + t.length) = some 0 → 0 ∉ t → t.length < fuel →
    m.c_str fuel pos = some t := by
  induction t with
  | nil =>
    intro fuel pos _ h0 _ hf
    obtain ⟨f, rfl⟩ : ∃ f, fuel = f + 1 := ⟨fuel - 1, by simp at hf; omega⟩
    simp at h0
    simp [Mem.c_str, h0]
  | cons x xs ih =>
    intro fuel pos hb h0 hn hf
    obtain ⟨f, rfl⟩ : ∃ f, fuel = f + 1 := ⟨fuel - 1, by simp at hf; omega⟩
    have hx : m.load pos = some x := by simpa using hb 0 (by simp)
    have hx0 : x ≠ 0 := by intro h; apply hn; simp [h]
    obtain ⟨x', rfl⟩ : ∃ x', x = x' + 1 := ⟨x - 1, by omega⟩
    have hrec : m.c_str f (pos + 1) = some xs := by
      apply ih
      · intro i hi
        have := hb (i + 1) (by simpa using hi)
        simpa [Nat.add_assoc, Nat.add_comm 1 i] using this
      · have : pos + 1 + xs.length = pos + ((x' + 1) :: xs).length := by
          simp only [List.length_cons]; omega
        rw [this]; exact h0
      · intro h; apply hn; simp [h]
      · simp at hf; omega
    simp [Mem.c_str, hx, hrec]

theorem label_of_Str (m : Mem) (s : List Nat) (h : Str m s) (h0 : 0 ∉ s) (hl : s.length < 64) :
    label m = some s := by
  unfold label
  apply c_str_of_bytes
  · intro i hi; simpa using h.1 i hi
  · simpa using h.2
  · exact h0
  · exact hl

/-! ## `buf_append` while the text fits -/

theorem Holds.str {c : Cursor} {cap : Nat} {s : List Nat} (h : Holds c cap s) : Str c.mem s :=
  ⟨h.1.bytes, h.2⟩

theorem size_sub_of_le (a b : Nat) (h : b ≤ a) (ha : a < SIZE_MOD) : size_sub a b = a - b := by
  unfold size_sub
  have hb : b % SIZE_MOD = b := Nat.mod_eq_of_lt (by omega)
  rw [hb]
  have : a + SIZE_MOD - b = (a - b) + SIZE_MOD := by omega
  rw [this, Nat.add_mod_right]
  exact Nat.mod_eq_of_lt (by omega)

theorem At_start (m : Mem) (cap : Nat) (h0 : 0 < cap) (h1 : cap < SIZE_MOD) :
    At ⟨m, 0, cap⟩ cap [] :=
  ⟨rfl, rfl, h0, h1, by intro i hi; simp at hi⟩

theorem buf_append_sv_holds {c : Cursor} {cap : Nat} {s : List Nat} (t : List Nat)
    (h : At c cap s) (hfit : s.length + t.length < cap) :
    Holds (buf_append_sv c t) cap (s ++ t) := by
  have hcap := h.cap_lt
  have hlen : min (size_sub c.buflen 1) t.length = t.length := by
    rw [h.len_eq, size_sub_of_le _ _ (by omega) (by omega)]
    exact Nat.min_eq_right (by omega)
  have hstr := Str_storeList c.mem s t h.bytes
  unfold buf_append_sv
  simp only [hlen, List.take_length]
  rw [h.buf_eq]
  refine ⟨⟨by simp, ?_, by simpa using hfit, hcap, ?_⟩, ?_⟩
  · simp only [h.len_eq]
    rw [size_sub_of_le _ _ (by omega) (by omega)]
    simp; omega
  · exact hstr.1
  · simpa using hstr.2

theorem buf_append_char_holds {c : Cursor} {cap : Nat} {s : List Nat} (x : Nat)
    (h : At c cap s) (hfit : s.length + 1 < cap) :
    Holds (buf_append_char c x) cap (s ++ [x]) := by
  have hcap := h.cap_lt
  have h2 : 2 ≤ c.buflen := by rw [h.len_eq]; omega
  have hstr := Str_storeList c.mem s [x] h.bytes
  unfold buf_append_char
  simp only [if_pos h2]
  rw [h.buf_eq]
  refine ⟨⟨by simp, ?_, by simpa using hfit, hcap, ?_⟩, ?_⟩
  · simp only [h.len_eq]
    rw [size_sub_of_le _ _ (by omega) (by omega)]
    simp; omega
  · exact hstr.1
  · simpa using hstr.2

theorem buf_append1_holds {c : Cursor} {cap : Nat} {s : List Nat} (a : Arg)
    (h : At c cap s) (hfit : s.length + a.text.length < cap) :
    Holds (buf_append1 c a) cap (s ++ a.text) := by
  cases a with
  | ch x => exact buf_append_char_holds x h (by simpa [Arg.text] using hfit)
  | str t => exact buf_append_sv_holds t h hfit
  | num n => exact buf_append_sv_holds (itoa n) h hfit

theorem buf_append_holds (args : List Arg) : ∀ {c : Cursor} {cap : Nat} {s : List Nat},
    Holds c cap s → s.length + (text args).length < cap →
    Holds (buf_append c args) cap (s ++ text args) := by
  induction args with
  | nil => intro c cap s h _; simpa [buf_append, text] using h
  | cons a rest ih =>
    intro c cap s h hfit
    simp only [text, List.length_append] at hfit
    have h1 := buf_append1_holds a h.1 (by omega)
    have h2 := ih h1 (by simp only [List.length_append]; omega)
    simpa [buf_append, text, List.append_assoc] using h2

theorem buf_append_holds_of_at (a : Arg) (rest : List Arg) {c : Cursor} {cap : Nat}
    {s : List Nat} (h : At c cap s) (hfit : s.length + (text (a :: rest)).length < cap) :
    Holds (buf_append c (a :: rest)) cap (s ++ text (a :: rest)) := by
  simp only [text, List.length_append] at hfit
  have h1 := buf_append1_holds a h (by omega)
  have h2 := buf_append_holds rest h1 (by simp only [List.length_append]; omega)
  simpa [buf_append, text, List.append_assoc] using h2

theorem format_to_n_nul_str {c : Cursor} {cap : Nat} {s : List Nat} (t : List Nat)
    (h : At c cap s) (hfit : s.length + t.length < cap) :
    Str (format_to_n_nul c t) (s ++ t) := by
  have hcap := h.cap_lt
  have hsub : size_sub c.buflen 1 = cap - s.length - 1 := by
    rw [h.len_eq, size_sub_of_le _ _ (by omega) (by omega)]
  have htake : t.take (cap - s.length - 1) = t := List.take_of_length_le (by omega)
  have hmin : min (cap - s.length - 1) t.length = t.length := Nat.min_eq_right (by omega)
  unfold format_to_n_nul format_to_n
  simp only [hsub, htake, hmin, h.buf_eq]
  exact Str_storeList c.mem s t h.bytes

theorem drop_last_str {c : Cursor} {cap : Nat} {s : List Nat} (x : Nat)
    (h : Holds c cap (s ++ [x])) : Str (c.mem.store (c.buf - 1) 0) s := by
  have hb : c.buf - 1 = s.length := by rw [h.1.buf_eq]; simp
  rw [hb]
  constructor
  · intro i hi
    rw [load_store, if_neg (by omega)]
    rw [h.1.bytes i (by simp; omega)]
    simp [List.getD_eq_getElem?_getD, List.getElem?_append_left hi]
  · rw [load_store, if_pos rfl]

/-! ## The fuel of the loops is enough -/

theorem tdiv_ten_nonpos (n : Int) (h : n ≤ 0) : Int.tdiv n 10 ≤ 0 := by
  have h1 : Int.tdiv n 10 = -(Int.tdiv (-n) 10) := by
    rw [Int.neg_tdiv, Int.neg_neg]
  have h2 : 0 ≤ Int.tdiv (-n) 10 := Int.tdiv_nonneg (by omega) (by decide)
  omega

/-- The digit loop of `buf_append(int)` ends before its fuel does: for every `n` below
`10 ^ fuel`, so for every `int` with fuel 31, the loop stops because `n / 10 > 0` fails. -/
theorem itoa_loop_fuel (fuel : Nat) : ∀ (n : Int) (acc : List Nat), n < 10 ^ fuel →
    Int.tdiv (itoa_loop fuel n acc).1 10 ≤ 0 := by
  induction fuel with
  | zero =>
    intro n acc h
    simp only [itoa_loop]
    have hn : n ≤ 0 := by simp at h; omega
    exact tdiv_ten_nonpos n hn
  | succ f ih =>
    intro n acc h
    simp only [itoa_loop]
    split
    · rename_i hpos
      apply ih
      have hnn : 0 ≤ n := by
        by_contra hneg
        have : Int.tdiv n 10 ≤ 0 := tdiv_ten_nonpos n (by omega)
        omega
      rw [Int.tdiv_eq_ediv hnn (by decide)]
      have : (10 : Int) ^ (f + 1) = 10 ^ f * 10 := by rw [pow_succ]
      rw [this] at h
      exact Int.ediv_lt_of_lt_mul (by decide) h
    · rename_i hnp
      simpa using hnp

theorem lower_bound_fuel (table : List Client) (key : List Nat) (fuel : Nat) :
    ∀ (first len : Nat), len ≤ fuel →
      lower_bound table key fuel first len = lower_bound table key len first len := by
  induction fuel using Nat.strong_induction_on with
  | _ fuel ih =>
    intro first len hle
    cases fuel with
    | zero =>
      have : len = 0 := by omega
      subst this; rfl
    | succ f =>
      cases len with
      | zero => simp [lower_bound]
      | succ l =>
        simp only [lower_bound, Nat.succ_pos, if_true]
        have h1 : (l + 1) / 2 ≤ l := by omega
        have h2 : l + 1 - (l + 1) / 2 - 1 ≤ l := by omega
        have e : ∀ x y, y ≤ l → lower_bound table key f x y = lower_bound table key l x y := by
          intro x y hy
          rw [ih f (by omega) x y (by omega), ih l (by omega) x y hy]
        rw [e _ _ h1, e _ _ h2]

theorem upper_bound_fuel (table : List Client) (key : List Nat) (fuel : Nat) :
    ∀ (first len : Nat), len ≤ fuel →
      upper_bound table key fuel first len = upper_bound table key len first len := by
  induction fuel using Nat.strong_induction_on with
  | _ fuel ih =>
    intro first len hle
    cases fuel with
    | zero =>
      have : len = 0 := by omega
      subst this; rfl
    | succ f =>
      cases len with
      | zero => simp [upper_bound]
      | succ l =>
        simp only [upper_bound, Nat.succ_pos, if_true]
        have h1 : (l + 1) / 2 ≤ l := by omega
        have h2 : l + 1 - (l + 1) / 2 - 1 ≤ l := by omega
        have e : ∀ x y, y ≤ l → upper_bound table key f x y = upper_bound table key l x y := by
          intro x y hy
          rw [ih f (by omega) x y (by omega), ih l (by omega) x y hy]
        rw [e _ _ h1, e _ _ h2]

/-- The halving loop of `equal_range` ends before its fuel does: any fuel of at least `len`
gives the result that fuel `len` gives. -/
theorem equal_range_loop_fuel (table : List Client) (key : List Nat) (fuel : Nat) :
    ∀ (first len : Nat), len ≤ fuel →
      equal_range_loop table key fuel first len = equal_range_loop table key len first len := by
  induction fuel using Nat.strong_induction_on with
  | _ fuel ih =>
    intro first len hle
    cases fuel with
    | zero =>
      have : len = 0 := by omega
      subst this; rfl
    | succ f =>
      cases len with
      | zero => simp [equal_range_loop]
      | succ l =>
        simp only [equal_range_loop, Nat.succ_pos, if_true]
        have h1 : (l + 1) / 2 ≤ l := by omega
        have h2 : l + 1 - (l + 1) / 2 - 1 ≤ l := by omega
        have e : ∀ x y, y ≤ l → equal_range_loop table key f x y = equal_range_loop table key l x y := by
          intro x y hy
          rw [ih f (by omega) x y (by omega), ih l (by omega) x y hy]
        rw [e _ _ h1, e _ _ h2]

/-! ## The registry: lookup and table -/

/-- C2, evaluated where it fails: for the identifier `Qzzzzzzzzzzzzzzzzzzz` the linear scan
finds the record `Q` (index 118), whose prefix is the identifier's first byte, while the
`std::equal_range` lookup finds nothing, because the record `QVOD` that follows `Q` compares
below this key; `tr_clientForId` then falls through to the escaped bytes `Qzzzzzzz`. -/
theorem lookup_misses_Q_record :
    is_peer_id (sv "Qzzzzzzzzzzzzzzzzzzz") ∧
    linear_scan Clients (sv "Qzzzzzzzzzzzzzzzzzzz") = some 118 ∧
    (elem Clients 118).begins_with = sv "Q" ∧
    equal_range Clients (sv "Qzzzzzzzzzzzzzzzzzzz") = (120, 120) ∧
    lookup Clients (sv "Qzzzzzzzzzzzzzzzzzzz") = none ∧
    (∀ cs, label (tr_clientForId cs Mem.fresh 64 (sv "Qzzzzzzzzzzzzzzzzzzz")) =
      some (sv "Qzzzzzzz")) := by
  decide

/-- C1, evaluated where it fails: with the identifier `-AD2030-xxxxxxxxxxxx` and a capacity of
5 bytes, `tr_clientForId` stores at the offsets 5 to 9, beyond the buffer, and the string it
leaves is `Adva2.0.3`, 9 bytes long instead of at most 4. -/
theorem tr_clientForId_writes_past_capacity :
    is_peer_id (sv "-AD2030-xxxxxxxxxxxx") ∧
    (∀ cs, (tr_clientForId cs Mem.fresh 5 (sv "-AD2030-xxxxxxxxxxxx")).within 5 = false) ∧
    (∀ cs, (tr_clientForId cs Mem.fresh 5 (sv "-AD2030-xxxxxxxxxxxx")).writes.map Prod.fst =
      [9, 8, 8, 7, 7, 6, 6, 5, 5, 4, 4, 4, 3, 2, 1, 0, 0]) ∧
    (∀ cs, label (tr_clientForId cs Mem.fresh 5 (sv "-AD2030-xxxxxxxxxxxx")) =
      some (sv "Adva2.0.3")) := by
  decide

/-- C9: the table `Clients` has 129 records and is strictly ascending in the byte-wise order of
`begins_with`: each record's prefix is below the next one's, under the comparison of the code
(`sv_lt`, the `operator<` of `std::string_view`) as well as under the lexicographic order of
byte lists; so no prefix occurs twice. -/
theorem Clients_strictly_sorted :
    Clients.length = 129 ∧
    (∀ i : Fin 128,
      sv_lt (elem Clients i).begins_with (elem Clients (i + 1)).begins_with = true) ∧
    (∀ i : Fin 128, (elem Clients i).begins_with < (elem Clients (i + 1)).begins_with) ∧
    (Clients.map Client.begins_with).Nodup := by
  decide

/-- C10, evaluated where it fails: the table holds three pairs of records in which the first
prefix is a strict prefix of the second (`-WT`/`-WT-`, `M`/`Mbrst`, `Q`/`QVOD`), and no other
such pair; the identifier `QVOD0054xxxxxxxxxxxx` is matched by two records, `Q` and `QVOD`, of
which the lookup takes the first. -/
theorem Clients_has_overlapping_prefixes :
    ((elem Clients 89).begins_with = sv "-WT" ∧ (elem Clients 90).begins_with = sv "-WT-") ∧
    ((elem Clients 113).begins_with = sv "M" ∧ (elem Clients 114).begins_with = sv "Mbrst") ∧
    ((elem Clients 118).begins_with = sv "Q" ∧ (elem Clients 119).begins_with = sv "QVOD") ∧
    (∀ i j : Fin 129, i ≠ j →
      (elem Clients i).begins_with.isPrefixOf (elem Clients j).begins_with = true →
      (i.val, j.val) ∈ [(89, 90), (113, 114), (118, 119)]) ∧
    is_peer_id (sv "QVOD0054xxxxxxxxxxxx") ∧
    prefix_matches (elem Clients 118) (sv "QVOD0054xxxxxxxxxxxx") = true ∧
    prefix_matches (elem Clients 119) (sv "QVOD0054xxxxxxxxxxxx") = true ∧
    lookup Clients (sv "QVOD0054xxxxxxxxxxxx") = some 118 := by
  decide

/-! ## Decoder priority -/

theorem decodeShad0wClient_fst_false (m : Mem) (buf buflen : Nat) (pid : List Nat)
    (h : (decodeShad0wClient m buf buflen pid).1 = false) :
    decodeShad0wClient m buf buflen pid = (false, m) := by
  unfold decodeShad0wClient at h ⊢
  simp only at h ⊢
  by_cases hc : (List.take 9 pid).length ≠ 9 ∨ at_ (List.take 9 pid) 6 ≠ 45 ∨
      at_ (List.take 9 pid) 7 ≠ 45 ∨ at_ (List.take 9 pid) 8 ≠ 45
  · rw [if_pos hc]
  · rw [if_neg hc] at h ⊢
    cases hv : shad0w_vals (strip_dashes (List.take 9 pid).reverse) [] with
    | none => rfl
    | some r =>
      rw [hv] at h
      cases hn : shad0w_name (at_ pid 0) with
      | none => rfl
      | some name =>
        rw [hn] at h
        simp only at h
        split at h <;> simp at h

theorem decodeBitCometClient_fst_false (m : Mem) (buf buflen : Nat) (pid : List Nat)
    (h : (decodeBitCometClient m buf buflen pid).1 = false) :
    decodeBitCometClient m buf buflen pid = (false, m) := by
  unfold decodeBitCometClient at h ⊢
  simp only at h ⊢
  split
  · rfl
  · rename_i mod hmod
    simp only [hmod] at h
    simp at h

/-- C3: `tr_clientForId` is the first match of the decoders tried in the order Shadow,
BitComet, BitSpirit zero-prefix, registry, fallback, each run on its own on the buffer as the
initial `*buf = 0` leaves it; in particular whenever the Shadow decoder accepts an identifier
its output is the result.  The identifier `Q1-0-0---xxxxxxxxxxx` begins with the registry
prefix `Q`, whose record alone would give `Queen Bee 1.0.0`; the result is the Shadow
decoder's `BTQueue 1.63.0.63.0`. -/
theorem decoder_priority :
    (∀ (cs : Bool) (m : Mem) (buflen : Nat) (pid : List Nat),
      some (tr_clientForId cs m buflen pid) =
        first_match (decoders cs) (m.store 0 0) buflen pid) ∧
    (∀ (cs : Bool) (m : Mem) (buflen : Nat) (pid : List Nat),
      (decodeShad0wClient (m.store 0 0) 0 buflen pid).1 = true →
      tr_clientForId cs m buflen pid = (decodeShad0wClient (m.store 0 0) 0 buflen pid).2) ∧
    (∀ cs, label (tr_clientForId cs Mem.fresh 64 (sv "Q1-0-0---xxxxxxxxxxx")) =
      some (sv "BTQueue 1.63.0.63.0")) ∧
    (∀ cs, (registry_decoder cs (Mem.fresh.store 0 0) 64 (sv "Q1-0-0---xxxxxxxxxxx")).map label =
      some (some (sv "Queen Bee 1.0.0"))) := by
  refine ⟨?_, ?_, by decide, by decide⟩
  · intro cs m buflen pid
    unfold tr_clientForId
    simp only [decoders, first_match, shadow_decoder, bitcomet_decoder, bitspirit_decoder,
      registry_decoder, fallback_decoder]
    by_cases h1 : (decodeShad0wClient (m.store 0 0) 0 buflen pid).1 = true
    · simp [h1]
    · have h1' : (decodeShad0wClient (m.store 0 0) 0 buflen pid).1 = false := by simpa using h1
      have e1 := decodeShad0wClient_fst_false _ _ _ _ h1'
      simp only [e1]
      by_cases h2 : (decodeBitCometClient (m.store 0 0) 0 buflen pid).1 = true
      · simp [h2]
      · have h2' : (decodeBitCometClient (m.store 0 0) 0 buflen pid).1 = false := by
          simpa using h2
        have e2 := decodeBitCometClient_fst_false _ _ _ _ h2'
        simp only [e2]
        have hemp : tr_str_is_empty (m.store 0 0) 0 = true := by
          simp [tr_str_is_empty, load_store]
        by_cases h3 : at_ pid 0 = 0 ∧ at_ pid 2 = 66 ∧ at_ pid 3 = 83
        · simp [h3]
        · cases h4 : lookup Clients pid with
          | none => simp [h3, hemp]
          | some i => simp [h3]
  · intro cs m buflen pid h
    unfold tr_clientForId
    simp [h]

/-- Witness for the priority theorem: the Shadow decoder accepts `Q1-0-0---xxxxxxxxxxx`. -/
theorem decoder_priority_witness :
    (decodeShad0wClient (Mem.fresh.store 0 0) 0 64 (sv "Q1-0-0---xxxxxxxxxxx")).1 = true ∧
    tr_clientForId true Mem.fresh 64 (sv "Q1-0-0---xxxxxxxxxxx") =
      (decodeShad0wClient (Mem.fresh.store 0 0) 0 64 (sv "Q1-0-0---xxxxxxxxxxx")).2 :=
  ⟨by decide, decoder_priority.2.1 true Mem.fresh 64 (sv "Q1-0-0---xxxxxxxxxxx") (by decide)⟩

/-! ## The Shadow decoder: rejection -/

theorem get_shad0w_int_eq_none (b : Nat) (h : b ∉ shad0w_alphabet) : get_shad0w_int b = none := by
  unfold get_shad0w_int
  have : ¬ List.indexOf b shad0w_alphabet < shad0w_alphabet.length := by
    rw [List.indexOf_lt_length]; exact h
  simp only [this, if_false]

theorem get_shad0w_int_of_mem (b : Nat) (h : b ∈ shad0w_alphabet) :
    get_shad0w_int b = some (List.indexOf b shad0w_alphabet) := by
  unfold get_shad0w_int
  have : List.indexOf b shad0w_alphabet < shad0w_alphabet.length := by
    rw [List.indexOf_lt_length]; exact h
  simp only [this, if_true]

theorem dash_mem_alphabet : 45 ∈ shad0w_alphabet := by decide

theorem shad0w_vals_none (r : List Nat) : ∀ (vals : List Int),
    (∃ b ∈ r.dropLast, b ∉ shad0w_alphabet) → shad0w_vals r vals = none := by
  induction r with
  | nil => intro vals h; simp at h
  | cons b rest ih =>
    intro vals h
    cases rest with
    | nil => simp at h
    | cons c rest' =>
      obtain ⟨x, hx, hbad⟩ := h
      simp only [List.dropLast_cons₂, List.mem_cons] at hx
      unfold shad0w_vals
      by_cases hb : b ∈ shad0w_alphabet
      · rw [get_shad0w_int_of_mem b hb]
        simp only
        apply ih
        rcases hx with rfl | hx
        · exact absurd hb hbad
        · exact ⟨x, hx, hbad⟩
      · rw [get_shad0w_int_eq_none b hb]

theorem strip_dashes_keeps_bad (r : List Nat) :
    (∃ b ∈ r.dropLast, b ∉ shad0w_alphabet) →
    ∃ b ∈ (strip_dashes r).dropLast, b ∉ shad0w_alphabet := by
  induction r with
  | nil => intro h; simp at h
  | cons b rest ih =>
    intro h
    unfold strip_dashes
    by_cases hb : b = 45
    · rw [if_pos hb]
      apply ih
      cases rest with
      | nil => simp at h
      | cons c rest' =>
        obtain ⟨x, hx, hbad⟩ := h
        simp only [List.dropLast_cons₂, List.mem_cons] at hx
        rcases hx with rfl | hx
        · exact absurd (hb ▸ dash_mem_alphabet) hbad
        · exact ⟨x, hx, hbad⟩
    · rw [if_neg hb]; exact h

theorem at_take (pid : List Nat) (n i : Nat) (h : i < n) : at_ (pid.take n) i = at_ pid i := by
  unfold at_
  simp [List.getD_eq_getElem?_getD, List.getElem?_take, h]

theorem shad0w_name_eq_none (b : Nat) (h : b ∉ sv "AOQRSTU") : shad0w_name b = none := by
  have h' : b ≠ 65 ∧ b ≠ 79 ∧ b ≠ 81 ∧ b ≠ 82 ∧ b ≠ 83 ∧ b ≠ 84 ∧ b ≠ 85 := by
    simpa [sv] using h
  obtain ⟨h1, h2, h3, h4, h5, h6, h7⟩ := h'
  simp [shad0w_name, h1, h2, h3, h4, h5, h6, h7]

theorem decodeShad0wClient_no_name (m : Mem) (buf buflen : Nat) (pid : List Nat)
    (h : shad0w_name (at_ pid 0) = none) :
    decodeShad0wClient m buf buflen pid = (false, m) := by
  unfold decodeShad0wClient
  simp only [h]
  split
  · rfl
  · cases shad0w_vals (strip_dashes (List.take 9 pid).reverse) [] <;> rfl

/-- C5: `decodeShad0wClient` reports no match and leaves the memory as it found it whenever
byte 6, 7 or 8 is not `-`, or byte 0 is not one of `A O Q R S T U`, or some byte at an index
`i ≥ 1` that survives the stripping of trailing dashes from the first 9 bytes (some byte at
an index `j` with `i ≤ j < 9` is not `-`) is outside the 64-symbol alphabet. -/
theorem decodeShad0wClient_rejects (m : Mem) (buf buflen : Nat) (pid : List Nat)
    (h : at_ pid 6 ≠ 45 ∨ at_ pid 7 ≠ 45 ∨ at_ pid 8 ≠ 45 ∨ at_ pid 0 ∉ sv "AOQRSTU" ∨
      ∃ i j, 1 ≤ i ∧ i ≤ j ∧ j < 9 ∧ at_ pid j ≠ 45 ∧ at_ pid i ∉ shad0w_alphabet) :
    decodeShad0wClient m buf buflen pid = (false, m) := by
  unfold decodeShad0wClient
  simp only
  by_cases hc : (List.take 9 pid).length ≠ 9 ∨ at_ (List.take 9 pid) 6 ≠ 45 ∨
      at_ (List.take 9 pid) 7 ≠ 45 ∨ at_ (List.take 9 pid) 8 ≠ 45
  · rw [if_pos hc]
  · rw [if_neg hc]
    simp only [not_or, not_not, at_take pid 9 6 (by omega), at_take pid 9 7 (by omega),
      at_take pid 9 8 (by omega)] at hc
    obtain ⟨hlen, h6, h7, h8⟩ := hc
    rcases h with h | h | h | h | ⟨i, j, hi, hij, hj, _, hbad⟩
    · exact absurd h6 h
    · exact absurd h7 h
    · exact absurd h8 h
    · rw [shad0w_name_eq_none _ h]
      cases shad0w_vals (strip_dashes (List.take 9 pid).reverse) [] <;> rfl
    · have hmem : ∃ b ∈ ((List.take 9 pid).reverse).dropLast, b ∉ shad0w_alphabet := by
        refine ⟨at_ pid i, ?_, hbad⟩
        rw [List.dropLast_reverse, List.mem_reverse]
        have hi9 : i < (List.take 9 pid).length := by omega
        have h1 : at_ pid i = (List.take 9 pid)[i] := by
          rw [← at_take pid 9 i (by omega)]
          simp [at_, List.getD_eq_getElem?_getD, List.getElem?_eq_getElem hi9]
        rw [h1]
        obtain ⟨x, xs, hx⟩ : ∃ x xs, List.take 9 pid = x :: xs := by
          cases hl : List.take 9 pid with
          | nil => rw [hl] at hlen; simp at hlen
          | cons x xs => exact ⟨x, xs, rfl⟩
        simp only [hx, List.tail_cons]
        obtain ⟨i', rfl⟩ : ∃ i', i = i' + 1 := ⟨i - 1, by omega⟩
        simp only [List.getElem_cons_succ]
        exact List.getElem_mem _
      rw [shad0w_vals_none _ _ (strip_dashes_keeps_bad _ hmem)]

/-- Witness for the rejection theorem: in `S5!B-----xxxxxxxxxxx` the version byte `!`
is outside the alphabet. -/
theorem decodeShad0wClient_rejects_witness :
    is_peer_id (sv "S5!B-----xxxxxxxxxxx") ∧
    decodeShad0wClient Mem.fresh 0 64 (sv "S5!B-----xxxxxxxxxxx") = (false, Mem.fresh) :=
  ⟨by decide,
    decodeShad0wClient_rejects Mem.fresh 0 64 (sv "S5!B-----xxxxxxxxxxx")
      (Or.inr (Or.inr (Or.inr (Or.inr ⟨2, 3, by decide, by decide, by decide, by decide,
        by decide⟩))))⟩

/-! ## The Shadow decoder: output -/

theorem itoa_small : ∀ n : Fin 256, itoa (n.val : Int) = decimal n.val ∧
    0 ∉ itoa (n.val : Int) ∧ (itoa (n.val : Int)).length ≤ 3 ∧
    (n.val < 64 → (itoa (n.val : Int)).length ≤ 2) := by
  decide

theorem itoa_eq_decimal (n : Nat) (h : n < 256) : itoa (n : Int) = decimal n :=
  (itoa_small ⟨n, h⟩).1

theorem itoa_no_nul (n : Nat) (h : n < 256) : 0 ∉ itoa (n : Int) :=
  (itoa_small ⟨n, h⟩).2.1

theorem itoa_length_le_two (n : Nat) (h : n < 64) : (itoa (n : Int)).length ≤ 2 :=
  (itoa_small ⟨n, by omega⟩).2.2.2 h

theorem foldl_dots_holds (vals : List Int) : ∀ {c : Cursor} {cap : Nat} {s : List Nat},
    Holds c cap s → s.length + (dots vals).length < cap →
    Holds (vals.foldl (fun c num => buf_append c [.num num, .ch 46]) c) cap (s ++ dots vals) := by
  induction vals with
  | nil => intro c cap s h _; simpa [dots] using h
  | cons v rest ih =>
    intro c cap s h hfit
    simp only [dots, List.length_append, List.length_singleton] at hfit
    have h1 := buf_append_holds [.num v, .ch 46] h
      (by simp only [text, Arg.text, List.length_append, List.length_singleton,
        List.length_nil]; omega)
    have h2 := ih h1 (by
      simp only [text, Arg.text, List.length_append, List.length_singleton, List.length_nil]
      omega)
    simpa [dots, text, Arg.text, List.append_assoc] using h2

/-- The Shadow decoder once its checks have passed: it reports a match and leaves the name,
a space and the dotted values, less the last byte written. -/
theorem decodeShad0wClient_run (m : Mem) (buflen : Nat) (pid : List Nat) (vals : List Int)
    (view name : List Nat)
    (h6 : at_ pid 6 = 45) (h7 : at_ pid 7 = 45) (h8 : at_ pid 8 = 45) (hlen : 9 ≤ pid.length)
    (hv : shad0w_vals (strip_dashes (List.take 9 pid).reverse) [] = some (vals, view))
    (hn : shad0w_name (at_ pid 0) = some name)
    (hfit : (name ++ [32] ++ dots vals.reverse).length < buflen) (hcap : buflen < SIZE_MOD) :
    (decodeShad0wClient m 0 buflen pid).1 = true ∧
    Str (decodeShad0wClient m 0 buflen pid).2 (name ++ [32] ++ dots vals.reverse).dropLast := by
  have hc : ¬ ((List.take 9 pid).length ≠ 9 ∨ at_ (List.take 9 pid) 6 ≠ 45 ∨
      at_ (List.take 9 pid) 7 ≠ 45 ∨ at_ (List.take 9 pid) 8 ≠ 45) := by
    simp only [at_take pid 9 6 (by omega), at_take pid 9 7 (by omega),
      at_take pid 9 8 (by omega), h6, h7, h8, List.length_take]
    simp
    omega
  have hfit' : name.length + 1 + (dots vals.reverse).length < buflen := by
    simp only [List.length_append, List.length_singleton] at hfit
    omega
  have h0 : Holds (buf_append ⟨m, 0, buflen⟩ [.str name, .ch 32]) buflen ([] ++ text [.str name, .ch 32]) :=
    buf_append_holds_of_at (.str name) [.ch 32] (At_start m buflen (by omega) hcap)
      (by simp [text, Arg.text]; omega)
  have h0' : Holds (buf_append ⟨m, 0, buflen⟩ [.str name, .ch 32]) buflen (name ++ [32]) := by
    simpa [text, Arg.text] using h0
  have h1 := foldl_dots_holds vals.reverse h0' (by simp [List.length_append]; omega)
  obtain ⟨body, x, hbx⟩ : ∃ body x, name ++ [32] ++ dots vals.reverse = body ++ [x] := by
    cases hd : dots vals.reverse with
    | nil => exact ⟨name, 32, by simp⟩
    | cons y ys =>
      refine ⟨name ++ [32] ++ (y :: ys).dropLast, (y :: ys).getLast (by simp), ?_⟩
      rw [List.append_assoc, List.append_assoc, List.append_assoc,
        List.dropLast_append_getLast]
  rw [hbx] at h1 ⊢
  have hbuf := h1.1.buf_eq
  have hlt : 0 < (vals.reverse.foldl (fun c num => buf_append c [.num num, .ch 46])
      (buf_append ⟨m, 0, buflen⟩ [.str name, .ch 32])).buf := by
    rw [hbuf]; simp
  have hstr := drop_last_str x h1
  unfold decodeShad0wClient
  simp only [if_neg hc, hv, hn, if_pos hlt]
  refine ⟨trivial, ?_⟩
  simpa using hstr

theorem peer_id_head9 (pid : List Nat) (h : 9 ≤ pid.length) :
    ∃ b0 b1 b2 b3 b4 b5 b6 b7 b8 rest,
      pid = b0 :: b1 :: b2 :: b3 :: b4 :: b5 :: b6 :: b7 :: b8 :: rest := by
  match pid, h with
  | b0 :: b1 :: b2 :: b3 :: b4 :: b5 :: b6 :: b7 :: b8 :: rest, _ =>
    exact ⟨b0, b1, b2, b3, b4, b5, b6, b7, b8, rest, rfl⟩

theorem shad0w_name_of_mem (b : Nat) (name : List Nat) (h : (b, name) ∈ shad0w_names) :
    shad0w_name b = some name ∧ 0 ∉ name ∧ name.length ≤ 20 := by
  simp only [shad0w_names, List.mem_cons, Prod.mk.injEq, List.mem_nil_iff, or_false] at h
  rcases h with ⟨rfl, rfl⟩ | ⟨rfl, rfl⟩ | ⟨rfl, rfl⟩ | ⟨rfl, rfl⟩ | ⟨rfl, rfl⟩ | ⟨rfl, rfl⟩ |
    ⟨rfl, rfl⟩ <;> decide

theorem dropLast_dots (s : List Nat) (v : Int) (rest : List Int) :
    (s ++ dots (v :: rest)).dropLast = s ++ dotted ((v :: rest).map itoa) := by
  induction rest generalizing s v with
  | nil =>
    simp only [dots, List.map, dotted, List.append_nil]
    rw [← List.append_assoc, List.dropLast_concat]
  | cons w rest ih =>
    have := ih (s ++ itoa v ++ [46]) w
    simp only [dots, List.map, dotted] at this ⊢
    simpa [List.append_assoc] using this

theorem dots_props (vals : List Int) (h : ∀ v ∈ vals, 0 ∉ itoa v ∧ (itoa v).length ≤ 2) :
    0 ∉ dots vals ∧ (dots vals).length ≤ 3 * vals.length := by
  induction vals with
  | nil => simp [dots]
  | cons v rest ih =>
    have hv := h v (by simp)
    have hr := ih (fun w hw => h w (by simp [hw]))
    constructor
    · simp only [dots, List.mem_append, List.mem_singleton, not_or]
      exact ⟨⟨hv.1, by decide⟩, hr.1⟩
    · simp only [dots, List.length_append, List.length_singleton, List.length_cons,
        List.length_nil]
      omega

theorem indexOf_alphabet_lt (b : Nat) (h : b ∈ shad0w_alphabet) :
    List.indexOf b shad0w_alphabet < 64 := by
  have := List.indexOf_lt_length.mpr h
  simpa [shad0w_alphabet, sv] using this

theorem shad0w_vals_of_k (pid : List Nat) (k : Nat) (hlen : 9 ≤ pid.length)
    (h6 : at_ pid 6 = 45) (h7 : at_ pid 7 = 45) (h8 : at_ pid 8 = 45)
    (hk1 : 1 ≤ k) (hk9 : k < 9) (hk : at_ pid k ≠ 45)
    (hrest : ∀ j, k < j → j < 9 → at_ pid j = 45)
    (halpha : ∀ i, 1 ≤ i → i ≤ k → at_ pid i ∈ shad0w_alphabet) :
    shad0w_vals (strip_dashes (List.take 9 pid).reverse) [] =
      some (((List.range k).map
        (fun i => ((List.indexOf (at_ pid (i + 1)) shad0w_alphabet : Nat) : Int))).reverse,
        [at_ pid 0]) := by
  obtain ⟨b0, b1, b2, b3, b4, b5, b6, b7, b8, rest, rfl⟩ := peer_id_head9 pid hlen
  simp only [at_, List.getD_cons_succ, List.getD_cons_zero] at h6 h7 h8
  subst h6 h7 h8
  have a1 := halpha 1 (by omega)
  have a2 := halpha 2 (by omega)
  have a3 := halpha 3 (by omega)
  have a4 := halpha 4 (by omega)
  have a5 := halpha 5 (by omega)
  have r2 := hrest 2
  have r3 := hrest 3
  have r4 := hrest 4
  have r5 := hrest 5
  simp only [at_, List.getD_cons_succ, List.getD_cons_zero] at a1 a2 a3 a4 a5 r2 r3 r4 r5
  interval_cases k
  · have hk' : b1 ≠ 45 := by simpa [at_] using hk
    have e2 := r2 (by omega) (by omega)
    have e3 := r3 (by omega) (by omega)
    have e4 := r4 (by omega) (by omega)
    have e5 := r5 (by omega) (by omega)
    subst e2 e3 e4 e5
    simp [strip_dashes, hk', shad0w_vals, get_shad0w_int_of_mem _ (a1 (by omega)), at_,
      List.range_succ]
  · have hk' : b2 ≠ 45 := by simpa [at_] using hk
    have e3 := r3 (by omega) (by omega)
    have e4 := r4 (by omega) (by omega)
    have e5 := r5 (by omega) (by omega)
    subst e3 e4 e5
    simp [strip_dashes, hk', shad0w_vals, get_shad0w_int_of_mem _ (a1 (by omega)),
      get_shad0w_int_of_mem _ (a2 (by omega)), at_, List.range_succ]
  · have hk' : b3 ≠ 45 := by simpa [at_] using hk
    have e4 := r4 (by omega) (by omega)
    have e5 := r5 (by omega) (by omega)
    subst e4 e5
    simp [strip_dashes, hk', shad0w_vals, get_shad0w_int_of_mem _ (a1 (by omega)),
      get_shad0w_int_of_mem _ (a2 (by omega)), get_shad0w_int_of_mem _ (a3 (by omega)), at_,
      List.range_succ]
  · have hk' : b4 ≠ 45 := by simpa [at_] using hk
    have e5 := r5 (by omega) (by omega)
    subst e5
    simp [strip_dashes, hk', shad0w_vals, get_shad0w_int_of_mem _ (a1 (by omega)),
      get_shad0w_int_of_mem _ (a2 (by omega)), get_shad0w_int_of_mem _ (a3 (by omega)),
      get_shad0w_int_of_mem _ (a4 (by omega)), at_, List.range_succ]
  · have hk' : b5 ≠ 45 := by simpa [at_] using hk
    simp [strip_dashes, hk', shad0w_vals, get_shad0w_int_of_mem _ (a1 (by omega)),
      get_shad0w_int_of_mem _ (a2 (by omega)), get_shad0w_int_of_mem _ (a3 (by omega)),
      get_shad0w_int_of_mem _ (a4 (by omega)), get_shad0w_int_of_mem _ (a5 (by omega)), at_,
      List.range_succ]
  · exact absurd (by simp [at_]) hk
  · exact absurd (by simp [at_]) hk
  · exact absurd (by simp [at_]) hk

/-! ## The BitComet decoder and the BitSpirit rule -/

theorem at_lt_256 (pid : List Nat) (h : is_peer_id pid) (i : Nat) : at_ pid i < 256 := by
  unfold at_
  rw [List.getD_eq_getElem?_getD]
  cases hget : pid[i]? with
  | none => simp
  | some b =>
    have hb : b ∈ pid := by
      rw [List.getElem?_eq_some_iff] at hget
      obtain ⟨hi, rfl⟩ := hget
      exact List.getElem_mem _
    simpa using h.2 b hb

theorem fmt_02d_small : ∀ n : Fin 256, fmt_02d (n.val : Int) = decimal2 n.val ∧
    0 ∉ fmt_02d (n.val : Int) ∧ (fmt_02d (n.val : Int)).length ≤ 3 := by
  decide

/-- C6: `decodeBitCometClient` reports a match exactly when the first four bytes are `exbc`,
`FUTB` or `xUTB`; then, in a buffer of at least 31 bytes, the label is `BitLord` when bytes
6..9 are `LORD` and `BitComet` otherwise, a space, the modifier of the lead, byte 4 in
decimal, `.`, and byte 5 in decimal padded to two digits. -/
theorem decodeBitCometClient_label (m : Mem) (buflen : Nat) (pid : List Nat)
    (hpid : is_peer_id pid) :
    ((decodeBitCometClient m 0 buflen pid).1 = true ↔
      pid.take 4 ∈ [sv "exbc", sv "FUTB", sv "xUTB"]) ∧
    (∀ modifier, (pid.take 4, modifier) ∈ bitcomet_modifiers →
      31 ≤ buflen → buflen < SIZE_MOD →
      label (decodeBitCometClient m 0 buflen pid).2 =
        some ((if sub_view pid 6 4 = sv "LORD" then sv "BitLord" else sv "BitComet") ++ [32] ++
          modifier ++ decimal (at_ pid 4) ++ [46] ++ decimal2 (at_ pid 5))) := by
  have hmin : min pid.length 4 = 4 := by rw [hpid.1]; rfl
  have h4 := at_lt_256 pid hpid 4
  have h5 := at_lt_256 pid hpid 5
  have key : ∀ modifier : List Nat, 0 ∉ modifier → modifier.length ≤ 14 →
      31 ≤ buflen → buflen < SIZE_MOD →
      label (format_to_n_nul
        (buf_append ⟨m, 0, buflen⟩
          [.str (if sub_view pid 6 4 = sv "LORD" then sv "BitLord" else sv "BitComet"), .ch 32,
            .str modifier, .num (Int.ofNat (at_ pid 4 % 256)), .ch 46])
        (fmt_02d (Int.ofNat (at_ pid 5 % 256)))) =
      some ((if sub_view pid 6 4 = sv "LORD" then sv "BitLord" else sv "BitComet") ++ [32] ++
          modifier ++ decimal (at_ pid 4) ++ [46] ++ decimal2 (at_ pid 5)) := by
    intro modifier hm0 hmlen hcap hcap2
    rw [Nat.mod_eq_of_lt h4, Nat.mod_eq_of_lt h5]
    simp only [Int.ofNat_eq_coe]
    obtain ⟨hi, hi0, hilen⟩ := itoa_small ⟨at_ pid 4, h4⟩
    obtain ⟨hf, hf0, hflen⟩ := fmt_02d_small ⟨at_ pid 5, h5⟩
    simp only at hi hi0 hilen hf hf0 hflen
    have hname : ∀ name : List Nat, name = sv "BitLord" ∨ name = sv "BitComet" →
        label (format_to_n_nul
          (buf_append ⟨m, 0, buflen⟩
            [.str name, .ch 32, .str modifier, .num ((at_ pid 4 : Nat) : Int), .ch 46])
          (fmt_02d ((at_ pid 5 : Nat) : Int))) =
        some (name ++ [32] ++ modifier ++ decimal (at_ pid 4) ++ [46] ++
          decimal2 (at_ pid 5)) := by
      intro name hname
      have hnlen : name.length ≤ 8 ∧ 0 ∉ name := by
        rcases hname with rfl | rfl <;> decide
      have hc := buf_append_holds_of_at (.str name)
        [.ch 32, .str modifier, .num ((at_ pid 4 : Nat) : Int), .ch 46]
        (At_start m buflen (by omega) hcap2)
        (by simp [text, Arg.text]; omega)
      simp only [text, Arg.text, List.nil_append, List.append_nil] at hc
      have hs := format_to_n_nul_str (fmt_02d ((at_ pid 5 : Nat) : Int)) hc.1
        (by simp; omega)
      rw [← hi, ← hf]
      have e : name ++ ([32] ++ (modifier ++ (itoa (at_ pid 4 : Nat) ++ [46]))) ++
          fmt_02d (at_ pid 5 : Nat) =
          name ++ [32] ++ modifier ++ itoa (at_ pid 4 : Nat) ++ [46] ++
            fmt_02d (at_ pid 5 : Nat) := by
        simp [List.append_assoc]
      rw [e] at hs
      apply label_of_Str _ _ hs
      · simp only [List.mem_append, List.mem_singleton, not_or]
        exact ⟨⟨⟨⟨⟨hnlen.2, by decide⟩, hm0⟩, hi0⟩, by decide⟩, hf0⟩
      · simp only [List.length_append, List.length_singleton]
        omega
    by_cases hl : sub_view pid 6 4 = sv "LORD"
    · simp only [if_pos hl]; exact hname _ (Or.inl rfl)
    · simp only [if_neg hl]; exact hname _ (Or.inr rfl)
  unfold decodeBitCometClient
  simp only [hmin]
  by_cases h1 : List.take 4 pid = sv "exbc"
  · rw [if_pos h1]
    refine ⟨by simp [h1], ?_⟩
    intro modifier hmod hcap hcap2
    have : modifier = sv "" := by
      simp only [bitcomet_modifiers, h1, List.mem_cons, Prod.mk.injEq, List.mem_nil_iff,
        or_false] at hmod
      rcases hmod with ⟨_, rfl⟩ | ⟨h, _⟩ | ⟨h, _⟩
      · rfl
      · exact absurd h (by decide)
      · exact absurd h (by decide)
    subst this
    exact key _ (by decide) (by decide) hcap hcap2
  · by_cases h2 : List.take 4 pid = sv "FUTB"
    · rw [if_neg h1, if_pos h2]
      refine ⟨by simp [h2], ?_⟩
      intro modifier hmod hcap hcap2
      have : modifier = sv "(Solidox Mod) " := by
        simp only [bitcomet_modifiers, h2, List.mem_cons, Prod.mk.injEq, List.mem_nil_iff,
          or_false] at hmod
        rcases hmod with ⟨h, _⟩ | ⟨_, rfl⟩ | ⟨h, _⟩
        · exact absurd h (by decide)
        · rfl
        · exact absurd h (by decide)
      subst this
      exact key _ (by decide) (by decide) hcap hcap2
    · by_cases h3 : List.take 4 pid = sv "xUTB"
      · rw [if_neg h1, if_neg h2, if_pos h3]
        refine ⟨by simp [h3], ?_⟩
        intro modifier hmod hcap hcap2
        have : modifier = sv "(Mod 2) " := by
          simp only [bitcomet_modifiers, h3, List.mem_cons, Prod.mk.injEq, List.mem_nil_iff,
            or_false] at hmod
          rcases hmod with ⟨h, _⟩ | ⟨h, _⟩ | ⟨_, rfl⟩
          · exact absurd h (by decide)
          · exact absurd h (by decide)
          · rfl
        subst this
        exact key _ (by decide) (by decide) hcap hcap2
      · rw [if_neg h1, if_neg h2, if_neg h3]
        refine ⟨by simp [h1, h2, h3], ?_⟩
        intro modifier hmod
        simp only [bitcomet_modifiers, List.mem_cons, Prod.mk.injEq, List.mem_nil_iff,
          or_false] at hmod
        rcases hmod with ⟨h, _⟩ | ⟨h, _⟩ | ⟨h, _⟩
        · exact absurd h h1
        · exact absurd h h2
        · exact absurd h h3

/-- Witness for the BitComet label theorem: `exbc` followed by the bytes 2 and 0 gives
`BitComet 2.00`. -/
theorem decodeBitCometClient_label_witness :
    is_peer_id (sv "exbc" ++ [2, 0] ++ sv "xxxxxxxxxxxxxx") ∧
    label (decodeBitCometClient Mem.fresh 0 64
      (sv "exbc" ++ [2, 0] ++ sv "xxxxxxxxxxxxxx")).2 = some (sv "BitComet 2.00") :=
  ⟨by decide,
    (decodeBitCometClient_label Mem.fresh 64 (sv "exbc" ++ [2, 0] ++ sv "xxxxxxxxxxxxxx")
      (by decide)).2 (sv "") (by decide) (by decide) (by decide)⟩

theorem fmt_d_small : ∀ n : Fin 256, fmt_d (n.val : Int) = decimal n.val ∧
    0 ∉ fmt_d (n.val : Int) ∧ (fmt_d (n.val : Int)).length ≤ 3 := by
  decide

theorem decodeBitCometClient_nul_lead (m : Mem) (buflen : Nat) (pid : List Nat)
    (hlen : 9 ≤ pid.length) (h0 : at_ pid 0 = 0) :
    decodeBitCometClient m 0 buflen pid = (false, m) := by
  obtain ⟨b0, b1, b2, b3, b4, b5, b6, b7, b8, rest, rfl⟩ := peer_id_head9 pid hlen
  have hb : b0 = 0 := by simpa [at_] using h0
  subst hb
  have hmin : min (0 :: b1 :: b2 :: b3 :: b4 :: b5 :: b6 :: b7 :: b8 :: rest).length 4 = 4 :=
    Nat.min_eq_right (by simp)
  unfold decodeBitCometClient
  simp only [hmin]
  simp [sv]

/-- The part of C7 that holds: where plain `char` is unsigned, or byte 1 is below 0x80, an
identifier with byte 0 = 0, byte 2 = `B` and byte 3 = `S` is labelled `BitSpirit n`, `n` being
byte 1 in decimal, or 1 when byte 1 is 0. -/
theorem bitspirit_label (cs : Bool) (m : Mem) (buflen : Nat) (pid : List Nat)
    (hpid : is_peer_id pid) (h0 : at_ pid 0 = 0) (h2 : at_ pid 2 = 66) (h3 : at_ pid 3 = 83)
    (hcs : cs = false ∨ at_ pid 1 < 128) (hcap : 14 ≤ buflen) (hcap2 : buflen < SIZE_MOD) :
    label (tr_clientForId cs m buflen pid) =
      some (sv "BitSpirit " ++ decimal (if at_ pid 1 = 0 then 1 else at_ pid 1)) := by
  have hs : decodeShad0wClient (m.store 0 0) 0 buflen pid = (false, m.store 0 0) :=
    decodeShad0wClient_no_name _ _ _ _ (by rw [h0]; decide)
  have hb : decodeBitCometClient (m.store 0 0) 0 buflen pid = (false, m.store 0 0) :=
    decodeBitCometClient_nul_lead _ _ _ (by rw [hpid.1]; omega) h0
  have h1 := at_lt_256 pid hpid 1
  have hconv : (if at_ pid 1 = 0 then (1 : Int) else char_to_int cs (at_ pid 1)) =
      ((if at_ pid 1 = 0 then 1 else at_ pid 1 : Nat) : Int) := by
    by_cases hz : at_ pid 1 = 0
    · simp [hz]
    · simp only [if_neg hz]
      rcases hcs with rfl | hlt
      · simp [char_to_int]
      · have : ¬ 128 ≤ at_ pid 1 := by omega
        simp [char_to_int, this]
  have hn : (if at_ pid 1 = 0 then 1 else at_ pid 1) < 256 := by
    split <;> omega
  obtain ⟨hf, hf0, hflen⟩ := fmt_d_small ⟨_, hn⟩
  simp only at hf hf0 hflen
  unfold tr_clientForId
  simp only [hs, hb, h0, h2, h3, and_self, if_true, Bool.false_eq_true, if_false]
  rw [hconv, hf]
  have hstr := format_to_n_nul_str
    (sv "BitSpirit " ++ decimal (if at_ pid 1 = 0 then 1 else at_ pid 1))
    (At_start (m.store 0 0) buflen (by omega) hcap2)
    (by
      rw [← hf]
      simp only [List.length_append, List.length_nil]
      have : (sv "BitSpirit ").length = 10 := by decide
      omega)
  rw [List.nil_append] at hstr
  apply label_of_Str _ _ hstr
  · rw [← hf]
    simp only [List.mem_append, not_or]
    exact ⟨by decide, hf0⟩
  · rw [← hf]
    simp only [List.length_append]
    have : (sv "BitSpirit ").length = 10 := by decide
    omega

/-- C7, evaluated where it fails: byte 1 is widened from plain `char` without a cast, so
where `char` is signed the identifier `00 80 'B' 'S' ...` is labelled `BitSpirit -128`, not
`BitSpirit 128` (which is what an unsigned `char` gives); `00 01 'B' 'S' ...` is
`BitSpirit 1` either way. -/
theorem bitspirit_signed_char_label :
    is_peer_id ([0, 128] ++ sv "BSxxxxxxxxxxxxxxxx") ∧
    label (tr_clientForId true Mem.fresh 64 ([0, 128] ++ sv "BSxxxxxxxxxxxxxxxx")) =
      some (sv "BitSpirit -128") ∧
    label (tr_clientForId false Mem.fresh 64 ([0, 128] ++ sv "BSxxxxxxxxxxxxxxxx")) =
      some (sv "BitSpirit 128") ∧
    (∀ cs, label (tr_clientForId cs Mem.fresh 64 ([0, 1] ++ sv "BSxxxxxxxxxxxxxxxx")) =
      some (sv "BitSpirit 1")) := by
  decide

/-! ## The fallback -/

theorem hex_digit_eq_hexU : ∀ n : Fin 16, hex_digit n.val = hexU n.val ∧ hexU n.val ≠ 0 := by
  decide

theorem escape_byte_props (b : Nat) (hb : b < 256) :
    0 ∉ escape_byte b ∧ 1 ≤ (escape_byte b).length ∧ (escape_byte b).length ≤ 3 := by
  unfold escape_byte
  split
  · rename_i h
    refine ⟨?_, by simp, by simp⟩
    simp only [List.mem_singleton]
    omega
  · refine ⟨?_, by simp, by simp⟩
    have h1 := (hex_digit_eq_hexU ⟨b / 16, by omega⟩).2
    have h2 := (hex_digit_eq_hexU ⟨b % 16, Nat.mod_lt _ (by decide)⟩).2
    simp only [List.mem_cons, List.mem_nil_iff, or_false, not_or]
    exact ⟨by decide, fun h => h1 h.symm, fun h => h2 h.symm⟩

theorem escaped_props (l : List Nat) (hl : ∀ b ∈ l, b < 256) :
    0 ∉ escaped l ∧ l.length ≤ (escaped l).length ∧ (escaped l).length ≤ 3 * l.length := by
  induction l with
  | nil => simp [escaped]
  | cons b rest ih =>
    obtain ⟨h0, h1, h3⟩ := escape_byte_props b (hl b (by simp))
    obtain ⟨i0, i1, i3⟩ := ih (fun c hc => hl c (by simp [hc]))
    refine ⟨?_, ?_, ?_⟩
    · simp only [escaped, List.mem_append, not_or]; exact ⟨h0, i0⟩
    · simp only [escaped, List.length_append, List.length_cons]; omega
    · simp only [escaped, List.length_append, List.length_cons]; omega

theorem escape_loop_eq (l : List Nat) : ∀ out : List Nat,
    out.length + 3 * l.length ≤ 31 → (∀ b ∈ l, b < 256) →
    escape_loop l out = out ++ escaped l := by
  induction l with
  | nil => intro out _ _; simp [escape_loop, escaped]
  | cons c rest ih =>
    intro out hlen hb
    have hc : c < 256 := hb c (by simp)
    have hrest : ∀ b ∈ rest, b < 256 := fun b hbm => hb b (by simp [hbm])
    simp only [List.length_cons] at hlen
    unfold escape_loop
    by_cases hp : isprint c = true
    · rw [if_pos hp]
      rw [ih (out ++ [c]) (by simp; omega) hrest]
      have : escape_byte c = [c] := by
        unfold escape_byte
        simp only [isprint, Bool.and_eq_true, decide_eq_true_eq] at hp
        rw [if_pos hp]
      simp [escaped, this]
    · rw [if_neg hp]
      have htake : (37 :: fmt_02X c).take (32 - out.length - 1) = 37 :: fmt_02X c := by
        apply List.take_of_length_le
        simp [fmt_02X]; omega
      rw [htake, ih _ (by simp [fmt_02X]; omega) hrest]
      have : escape_byte c = 37 :: fmt_02X c := by
        unfold escape_byte
        simp only [isprint, Bool.and_eq_true, decide_eq_true_eq] at hp
        rw [if_neg hp]
        have h1 := (hex_digit_eq_hexU ⟨c / 16, by omega⟩).1
        have h2 := (hex_digit_eq_hexU ⟨c % 16, Nat.mod_lt _ (by decide)⟩).1
        simp only at h1 h2
        simp [fmt_02X, h1, h2]
      simp [escaped, this]

theorem first8_eq_take (pid : List Nat) (h : 9 ≤ pid.length) :
    (List.range 8).map (at_ pid) = pid.take 8 := by
  obtain ⟨b0, b1, b2, b3, b4, b5, b6, b7, b8, rest, rfl⟩ := peer_id_head9 pid h
  simp [List.range_succ, at_]

/-- C8: an identifier that neither special decoder matches, that the BitSpirit rule does not
apply to and that the registry lookup does not find is labelled, in a buffer of at least 25
bytes, with the rendering of its first 8 bytes in which a printable ASCII byte (0x20..0x7E)
stands for itself and any other byte becomes `%` and its two uppercase hex digits; the
scratch rendering the code builds is that text, between 8 and 24 bytes long. -/
theorem fallback_label (cs : Bool) (m : Mem) (buflen : Nat) (pid : List Nat)
    (hpid : is_peer_id pid) (hcap : 25 ≤ buflen) (hcap2 : buflen < SIZE_MOD)
    (hs : (decodeShad0wClient (m.store 0 0) 0 buflen pid).1 = false)
    (hb : (decodeBitCometClient (m.store 0 0) 0 buflen pid).1 = false)
    (hz : ¬ (at_ pid 0 = 0 ∧ at_ pid 2 = 66 ∧ at_ pid 3 = 83))
    (hr : lookup Clients pid = none) :
    label (tr_clientForId cs m buflen pid) = some (escaped (pid.take 8)) ∧
    escape_loop ((List.range 8).map (at_ pid)) [] = escaped (pid.take 8) ∧
    8 ≤ (escaped (pid.take 8)).length ∧ (escaped (pid.take 8)).length ≤ 24 := by
  have hlen8 : (pid.take 8).length = 8 := by simp [hpid.1]
  have hloop : escape_loop ((List.range 8).map (at_ pid)) [] = escaped (pid.take 8) := by
    rw [first8_eq_take pid (by rw [hpid.1]; omega)]
    rw [escape_loop_eq _ [] (by rw [hlen8]; simp)
      (fun b hbm => hpid.2 b (List.mem_of_mem_take hbm))]
    simp
  obtain ⟨e0, e1, e3⟩ := escaped_props (pid.take 8)
    (fun b hbm => hpid.2 b (List.mem_of_mem_take hbm))
  rw [hlen8] at e1 e3
  refine ⟨?_, hloop, e1, by omega⟩
  have es := decodeShad0wClient_fst_false _ _ _ _ hs
  have eb := decodeBitCometClient_fst_false _ _ _ _ hb
  have hemp : tr_str_is_empty (m.store 0 0) 0 = true := by
    simp [tr_str_is_empty, load_store]
  unfold tr_clientForId
  simp only [es, eb, hr, hemp, if_neg hz, hloop, Bool.false_eq_true, if_false, if_true]
  have hh := buf_append_holds_of_at (.str (escaped (pid.take 8))) []
    (At_start (m.store 0 0) buflen (by omega) hcap2)
    (by simp [text, Arg.text]; omega)
  simp only [text, Arg.text, List.nil_append, List.append_nil] at hh
  exact label_of_Str _ _ hh.str e0 (by omega)

/-- Witness for the fallback theorem: the identifier `01 'a' 'b' ... 's'` is labelled
`%01abcdefg`. -/
theorem fallback_label_witness :
    is_peer_id ([1] ++ sv "abcdefghijklmnopqrs") ∧
    label (tr_clientForId true Mem.fresh 64 ([1] ++ sv "abcdefghijklmnopqrs")) =
      some (sv "%01abcdefg") :=
  ⟨by decide,
    (fallback_label true Mem.fresh 64 ([1] ++ sv "abcdefghijklmnopqrs") (by decide) (by decide)
      (by decide) (by decide) (by decide) (by decide) (by decide)).1⟩

/-! ## `charint` -/

theorem charint_low : ∀ n : Fin 123, charint n.val = charint_spec n.val ∧
    0 ∉ charint n.val ∧ 1 ≤ (charint n.val).length ∧ (charint n.val).length ≤ 2 := by
  decide

theorem charint_high (ch : Nat) (h : 123 ≤ ch) : charint ch = sv "x" := by
  unfold charint
  repeat rw [if_neg]
  all_goals omega

theorem charint_props (ch : Nat) :
    0 ∉ charint ch ∧ 1 ≤ (charint ch).length ∧ (charint ch).length ≤ 2 := by
  by_cases h : ch < 123
  · exact (charint_low ⟨ch, h⟩).2
  · rw [charint_high ch (by omega)]; decide

/-- C11: `charint` reads every byte as a case-insensitive base-36 digit and renders its value
in decimal: a digit `0`..`9` gives that one character, a letter of either case gives the
decimal text of 10 plus its position in the alphabet (`a`/`A` gives `10`, `z`/`Z` gives
`35`), every other byte gives `x`. -/
theorem charint_base36 (ch : Nat) : charint ch = charint_spec ch := by
  by_cases h : ch < 123
  · exact (charint_low ⟨ch, h⟩).1
  · rw [charint_high ch (by omega)]
    unfold charint_spec
    rw [if_neg, if_neg, if_neg] <;> omega

/-! ## The truncated comparison -/

theorem sv_lt_irrefl (a : List Nat) : sv_lt a a = false := by
  induction a with
  | nil => rfl
  | cons x xs ih => simp [sv_lt, ih]

theorem sv_lt_trichotomy (a : List Nat) : ∀ b : List Nat,
    sv_lt a b = false → sv_lt b a = false → a = b := by
  induction a with
  | nil =>
    intro b h1 _
    cases b with
    | nil => rfl
    | cons y ys => simp [sv_lt] at h1
  | cons x xs ih =>
    intro b h1 h2
    cases b with
    | nil => simp [sv_lt] at h2
    | cons y ys =>
      simp only [sv_lt] at h1 h2
      by_cases hxy : x < y
      · simp [hxy] at h1
      · by_cases hyx : y < x
        · simp [hyx] at h2
        · have hx : x = y := by omega
          subst hx
          simp only [hxy, if_false] at h1 h2
          rw [ih ys h1 h2]

theorem take_min_eq_iff_begins (key p : List Nat) :
    key.take (min key.length p.length) = p ↔ p <+: key := by
  constructor
  · intro h
    rw [← h]
    exact List.take_prefix _ _
  · intro h
    obtain ⟨t, rfl⟩ := h
    have : min (p ++ t).length p.length = p.length := by simp
    rw [this, List.take_left']
    rfl

/-- The amended C19: for every key, of any length, and every record, the record is
equivalent to the key under `Compare` exactly when the record's prefix is a prefix of the
key; a key shorter than the prefix is never equivalent to it, and when all of its bytes
agree with the prefix it compares below the record. -/
theorem Compare_equivalent_iff_begins (key : List Nat) (client : Client) :
    (Compare_equivalent key client ↔ client.begins_with <+: key) ∧
    (key.length < client.begins_with.length → ¬ Compare_equivalent key client) ∧
    (key.length < client.begins_with.length → agree_on_shorter key client.begins_with →
      Compare_key_client key client = true) := by
  have hiff : Compare_equivalent key client ↔ client.begins_with <+: key := by
    unfold Compare_equivalent Compare_key_client Compare_client_key
    simp only
    rw [← take_min_eq_iff_begins]
    constructor
    · intro h
      exact sv_lt_trichotomy _ _ h.1 h.2
    · intro h
      rw [h]
      exact ⟨sv_lt_irrefl _, sv_lt_irrefl _⟩
  refine ⟨hiff, ?_, ?_⟩
  · intro hlt heq
    have := (hiff.mp heq).length_le
    omega
  · intro hlt hag
    by_contra hcon
    have h1 : Compare_key_client key client = false := by simpa using hcon
    have hmin : min client.begins_with.length key.length = key.length := by omega
    unfold agree_on_shorter at hag
    rw [hmin, List.take_length] at hag
    have h2 : Compare_client_key client key = false := by
      unfold Compare_client_key Compare_key_client at *
      simp only at h1 ⊢
      have hmin' : min key.length client.begins_with.length = key.length := by omega
      rw [hmin', List.take_length] at h1 ⊢
      by_contra hc
      have hc' : sv_lt client.begins_with key = true := by simpa using hc
      rw [hag] at hc'
      -- a list is never below one of its own prefixes
      have hno : ∀ (p t : List Nat), sv_lt (p ++ t) p = false := by
        intro p
        induction p with
        | nil => intro t; cases t <;> rfl
        | cons x xs ih => intro t; simp [sv_lt, ih]
      have := hno (client.begins_with.take key.length) (client.begins_with.drop key.length)
      rw [List.take_append_drop] at this
      rw [this] at hc'
      exact absurd hc' (by decide)
    have := (hiff.mp ⟨h1, h2⟩).length_le
    omega

/-- C19 as stated fails: the key `-A`, two bytes long, agrees with the prefix `-AD` of the
first record on its first `min(3, 2) = 2` bytes, yet it is not equivalent to the record: the
truncated key `-A` compares below `-AD`. -/
theorem Compare_short_key_not_equivalent :
    agree_on_shorter (sv "-A") (elem Clients 0).begins_with ∧
    (elem Clients 0).begins_with = sv "-AD" ∧
    Compare_key_client (sv "-A") (elem Clients 0) = true ∧
    ¬ Compare_equivalent (sv "-A") (elem Clients 0) := by
  decide

/-- Witness of the amended C19 on the key `-A` and the record `-AD`. -/
theorem Compare_equivalent_iff_begins_witness :
    (sv "-A").length < (elem Clients 0).begins_with.length ∧
    ¬ Compare_equivalent (sv "-A") (elem Clients 0) :=
  ⟨by decide, (Compare_equivalent_iff_begins (sv "-A") (elem Clients 0)).2.1 (by decide)⟩

/-! ## Stores stay inside the buffer while the text fits -/

theorem within_store (m : Mem) (p b cap : Nat) (hp : p < cap) (hw : m.within cap = true) :
    (m.store p b).within cap = true := by
  unfold Mem.within Mem.store at *
  simp only [List.all_cons, Bool.and_eq_true, decide_eq_true_eq]
  exact ⟨hp, hw⟩

theorem within_storeList (l : List Nat) : ∀ (m : Mem) (p cap : Nat),
    p + l.length ≤ cap → m.within cap = true → (m.storeList p l).within cap = true := by
  induction l with
  | nil => intro m p cap _ hw; exact hw
  | cons x xs ih =>
    intro m p cap hp hw
    simp only [List.length_cons] at hp
    simp only [Mem.storeList]
    exact ih _ _ _ (by omega) (within_store m p x cap (by omega) hw)

theorem buf_append_sv_within {c : Cursor} {cap : Nat} {s : List Nat} (t : List Nat)
    (h : At c cap s) (hfit : s.length + t.length < cap) (hw : c.mem.within cap = true) :
    (buf_append_sv c t).mem.within cap = true := by
  have hcap := h.cap_lt
  have hlen : min (size_sub c.buflen 1) t.length = t.length := by
    rw [h.len_eq, size_sub_of_le _ _ (by omega) (by omega)]
    exact Nat.min_eq_right (by omega)
  unfold buf_append_sv
  simp only [hlen, List.take_length, h.buf_eq]
  exact within_store _ _ _ _ (by omega) (within_storeList t _ _ _ (by omega) hw)

theorem buf_append_char_within {c : Cursor} {cap : Nat} {s : List Nat} (x : Nat)
    (h : At c cap s) (hfit : s.length + 1 < cap) (hw : c.mem.within cap = true) :
    (buf_append_char c x).mem.within cap = true := by
  have h2 : 2 ≤ c.buflen := by rw [h.len_eq]; omega
  unfold buf_append_char
  simp only [if_pos h2, h.buf_eq]
  exact within_store _ _ _ _ (by omega) (within_store _ _ _ _ (by omega) hw)

theorem buf_append1_within {c : Cursor} {cap : Nat} {s : List Nat} (a : Arg)
    (h : At c cap s) (hfit : s.length + a.text.length < cap) (hw : c.mem.within cap = true) :
    (buf_append1 c a).mem.within cap = true := by
  cases a with
  | ch x => exact buf_append_char_within x h (by simpa [Arg.text] using hfit) hw
  | str t => exact buf_append_sv_within t h hfit hw
  | num n => exact buf_append_sv_within (itoa n) h hfit hw

theorem buf_append_at_within (args : List Arg) : ∀ {c : Cursor} {cap : Nat} {s : List Nat},
    At c cap s → s.length + (text args).length < cap → c.mem.within cap = true →
    (buf_append c args).mem.within cap = true ∧ At (buf_append c args) cap (s ++ text args) := by
  induction args with
  | nil => intro c cap s h _ hw; exact ⟨hw, by simpa [buf_append, text] using h⟩
  | cons a rest ih =>
    intro c cap s h hfit hw
    simp only [text, List.length_append] at hfit
    have h1 := buf_append1_holds a h (by omega)
    have w1 := buf_append1_within a h (by omega) hw
    have h2 := ih h1.1 (by simp only [List.length_append]; omega) w1
    simpa [buf_append, text, List.append_assoc] using h2

theorem buf_append_at (args : List Arg) {c : Cursor} {cap : Nat} {s : List Nat}
    (h : At c cap s) (hfit : s.length + (text args).length < cap) :
    At (buf_append c args) cap (s ++ text args) := by
  cases args with
  | nil => simpa [buf_append, text] using h
  | cons a rest => exact (buf_append_holds_of_at a rest h hfit).1

theorem format_to_n_nul_within {c : Cursor} {cap : Nat} {s : List Nat} (t : List Nat)
    (h : At c cap s) (hfit : s.length + t.length < cap) (hw : c.mem.within cap = true) :
    (format_to_n_nul c t).within cap = true := by
  have hcap := h.cap_lt
  have hsub : size_sub c.buflen 1 = cap - s.length - 1 := by
    rw [h.len_eq, size_sub_of_le _ _ (by omega) (by omega)]
  have htake : t.take (cap - s.length - 1) = t := List.take_of_length_le (by omega)
  have hmin : min (cap - s.length - 1) t.length = t.length := Nat.min_eq_right (by omega)
  unfold format_to_n_nul format_to_n
  simp only [hsub, htake, hmin, h.buf_eq]
  exact within_store _ _ _ _ (by omega) (within_storeList t _ _ _ (by omega) hw)

/-- What a formatter made of one `buf_append` call leaves, when its text fits. -/
theorem buf_append_result (a : Arg) (rest : List Arg) (m : Mem) (buflen : Nat)
    (hfit : (text (a :: rest)).length < buflen) (hcap : buflen < SIZE_MOD) :
    Str (buf_append ⟨m, 0, buflen⟩ (a :: rest)).mem (text (a :: rest)) ∧
    (m.within buflen = true →
      (buf_append ⟨m, 0, buflen⟩ (a :: rest)).mem.within buflen = true) := by
  have hat := At_start m buflen (by omega) hcap
  have hh := buf_append_holds_of_at a rest hat (by simpa using hfit)
  refine ⟨by simpa using hh.str, fun hw => ?_⟩
  exact (buf_append_at_within (a :: rest) hat (by simpa using hfit) hw).1

/-- What a formatter made of a `buf_append` call and a closing `format_to_n` leaves, when
its text fits. -/
theorem buf_append_fmt_result (args : List Arg) (t : List Nat) (m : Mem) (buflen : Nat)
    (hfit : (text args).length + t.length < buflen) (hcap : buflen < SIZE_MOD) :
    Str (format_to_n_nul (buf_append ⟨m, 0, buflen⟩ args) t) (text args ++ t) ∧
    (m.within buflen = true →
      (format_to_n_nul (buf_append ⟨m, 0, buflen⟩ args) t).within buflen = true) := by
  have hat := At_start m buflen (by omega) hcap
  have h1 := buf_append_at args hat (by simp only [List.length_nil]; omega)
  rw [List.nil_append] at h1
  refine ⟨format_to_n_nul_str t h1 hfit, fun hw => ?_⟩
  have w1 := (buf_append_at_within args hat (by simp only [List.length_nil]; omega) hw).1
  exact format_to_n_nul_within t h1 hfit w1

/-- The C string read back from a buffer that holds `s` and a NUL: `s` up to its first NUL
byte. -/
theorem c_str_of_Str (m : Mem) (t : List Nat) : ∀ (fuel pos : Nat),
    (∀ i, i < t.length → m.load (pos + i) = some (t.getD i 0)) →
    m.load (pos + t.length) = some 0 → t.length < fuel →
    m.c_str fuel pos = some (t.takeWhile (fun b => b ≠ 0)) := by
  induction t with
  | nil =>
    intro fuel pos _ h0 hf
    obtain ⟨f, rfl⟩ : ∃ f, fuel = f + 1 := ⟨fuel - 1, by simp at hf; omega⟩
    simp at h0
    simp [Mem.c_str, h0]
  | cons x xs ih =>
    intro fuel pos hb h0 hf
    obtain ⟨f, rfl⟩ : ∃ f, fuel = f + 1 := ⟨fuel - 1, by simp at hf; omega⟩
    have hx : m.load pos = some x := by simpa using hb 0 (by simp)
    by_cases hx0 : x = 0
    · subst hx0
      simp [Mem.c_str, hx]
    · obtain ⟨x', rfl⟩ : ∃ x', x = x' + 1 := ⟨x - 1, by omega⟩
      have hrec : m.c_str f (pos + 1) = some (xs.takeWhile (fun b => b ≠ 0)) := by
        apply ih
        · intro i hi
          have := hb (i + 1) (by simpa using hi)
          simpa [Nat.add_assoc, Nat.add_comm 1 i] using this
        · have : pos + 1 + xs.length = pos + ((x' + 1) :: xs).length := by
            simp only [List.length_cons]; omega
          rw [this]; exact h0
        · simp at hf; omega
      simp [Mem.c_str, hx, hrec, List.takeWhile]

theorem label_of_Str_cut (m : Mem) (s : List Nat) (h : Str m s) (hl : s.length < 64) :
    label m = some (s.takeWhile (fun b => b ≠ 0)) := by
  unfold label
  apply c_str_of_Str
  · intro i hi; simpa using h.1 i hi
  · simpa using h.2
  · exact hl

/-! ## Reaching the registry -/

theorem peer_id_bytes20 (pid : List Nat) (h : pid.length = 20) :
    ∃ b0 b1 b2 b3 b4 b5 b6 b7 b8 b9 b10 b11 b12 b13 b14 b15 b16 b17 b18 b19,
      pid = [b0, b1, b2, b3, b4, b5, b6, b7, b8, b9, b10, b11, b12, b13, b14, b15, b16, b17,
        b18, b19] := by
  match pid, h with
  | [b0, b1, b2, b3, b4, b5, b6, b7, b8, b9, b10, b11, b12, b13, b14, b15, b16, b17, b18,
      b19], _ =>
    exact ⟨b0, b1, b2, b3, b4, b5, b6, b7, b8, b9, b10, b11, b12, b13, b14, b15, b16, b17, b18,
      b19, rfl⟩

theorem decodeShad0wClient_byte6 (m : Mem) (buf buflen : Nat) (pid : List Nat)
    (h : at_ pid 6 ≠ 45) : decodeShad0wClient m buf buflen pid = (false, m) := by
  unfold decodeShad0wClient
  simp only
  have hc : (List.take 9 pid).length ≠ 9 ∨ at_ (List.take 9 pid) 6 ≠ 45 ∨
      at_ (List.take 9 pid) 7 ≠ 45 ∨ at_ (List.take 9 pid) 8 ≠ 45 := by
    rw [at_take pid 9 6 (by omega)]
    exact Or.inr (Or.inl h)
  rw [if_pos hc]

theorem decodeBitCometClient_other_lead (m : Mem) (buflen : Nat) (pid : List Nat)
    (hlen : 9 ≤ pid.length) (h : at_ pid 0 ≠ 101 ∧ at_ pid 0 ≠ 70 ∧ at_ pid 0 ≠ 120) :
    decodeBitCometClient m 0 buflen pid = (false, m) := by
  obtain ⟨b0, b1, b2, b3, b4, b5, b6, b7, b8, rest, rfl⟩ := peer_id_head9 pid hlen
  simp only [at_, List.getD_cons_zero] at h
  obtain ⟨h1, h2, h3⟩ := h
  have hmin : min (b0 :: b1 :: b2 :: b3 :: b4 :: b5 :: b6 :: b7 :: b8 :: rest).length 4 = 4 :=
    Nat.min_eq_right (by simp)
  unfold decodeBitCometClient
  simp only [hmin]
  simp [sv, h1, h2, h3]

/-- The registry step of `tr_clientForId`, once the decoders before it have declined. -/
theorem tr_clientForId_registry (cs : Bool) (m : Mem) (buflen : Nat) (pid : List Nat) (i : Nat)
    (hs : decodeShad0wClient (m.store 0 0) 0 buflen pid = (false, m.store 0 0))
    (hb : decodeBitCometClient (m.store 0 0) 0 buflen pid = (false, m.store 0 0))
    (hz : ¬ (at_ pid 0 = 0 ∧ at_ pid 2 = 66 ∧ at_ pid 3 = 83))
    (hl : lookup Clients pid = some i) :
    tr_clientForId cs m buflen pid =
      (elem Clients i).formatter.call cs (m.store 0 0) 0 buflen (elem Clients i).name pid := by
  unfold tr_clientForId
  simp only [hs, hb, hl, if_neg hz, Bool.false_eq_true, if_false]

/-- The registry step for an identifier whose first byte is `-`: no decoder before the
registry takes it. -/
theorem tr_clientForId_dash (cs : Bool) (m : Mem) (buflen : Nat) (pid : List Nat) (i : Nat)
    (hlen : 9 ≤ pid.length) (h0 : at_ pid 0 = 45) (hl : lookup Clients pid = some i) :
    tr_clientForId cs m buflen pid =
      (elem Clients i).formatter.call cs (m.store 0 0) 0 buflen (elem Clients i).name pid := by
  apply tr_clientForId_registry
  · exact decodeShad0wClient_no_name _ _ _ _ (by rw [h0]; decide)
  · exact decodeBitCometClient_other_lead _ _ _ hlen (by rw [h0]; decide)
  · rw [h0]; simp
  · exact hl

/-! ## The lookup on identifiers with a three-byte prefix -/

theorem lookup_simple_tail (b3 b4 b5 b6 b7 b8 b9 b10 b11 b12 b13 b14 b15 b16 b17 b18 b19 : Nat) :
    ∀ e ∈ simple_heads,
      lookup Clients (e.2 ++ [b3, b4, b5, b6, b7, b8, b9, b10, b11, b12, b13, b14, b15, b16,
        b17, b18, b19]) = some e.1 := by
  simp only [simple_heads, List.forall_mem_cons, List.not_mem_nil, false_imp_iff, implies_true,
    and_true]
  repeat' constructor

theorem simple_heads_length : ∀ e ∈ simple_heads, e.2.length = 3 := by
  decide

theorem lookup_simple_head (i : Nat) (p : List Nat) (h : (i, p) ∈ simple_heads)
    (pid : List Nat) (hlen : pid.length = 20) (hpre : p <+: pid) :
    lookup Clients pid = some i := by
  obtain ⟨t, rfl⟩ := hpre
  have hp : p.length = 3 := simple_heads_length _ h
  have ht : t.length = 17 := by
    rw [List.length_append, hp] at hlen
    omega
  match t, ht with
  | [b3, b4, b5, b6, b7, b8, b9, b10, b11, b12, b13, b14, b15, b16, b17, b18, b19], _ =>
    exact lookup_simple_tail b3 b4 b5 b6 b7 b8 b9 b10 b11 b12 b13 b14 b15 b16 b17 b18 b19
      (i, p) h

/-! ## The three-digit rule -/

theorem three_digit_records : ∀ c ∈ Clients, c.formatter = format_func.three_digit →
    ∃ i ∈ List.range 129, (i, c.begins_with) ∈ simple_heads ∧ elem Clients i = c ∧
      c.name.length ≤ 25 ∧ 0 ∉ c.name ∧ c.begins_with.head? = some 45 := by
  decide

theorem at_zero_of_head (p pid : List Nat) (b : Nat) (hp : p.head? = some b)
    (hpre : p <+: pid) : at_ pid 0 = b := by
  obtain ⟨t, rfl⟩ := hpre
  cases p with
  | nil => simp at hp
  | cons x xs =>
    simp only [List.head?_cons, Option.some.injEq] at hp
    subst hp
    simp [at_]

/-- C12: for every record of `Clients` registered with `three_digit_formatter` and every
peer id that begins with the record's prefix, `tr_clientForId` leaves, in a buffer of at
least 35 bytes, the label made of the record's name, a space, and `charint(id[3])`, `.`,
`charint(id[4])`, `.`, `charint(id[5])`. -/
theorem three_digit_label (cs : Bool) (m : Mem) (buflen : Nat) (pid : List Nat) (c : Client)
    (hc : c ∈ Clients) (hf : c.formatter = format_func.three_digit)
    (hpid : is_peer_id pid) (hpre : c.begins_with <+: pid)
    (hcap : 35 ≤ buflen) (hcap2 : buflen < SIZE_MOD) :
    label (tr_clientForId cs m buflen pid) =
      some (c.name ++ [32] ++ charint (at_ pid 3) ++ [46] ++ charint (at_ pid 4) ++ [46] ++
        charint (at_ pid 5)) := by
  obtain ⟨i, _, hmem, hel, hnlen, hn0, hhead⟩ := three_digit_records c hc hf
  have hl := lookup_simple_head i _ hmem pid hpid.1 hpre
  have h0 := at_zero_of_head _ _ _ hhead hpre
  rw [tr_clientForId_dash cs m buflen pid i (by rw [hpid.1]; omega) h0 hl, hel, hf]
  obtain ⟨c30, c31, c32⟩ := charint_props (at_ pid 3)
  obtain ⟨c40, c41, c42⟩ := charint_props (at_ pid 4)
  obtain ⟨c50, c51, c52⟩ := charint_props (at_ pid 5)
  have hres := (buf_append_result (.str c.name)
    [.ch 32, .str (charint (at_ pid 3)), .ch 46, .str (charint (at_ pid 4)), .ch 46,
      .str (charint (at_ pid 5))] (m.store 0 0) buflen
    (by simp [text, Arg.text]; omega) hcap2).1
  have htext : text [.str c.name, .ch 32, .str (charint (at_ pid 3)), .ch 46,
      .str (charint (at_ pid 4)), .ch 46, .str (charint (at_ pid 5))] =
      c.name ++ [32] ++ charint (at_ pid 3) ++ [46] ++ charint (at_ pid 4) ++ [46] ++
        charint (at_ pid 5) := by
    simp [text, Arg.text]
  rw [htext] at hres
  apply label_of_Str _ _ hres
  · simp only [List.mem_append, List.mem_singleton, not_or]
    exact ⟨⟨⟨⟨⟨⟨hn0, by decide⟩, c30⟩, by decide⟩, c40⟩, by decide⟩, c50⟩
  · simp only [List.length_append, List.length_singleton]
    omega

/-- Witness of the three-digit rule: `-AD2030-xxxxxxxxxxxx` is labelled
`Advanced Download Manager 2.0.3`. -/
theorem three_digit_label_witness :
    is_peer_id (sv "-AD2030-xxxxxxxxxxxx") ∧
    label (tr_clientForId true Mem.fresh 64 (sv "-AD2030-xxxxxxxxxxxx")) =
      some (sv "Advanced Download Manager 2.0.3") :=
  ⟨by decide,
    three_digit_label true Mem.fresh 64 (sv "-AD2030-xxxxxxxxxxxx")
      (Client.mk (sv "-AD") (sv "Advanced Download Manager") format_func.three_digit)
      (by decide) (by decide) (by decide) (by decide) (by decide) (by decide)⟩

/-! ## `strint` on the spans the rules read -/

theorem sub_view_one (pid : List Nat) : ∀ (off : Nat), off < pid.length →
    sub_view pid off 1 = [at_ pid off] := by
  induction pid with
  | nil => intro off h; simp at h
  | cons x xs ih =>
    intro off h
    cases off with
    | zero => simp [sub_view, at_]
    | succ k =>
      have := ih k (by simpa using h)
      simpa [sub_view, at_] using this

theorem sub_view_two (pid : List Nat) : ∀ (off : Nat), off + 2 ≤ pid.length →
    sub_view pid off 2 = [at_ pid off, at_ pid (off + 1)] := by
  induction pid with
  | nil => intro off h; simp at h
  | cons x xs ih =>
    intro off h
    cases off with
    | zero =>
      cases xs with
      | nil => simp at h
      | cons y ys => simp [sub_view, at_]
    | succ k =>
      have := ih k (by simp at h; omega)
      simpa [sub_view, at_] using this

theorem tr_parseNum_two_digits (a b : Nat) (ha : is_digit a) (hb : is_digit b) :
    tr_parseNum [a, b] 10 = some ((two_digits a b : Nat) : Int) := by
  have h1 : digit_value a = some (a - 48) := by simp [digit_value, ha.1, ha.2]
  have h2 : digit_value b = some (b - 48) := by simp [digit_value, hb.1, hb.2]
  have ha' : a - 48 < 10 := by have := ha.2; omega
  have hb' : b - 48 < 10 := by have := hb.2; omega
  have hp : parse_digits 10 [a, b] none = some (two_digits a b) := by
    simp only [parse_digits, h1, h2, if_pos ha', if_pos hb', Option.getD_none,
      Option.getD_some, two_digits]
    congr 1
    omega
  unfold tr_parseNum
  split
  · rename_i rest heq
    simp only [List.cons.injEq] at heq
    have := ha.1
    omega
  · have hlt : two_digits a b < 100 := by unfold two_digits; omega
    simp [hp]
    omega

theorem tr_parseNum_one_digit (a : Nat) (ha : is_digit a) :
    tr_parseNum [a] 10 = some ((a - 48 : Nat) : Int) := by
  have h1 : digit_value a = some (a - 48) := by simp [digit_value, ha.1, ha.2]
  have ha' : a - 48 < 10 := by have := ha.2; omega
  have hp : parse_digits 10 [a] none = some (a - 48) := by
    simp only [parse_digits, h1, if_pos ha', Option.getD_none]
    congr 1
    omega
  unfold tr_parseNum
  split
  · rename_i rest heq
    simp only [List.cons.injEq] at heq
    have := ha.1
    omega
  · simp [hp]
    omega

theorem tr_parseNum_hex : ∀ a : Fin 256,
    (tr_parseNum [a.val] 16).getD 0 = ((hex_value a.val : Nat) : Int) ∧ hex_value a.val < 16 := by
  decide

theorem tr_parseNum_letter (a : Nat) (rest : List Nat) (ha : is_letter a) :
    tr_parseNum (a :: rest) 10 = none := by
  have h1 : ∃ d, digit_value a = some d ∧ ¬ d < 10 := by
    rcases ha with h | h
    · refine ⟨a - 55, ?_, by omega⟩
      have : ¬ (48 ≤ a ∧ a ≤ 57) := by omega
      have h2 : ¬ (97 ≤ a ∧ a ≤ 122) := by omega
      simp [digit_value, this, h2, h.1, h.2]
    · refine ⟨a - 87, ?_, by omega⟩
      have : ¬ (48 ≤ a ∧ a ≤ 57) := by omega
      simp [digit_value, this, h.1, h.2]
  obtain ⟨d, hd, hlt⟩ := h1
  have hp : parse_digits 10 (a :: rest) none = none := by
    simp only [parse_digits, hd, if_neg hlt]
  unfold tr_parseNum
  split
  · rename_i r heq
    simp only [List.cons.injEq] at heq
    rcases ha with h | h <;> omega
  · simp [hp]

theorem strint_two_digits (pid : List Nat) (off : Nat) (hlen : off + 2 ≤ pid.length)
    (ha : is_digit (at_ pid off)) (hb : is_digit (at_ pid (off + 1))) :
    strint pid off 2 10 = ((two_digits (at_ pid off) (at_ pid (off + 1)) : Nat) : Int) := by
  unfold strint
  rw [sub_view_two pid off hlen, tr_parseNum_two_digits _ _ ha hb]
  rfl

theorem strint_one_digit (pid : List Nat) (off : Nat) (hlen : off < pid.length)
    (ha : is_digit (at_ pid off)) :
    strint pid off 1 10 = ((at_ pid off - 48 : Nat) : Int) := by
  unfold strint
  rw [sub_view_one pid off hlen, tr_parseNum_one_digit _ ha]
  rfl

theorem strint_hex (pid : List Nat) (off : Nat) (hpid : is_peer_id pid)
    (hlen : off < pid.length) :
    strint pid off 1 16 = ((hex_value (at_ pid off) : Nat) : Int) ∧
      hex_value (at_ pid off) < 16 := by
  unfold strint
  rw [sub_view_one pid off hlen]
  exact tr_parseNum_hex ⟨at_ pid off, at_lt_256 pid hpid off⟩

theorem strint_letter (pid : List Nat) (off : Nat) (hlen : off + 2 ≤ pid.length)
    (ha : is_letter (at_ pid off)) : strint pid off 2 10 = 0 := by
  unfold strint
  rw [sub_view_two pid off hlen, tr_parseNum_letter _ _ ha]
  rfl

theorem two_digits_lt (a b : Nat) (ha : is_digit a) (hb : is_digit b) :
    two_digits a b < 100 := by
  unfold two_digits
  have := ha.2
  have := hb.2
  omega

/-! ## The two-major-two-minor rule -/

theorem two_major_two_minor_records : ∀ c ∈ Clients,
    c.formatter = format_func.two_major_two_minor →
    ∃ i ∈ List.range 129, (i, c.begins_with) ∈ simple_heads ∧ elem Clients i = c ∧
      c.name.length ≤ 17 ∧ 0 ∉ c.name ∧
      (c.begins_with.head? = some 45 ∨ c.begins_with.head? = some 84) := by
  decide

/-- The registry step for an identifier whose byte 6 is a digit and whose first byte is `-`
or `T`: no decoder before the registry takes it. -/
theorem tr_clientForId_digit6 (cs : Bool) (m : Mem) (buflen : Nat) (pid : List Nat) (i : Nat)
    (hlen : 9 ≤ pid.length) (h0 : at_ pid 0 = 45 ∨ at_ pid 0 = 84) (h6 : at_ pid 6 ≠ 45)
    (hl : lookup Clients pid = some i) :
    tr_clientForId cs m buflen pid =
      (elem Clients i).formatter.call cs (m.store 0 0) 0 buflen (elem Clients i).name pid := by
  apply tr_clientForId_registry
  · exact decodeShad0wClient_byte6 _ _ _ _ h6
  · exact decodeBitCometClient_other_lead _ _ _ hlen (by rcases h0 with h | h <;> rw [h] <;> decide)
  · rcases h0 with h | h <;> rw [h] <;> simp
  · exact hl

/-- What `two_major_two_minor_formatter` leaves when the two spans hold the numbers `a` and
`b`, both below 100. -/
theorem two_major_two_minor_str (m : Mem) (buflen : Nat) (name pid : List Nat) (a b : Nat)
    (ha : strint pid 3 2 10 = (a : Int)) (hb : strint pid 5 2 10 = (b : Int))
    (ha100 : a < 100) (hb100 : b < 100)
    (hfit : name.length + 7 ≤ buflen) (hcap : buflen < SIZE_MOD) :
    Str (two_major_two_minor_formatter m 0 buflen name pid)
      (name ++ [32] ++ decimal a ++ [46] ++ decimal2 b) ∧
    0 ∉ decimal a ++ [46] ++ decimal2 b ∧ (decimal a ++ [46] ++ decimal2 b).length ≤ 5 := by
  obtain ⟨hi, hi0, _, hi2⟩ := itoa_small ⟨a, by omega⟩
  obtain ⟨hf, hf0, hf3⟩ := fmt_02d_small ⟨b, by omega⟩
  simp only at hi hi0 hi2 hf hf0 hf3
  have hi2' : (itoa (a : Int)).length ≤ 2 := by
    have : ∀ n : Fin 100, (itoa (n.val : Int)).length ≤ 2 := by decide
    exact this ⟨a, ha100⟩
  have hf2 : (fmt_02d (b : Int)).length ≤ 2 := by
    have : ∀ n : Fin 100, (fmt_02d (n.val : Int)).length ≤ 2 := by decide
    exact this ⟨b, hb100⟩
  unfold two_major_two_minor_formatter
  simp only [ha, hb]
  have hres := (buf_append_fmt_result [.str name, .ch 32, .num (a : Int), .ch 46]
    (fmt_02d (b : Int)) m buflen (by simp [text, Arg.text]; omega) hcap).1
  have e : text [.str name, .ch 32, .num (a : Int), .ch 46] ++ fmt_02d (b : Int) =
      name ++ [32] ++ decimal a ++ [46] ++ decimal2 b := by
    simp [text, Arg.text, hi, hf]
  rw [e] at hres
  refine ⟨hres, ?_, ?_⟩
  · rw [← hi, ← hf]
    simp only [List.mem_append, List.mem_singleton, not_or]
    exact ⟨⟨hi0, by decide⟩, hf0⟩
  · rw [← hi, ← hf]
    simp only [List.length_append, List.length_singleton]
    omega

/-- C13: for every record of `Clients` registered with `two_major_two_minor_formatter` (the
prefixes `-AX`, `-BC`, `-CD`, `-FG`, `-LP`, `TIX`) and every peer id that begins with its
prefix and has ASCII digits in bytes 3 to 6, `tr_clientForId` leaves, in a buffer of at
least 24 bytes, the record's name, a space, the number made of the digits `id[3..5)` in
decimal without leading zeros, `.`, and the number made of `id[5..7)` padded to two
digits. -/
theorem two_major_two_minor_label (cs : Bool) (m : Mem) (buflen : Nat) (pid : List Nat)
    (c : Client) (hc : c ∈ Clients) (hf : c.formatter = format_func.two_major_two_minor)
    (hpid : is_peer_id pid) (hpre : c.begins_with <+: pid)
    (hdig : ∀ i, 3 ≤ i → i < 7 → is_digit (at_ pid i))
    (hcap : 24 ≤ buflen) (hcap2 : buflen < SIZE_MOD) :
    label (tr_clientForId cs m buflen pid) =
      some (c.name ++ [32] ++ decimal (two_digits (at_ pid 3) (at_ pid 4)) ++ [46] ++
        decimal2 (two_digits (at_ pid 5) (at_ pid 6))) := by
  obtain ⟨i, _, hmem, hel, hnlen, hn0, hhead⟩ := two_major_two_minor_records c hc hf
  have hl := lookup_simple_head i _ hmem pid hpid.1 hpre
  have h0 : at_ pid 0 = 45 ∨ at_ pid 0 = 84 := by
    rcases hhead with h | h
    · exact Or.inl (at_zero_of_head _ _ _ h hpre)
    · exact Or.inr (at_zero_of_head _ _ _ h hpre)
  have d3 := hdig 3 (by omega) (by omega)
  have d4 := hdig 4 (by omega) (by omega)
  have d5 := hdig 5 (by omega) (by omega)
  have d6 := hdig 6 (by omega) (by omega)
  have h6 : at_ pid 6 ≠ 45 := by have := d6.1; omega
  rw [tr_clientForId_digit6 cs m buflen pid i (by rw [hpid.1]; omega) h0 h6 hl, hel, hf]
  obtain ⟨hstr, h0', hlen'⟩ := two_major_two_minor_str (m.store 0 0) buflen c.name pid _ _
    (strint_two_digits pid 3 (by rw [hpid.1]; omega) d3 d4)
    (strint_two_digits pid 5 (by rw [hpid.1]; omega) d5 d6)
    (two_digits_lt _ _ d3 d4) (two_digits_lt _ _ d5 d6) (by omega) hcap2
  apply label_of_Str _ _ hstr
  · simp only [List.mem_append, List.mem_singleton, not_or] at h0' ⊢
    exact ⟨⟨⟨⟨hn0, by decide⟩, h0'.1.1⟩, by decide⟩, h0'.2⟩
  · simp only [List.length_append, List.length_singleton] at hlen' ⊢
    omega

/-- Witness of the two-major-two-minor rule: `-AX1020-xxxxxxxxxxxx` is `BitPump 10.20`. -/
theorem two_major_two_minor_label_witness :
    is_peer_id (sv "-AX1020-xxxxxxxxxxxx") ∧
    label (tr_clientForId true Mem.fresh 64 (sv "-AX1020-xxxxxxxxxxxx")) =
      some (sv "BitPump 10.20") :=
  ⟨by decide,
    two_major_two_minor_label true Mem.fresh 64 (sv "-AX1020-xxxxxxxxxxxx")
      (Client.mk (sv "-AX") (sv "BitPump") format_func.two_major_two_minor)
      (by decide) (by decide) (by decide) (by decide)
      (by intro i h1 h2; interval_cases i <;> decide) (by decide) (by decide)⟩

/-! ## The µTorrent rule -/

theorem utorrent_records : ∀ c ∈ Clients, c.formatter = format_func.utorrent →
    ∃ i ∈ List.range 129, (i, c.begins_with) ∈ simple_heads ∧ elem Clients i = c ∧
      c.name.length ≤ 18 ∧ 0 ∉ c.name ∧ c.begins_with.head? = some 45 := by
  decide

theorem getMnemonicEnd_eq (b : Nat) :
    getMnemonicEnd b = mnemonic_suffix b ∧ 0 ∉ getMnemonicEnd b ∧
      (getMnemonicEnd b).length ≤ 8 := by
  unfold getMnemonicEnd mnemonic_suffix
  by_cases h1 : b = 98 ∨ b = 66
  · have : b ∈ sv "bB" := by rcases h1 with rfl | rfl <;> decide
    rw [if_pos h1, if_pos this]; decide
  · have n1 : b ∉ sv "bB" := by simpa [sv] using h1
    rw [if_neg h1, if_neg n1]
    by_cases h2 : b = 100
    · have : b ∈ sv "d" := by rw [h2]; decide
      rw [if_pos h2, if_pos this]; decide
    · have n2 : b ∉ sv "d" := by simpa [sv] using h2
      rw [if_neg h2, if_neg n2]
      by_cases h3 : b = 120 ∨ b = 88 ∨ b = 90
      · have : b ∈ sv "xXZ" := by rcases h3 with rfl | rfl | rfl <;> decide
        rw [if_pos h3, if_pos this]; decide
      · have n3 : b ∉ sv "xXZ" := by simpa [sv] using h3
        rw [if_neg h3, if_neg n3]; decide

theorem itoa_lt_100 : ∀ n : Fin 100, itoa (n.val : Int) = decimal n.val ∧
    0 ∉ itoa (n.val : Int) ∧ (itoa (n.val : Int)).length ≤ 2 := by
  decide

/-- What a `buf_append` call of the shape used by `utorrent_formatter` leaves. -/
theorem utorrent_str (m : Mem) (buflen : Nat) (name : List Nat) (a b c : Nat) (e : Nat)
    (ha : a < 100) (hb : b < 100) (hc : c < 100) (hn0 : 0 ∉ name)
    (hnl : name.length ≤ 18)
    (hfit : name.length + 18 ≤ buflen) (hcap : buflen < SIZE_MOD) :
    label (buf_append ⟨m, 0, buflen⟩ [.str name, .ch 32, .num (a : Int), .ch 46,
      .num (b : Int), .ch 46, .num (c : Int), .str (getMnemonicEnd e)]).mem =
      some (name ++ [32] ++ decimal a ++ [46] ++ decimal b ++ [46] ++ decimal c ++
        mnemonic_suffix e) := by
  obtain ⟨ea, a0, al⟩ := itoa_lt_100 ⟨a, ha⟩
  obtain ⟨eb, b0, bl⟩ := itoa_lt_100 ⟨b, hb⟩
  obtain ⟨ec, c0, cl⟩ := itoa_lt_100 ⟨c, hc⟩
  obtain ⟨ee, e0, el⟩ := getMnemonicEnd_eq e
  simp only at ea a0 al eb b0 bl ec c0 cl
  have hres := (buf_append_result (.str name) [.ch 32, .num (a : Int), .ch 46,
    .num (b : Int), .ch 46, .num (c : Int), .str (getMnemonicEnd e)] m buflen
    (by simp [text, Arg.text]; omega) hcap).1
  have htext : text [.str name, .ch 32, .num (a : Int), .ch 46, .num (b : Int), .ch 46,
      .num (c : Int), .str (getMnemonicEnd e)] =
      name ++ [32] ++ itoa (a : Int) ++ [46] ++ itoa (b : Int) ++ [46] ++ itoa (c : Int) ++
        getMnemonicEnd e := by
    simp [text, Arg.text]
  rw [htext] at hres
  rw [← ea, ← eb, ← ec, ← ee]
  apply label_of_Str _ _ hres
  · simp only [List.mem_append, List.mem_singleton, not_or]
    exact ⟨⟨⟨⟨⟨⟨⟨hn0, by decide⟩, a0⟩, by decide⟩, b0⟩, by decide⟩, c0⟩, e0⟩
  · simp only [List.length_append, List.length_singleton]
    omega

/-- C14: for every record of `Clients` registered with `utorrent_formatter` (the prefixes
`-BT`, `-UE`, `-UM`, `-UT`, `-UW`) and every peer id that begins with its prefix, in a
buffer of at least 36 bytes: when `id[7]` is `-` the label is the name, a space, the values
of `id[3]`, `id[4]`, `id[5]` read as hexadecimal digits, in decimal and joined by `.`, then
the mnemonic suffix of `id[6]`; otherwise, `id[5]` and `id[6]` being decimal digits, it is
the name, a space, the hexadecimal values of `id[3]` and `id[4]` and the number `id[5..7)`,
joined by `.`, then the mnemonic suffix of `id[7]`. -/
theorem utorrent_label (cs : Bool) (m : Mem) (buflen : Nat) (pid : List Nat) (c : Client)
    (hc : c ∈ Clients) (hf : c.formatter = format_func.utorrent)
    (hpid : is_peer_id pid) (hpre : c.begins_with <+: pid)
    (hcap : 36 ≤ buflen) (hcap2 : buflen < SIZE_MOD) :
    (at_ pid 7 = 45 →
      label (tr_clientForId cs m buflen pid) =
        some (c.name ++ [32] ++ decimal (hex_value (at_ pid 3)) ++ [46] ++
          decimal (hex_value (at_ pid 4)) ++ [46] ++ decimal (hex_value (at_ pid 5)) ++
          mnemonic_suffix (at_ pid 6))) ∧
    (at_ pid 7 ≠ 45 → is_digit (at_ pid 5) → is_digit (at_ pid 6) →
      label (tr_clientForId cs m buflen pid) =
        some (c.name ++ [32] ++ decimal (hex_value (at_ pid 3)) ++ [46] ++
          decimal (hex_value (at_ pid 4)) ++ [46] ++
          decimal (two_digits (at_ pid 5) (at_ pid 6)) ++ mnemonic_suffix (at_ pid 7))) := by
  obtain ⟨i, _, hmem, hel, hnlen, hn0, hhead⟩ := utorrent_records c hc hf
  have hl := lookup_simple_head i _ hmem pid hpid.1 hpre
  have h0 := at_zero_of_head _ _ _ hhead hpre
  have hcall : tr_clientForId cs m buflen pid =
      utorrent_formatter (m.store 0 0) 0 buflen c.name pid := by
    rw [tr_clientForId_dash cs m buflen pid i (by rw [hpid.1]; omega) h0 hl, hel, hf]
    rfl
  obtain ⟨e3, l3⟩ := strint_hex pid 3 hpid (by rw [hpid.1]; omega)
  obtain ⟨e4, l4⟩ := strint_hex pid 4 hpid (by rw [hpid.1]; omega)
  obtain ⟨e5, l5⟩ := strint_hex pid 5 hpid (by rw [hpid.1]; omega)
  rw [hcall]
  constructor
  · intro h7
    unfold utorrent_formatter
    rw [if_pos h7, e3, e4, e5]
    exact utorrent_str _ _ _ _ _ _ _ (by omega) (by omega) (by omega) hn0 hnlen (by omega)
      hcap2
  · intro h7 d5 d6
    unfold utorrent_formatter
    rw [if_neg h7, e3, e4, strint_two_digits pid 5 (by rw [hpid.1]; omega) d5 d6]
    exact utorrent_str _ _ _ _ _ _ _ (by omega) (by omega) (two_digits_lt _ _ d5 d6) hn0
      hnlen (by omega) hcap2

/-- Witness of the µTorrent rule: `-UT341B-xxxxxxxxxxxx` is labelled
`µTorrent 3.4.1 (Beta)` (the `µ` being the two bytes C2 B5). -/
theorem utorrent_label_witness :
    is_peer_id (sv "-UT341B-xxxxxxxxxxxx") ∧ at_ (sv "-UT341B-xxxxxxxxxxxx") 7 = 45 ∧
    label (tr_clientForId true Mem.fresh 64 (sv "-UT341B-xxxxxxxxxxxx")) =
      some ([194, 181] ++ sv "Torrent 3.4.1 (Beta)") :=
  ⟨by decide, by decide,
    (utorrent_label true Mem.fresh 64 (sv "-UT341B-xxxxxxxxxxxx")
      (Client.mk (sv "-UT") (sv "\xc2\xb5Torrent") format_func.utorrent)
      (by decide) (by decide) (by decide) (by decide) (by decide) (by decide)).1 (by decide)⟩

/-! ## The mainline rule -/

theorem mainline_records : ∀ i : Fin 129,
    (elem Clients i.val).formatter = format_func.mainline →
    (elem Clients i.val).name.length ≤ 10 ∧ 0 ∉ (elem Clients i.val).name := by
  decide

theorem elem_beyond (i : Nat) (h : 129 ≤ i) :
    elem Clients i = ⟨[], [], format_func.no_version⟩ := by
  unfold elem
  rw [List.getD_eq_default]
  have : Clients.length = 129 := by decide
  omega

theorem mainline_name (i : Nat) (hf : (elem Clients i).formatter = format_func.mainline) :
    (elem Clients i).name.length ≤ 10 ∧ 0 ∉ (elem Clients i).name := by
  by_cases h : i < 129
  · exact mainline_records ⟨i, h⟩ hf
  · rw [elem_beyond i (by omega)] at hf
    exact absurd hf (by decide)

theorem c_string_eq_self (s : List Nat) (h : 0 ∉ s) : c_string s = s := by
  unfold c_string
  rw [List.takeWhile_eq_self_iff]
  intro b hb
  have : b ≠ 0 := fun h0 => h (h0 ▸ hb)
  simpa using this

/-- What a one-call formatter leaves, read back as a C string. -/
theorem buf_append_label (a : Arg) (rest : List Arg) (m : Mem) (buflen : Nat)
    (hfit : (text (a :: rest)).length < buflen) (hcap : buflen < SIZE_MOD)
    (h64 : (text (a :: rest)).length < 64) :
    Str (buf_append ⟨m, 0, buflen⟩ (a :: rest)).mem (text (a :: rest)) ∧
    label (buf_append ⟨m, 0, buflen⟩ (a :: rest)).mem = some (c_string (text (a :: rest))) := by
  have hres := (buf_append_result a rest m buflen hfit hcap).1
  exact ⟨hres, label_of_Str_cut _ _ hres h64⟩

/-- C15: for a peer id whose first byte is `M` or `Q`, that the Shadow decoder does not take
and that the lookup dispatches to a record registered with `mainline_formatter`, in a buffer
of at least 19 bytes: when `id[4]` and `id[6]` are `-` the buffer receives the record's
name, a space, `id[1]`, `.`, `id[3]`, `.`, `id[5]`; else when `id[5]` is `-` it receives the
name, a space, `id[1]`, `.`, `id[3]`, `id[4]`, `.`, `id[6]`; otherwise it receives the name
alone.  The bytes are copied raw, the label is the C string of that text, which is the text
itself when none of the copied bytes is NUL. -/
theorem mainline_label (cs : Bool) (m : Mem) (buflen : Nat) (pid : List Nat) (i : Nat)
    (hpid : is_peer_id pid) (h0 : at_ pid 0 = 77 ∨ at_ pid 0 = 81)
    (hs : (decodeShad0wClient (m.store 0 0) 0 buflen pid).1 = false)
    (hl : lookup Clients pid = some i)
    (hf : (elem Clients i).formatter = format_func.mainline)
    (hcap : 19 ≤ buflen) (hcap2 : buflen < SIZE_MOD) :
    (at_ pid 4 = 45 ∧ at_ pid 6 = 45 →
      Str (tr_clientForId cs m buflen pid)
        ((elem Clients i).name ++ [32, at_ pid 1, 46, at_ pid 3, 46, at_ pid 5]) ∧
      label (tr_clientForId cs m buflen pid) =
        some (c_string
          ((elem Clients i).name ++ [32, at_ pid 1, 46, at_ pid 3, 46, at_ pid 5])) ∧
      (at_ pid 1 ≠ 0 → at_ pid 3 ≠ 0 → at_ pid 5 ≠ 0 →
        label (tr_clientForId cs m buflen pid) =
          some ((elem Clients i).name ++ [32, at_ pid 1, 46, at_ pid 3, 46, at_ pid 5]))) ∧
    (¬ (at_ pid 4 = 45 ∧ at_ pid 6 = 45) → at_ pid 5 = 45 →
      Str (tr_clientForId cs m buflen pid)
        ((elem Clients i).name ++ [32, at_ pid 1, 46, at_ pid 3, at_ pid 4, 46, at_ pid 6]) ∧
      label (tr_clientForId cs m buflen pid) =
        some (c_string ((elem Clients i).name ++
          [32, at_ pid 1, 46, at_ pid 3, at_ pid 4, 46, at_ pid 6])) ∧
      (at_ pid 1 ≠ 0 → at_ pid 3 ≠ 0 → at_ pid 4 ≠ 0 → at_ pid 6 ≠ 0 →
        label (tr_clientForId cs m buflen pid) =
          some ((elem Clients i).name ++
            [32, at_ pid 1, 46, at_ pid 3, at_ pid 4, 46, at_ pid 6]))) ∧
    (¬ (at_ pid 4 = 45 ∧ at_ pid 6 = 45) → at_ pid 5 ≠ 45 →
      label (tr_clientForId cs m buflen pid) = some (elem Clients i).name) := by
  obtain ⟨hnl, hn0⟩ := mainline_name i hf
  have hcall : tr_clientForId cs m buflen pid =
      mainline_formatter (m.store 0 0) 0 buflen (elem Clients i).name pid := by
    rw [tr_clientForId_registry cs m buflen pid i (decodeShad0wClient_fst_false _ _ _ _ hs)
      (decodeBitCometClient_other_lead _ _ _ (by rw [hpid.1]; omega)
        (by rcases h0 with h | h <;> rw [h] <;> decide))
      (by rcases h0 with h | h <;> rw [h] <;> simp) hl, hf]
    rfl
  rw [hcall]
  refine ⟨?_, ?_, ?_⟩
  · intro h46
    unfold mainline_formatter
    rw [if_pos h46]
    obtain ⟨hstr, hlab⟩ := buf_append_label (.str (elem Clients i).name)
      [.ch 32, .ch (at_ pid 1), .ch 46, .ch (at_ pid 3), .ch 46, .ch (at_ pid 5)]
      (m.store 0 0) buflen (by simp [text, Arg.text]; omega) hcap2
      (by simp [text, Arg.text]; omega)
    have e : text [.str (elem Clients i).name, .ch 32, .ch (at_ pid 1), .ch 46,
        .ch (at_ pid 3), .ch 46, .ch (at_ pid 5)] =
        (elem Clients i).name ++ [32, at_ pid 1, 46, at_ pid 3, 46, at_ pid 5] := by
      simp [text, Arg.text]
    rw [e] at hstr hlab
    refine ⟨hstr, hlab, ?_⟩
    intro n1 n3 n5
    rw [hlab, c_string_eq_self]
    simp only [List.mem_append, List.mem_cons, List.mem_nil_iff, or_false, not_or]
    exact ⟨hn0, by decide, fun h => n1 h.symm, by decide, fun h => n3 h.symm, by decide,
      fun h => n5 h.symm⟩
  · intro h46 h5
    unfold mainline_formatter
    rw [if_neg h46, if_pos h5]
    obtain ⟨hstr, hlab⟩ := buf_append_label (.str (elem Clients i).name)
      [.ch 32, .ch (at_ pid 1), .ch 46, .ch (at_ pid 3), .ch (at_ pid 4), .ch 46,
        .ch (at_ pid 6)]
      (m.store 0 0) buflen (by simp [text, Arg.text]; omega) hcap2
      (by simp [text, Arg.text]; omega)
    have e : text [.str (elem Clients i).name, .ch 32, .ch (at_ pid 1), .ch 46,
        .ch (at_ pid 3), .ch (at_ pid 4), .ch 46, .ch (at_ pid 6)] =
        (elem Clients i).name ++ [32, at_ pid 1, 46, at_ pid 3, at_ pid 4, 46, at_ pid 6] := by
      simp [text, Arg.text]
    rw [e] at hstr hlab
    refine ⟨hstr, hlab, ?_⟩
    intro n1 n3 n4 n6
    rw [hlab, c_string_eq_self]
    simp only [List.mem_append, List.mem_cons, List.mem_nil_iff, or_false, not_or]
    exact ⟨hn0, by decide, fun h => n1 h.symm, by decide, fun h => n3 h.symm,
      fun h => n4 h.symm, by decide, fun h => n6 h.symm⟩
  · intro h46 h5
    unfold mainline_formatter
    rw [if_neg h46, if_neg h5]
    obtain ⟨hstr, hlab⟩ := buf_append_label (.str (elem Clients i).name) []
      (m.store 0 0) buflen (by simp [text, Arg.text]; omega) hcap2
      (by simp [text, Arg.text]; omega)
    have e : text [.str (elem Clients i).name] = (elem Clients i).name := by
      simp [text, Arg.text]
    rw [e] at hlab
    rw [hlab, c_string_eq_self _ hn0]

/-- Witness of the mainline rule: `Q1-10-0-xxxxxxxxxxxx` is labelled `Queen Bee 1.10.0`. -/
theorem mainline_label_witness :
    is_peer_id (sv "Q1-10-0-xxxxxxxxxxxx") ∧
    label (tr_clientForId true Mem.fresh 64 (sv "Q1-10-0-xxxxxxxxxxxx")) =
      some (sv "Queen Bee 1.10.0") :=
  ⟨by decide,
    ((mainline_label true Mem.fresh 64 (sv "Q1-10-0-xxxxxxxxxxxx") 118 (by decide) (by decide)
      (by decide) (by decide) (by decide) (by decide) (by decide)).2.1 (by decide)
      (by decide)).2.2 (by decide) (by decide) (by decide) (by decide)⟩

/-! ## Bounds on what `strint` gives -/

theorem sub_view_length (pid : List Nat) (off len : Nat) : (sub_view pid off len).length ≤ len := by
  unfold sub_view
  simp [List.length_take]

theorem parse_digits_one (base a : Nat) (v : Nat)
    (h : parse_digits base [a] none = some v) : v < base := by
  simp only [parse_digits] at h
  cases hd : digit_value a with
  | none => simp [hd] at h
  | some d =>
    simp only [hd] at h
    by_cases hlt : d < base
    · simp only [if_pos hlt, Option.getD_none, Option.some.injEq] at h
      omega
    · simp [if_neg hlt] at h

theorem parse_digits_two (a b : Nat) (v : Nat)
    (h : parse_digits 10 [a, b] none = some v) : v < 100 := by
  simp only [parse_digits] at h
  cases hd : digit_value a with
  | none => simp [hd] at h
  | some d =>
    simp only [hd] at h
    by_cases hlt : d < 10
    · simp only [if_pos hlt, Option.getD_none] at h
      cases he : digit_value b with
      | none =>
        simp only [he, Option.some.injEq] at h
        omega
      | some e =>
        simp only [he] at h
        by_cases hlt2 : e < 10
        · simp only [if_pos hlt2, Option.getD_some, Option.some.injEq] at h
          omega
        · simp only [if_neg hlt2, Option.some.injEq] at h
          omega
    · simp [if_neg hlt] at h

theorem tr_parseNum_bounds (s : List Nat) (hs : s.length ≤ 2) (v : Int)
    (h : tr_parseNum s 10 = some v) : -9 ≤ v ∧ v ≤ 99 := by
  unfold tr_parseNum at h
  split at h
  · rename_i rest
    simp only [List.length_cons] at hs
    cases rest with
    | nil => simp [parse_digits] at h
    | cons a r =>
      cases r with
      | cons _ _ => simp at hs
      | nil =>
        cases hp : parse_digits 10 [a] none with
        | none => simp [hp] at h
        | some w =>
          have hw := parse_digits_one 10 a w hp
          simp [hp] at h
          omega
  · cases s with
    | nil => simp [parse_digits] at h
    | cons a r =>
      cases r with
      | nil =>
        cases hp : parse_digits 10 [a] none with
        | none => simp [hp] at h
        | some w =>
          have hw := parse_digits_one 10 a w hp
          simp [hp] at h
          omega
      | cons b r2 =>
        cases r2 with
        | cons _ _ => simp at hs
        | nil =>
          cases hp : parse_digits 10 [a, b] none with
          | none => simp [hp] at h
          | some w =>
            have hw := parse_digits_two a b w hp
            simp [hp] at h
            omega

theorem strint_bounds (pid : List Nat) (off span : Nat) (hspan : span ≤ 2) :
    -9 ≤ strint pid off span 10 ∧ strint pid off span 10 ≤ 99 := by
  unfold strint
  cases h : tr_parseNum (sub_view pid off span) 10 with
  | none => simp
  | some v =>
    have := tr_parseNum_bounds _ (Nat.le_trans (sub_view_length pid off span) hspan) v h
    simpa using this

/-- Renderings of the numbers a two-byte decimal span can give. -/
theorem span_renderings : ∀ k : Fin 109,
    0 ∉ itoa ((k.val : Int) - 9) ∧ (itoa ((k.val : Int) - 9)).length ≤ 2 ∧
    0 ∉ fmt_d ((k.val : Int) - 9) ∧ (fmt_d ((k.val : Int) - 9)).length ≤ 2 ∧
    0 ∉ fmt_02d ((k.val : Int) - 9) ∧ (fmt_02d ((k.val : Int) - 9)).length ≤ 2 := by
  decide

theorem span_renderings_of (v : Int) (h : -9 ≤ v ∧ v ≤ 99) :
    0 ∉ itoa v ∧ (itoa v).length ≤ 2 ∧ 0 ∉ fmt_d v ∧ (fmt_d v).length ≤ 2 ∧
    0 ∉ fmt_02d v ∧ (fmt_02d v).length ≤ 2 := by
  have := span_renderings ⟨(v + 9).toNat, by omega⟩
  have e : (((v + 9).toNat : Nat) : Int) - 9 = v := by omega
  simp only [e] at this
  exact this

theorem decimal2_two_digits : ∀ x y : Fin 10,
    fmt_02d ((10 * x.val + y.val : Nat) : Int) = [48 + x.val, 48 + y.val] ∧
    fmt_d ((x.val : Nat) : Int) = [48 + x.val] := by
  decide

theorem fmt_02d_two_digits (a b : Nat) (ha : is_digit a) (hb : is_digit b) :
    fmt_02d ((two_digits a b : Nat) : Int) = [a, b] := by
  have := (decimal2_two_digits ⟨a - 48, by have := ha.2; omega⟩
    ⟨b - 48, by have := hb.2; omega⟩).1
  simp only at this
  unfold two_digits
  rw [this]
  have h1 : 48 + (a - 48) = a := by have := ha.1; omega
  have h2 : 48 + (b - 48) = b := by have := hb.1; omega
  rw [h1, h2]

theorem fmt_d_one_digit (a : Nat) (ha : is_digit a) : fmt_d ((a - 48 : Nat) : Int) = [a] := by
  have := (decimal2_two_digits ⟨a - 48, by have := ha.2; omega⟩ ⟨0, by omega⟩).2
  simp only at this
  rw [this]
  have h1 : 48 + (a - 48) = a := by have := ha.1; omega
  rw [h1]

/-! ## The Transmission rule -/

theorem tr_clientForId_TR (cs : Bool) (m : Mem) (buflen : Nat) (pid : List Nat)
    (hpid : is_peer_id pid) (hpre : sv "-TR" <+: pid) :
    tr_clientForId cs m buflen pid =
      transmission_formatter (m.store 0 0) 0 buflen (sv "Transmission") pid := by
  have hl := lookup_simple_head 79 (sv "-TR") (by decide) pid hpid.1 hpre
  have h0 := at_zero_of_head (sv "-TR") pid 45 (by decide) hpre
  rw [tr_clientForId_dash cs m buflen pid 79 (by rw [hpid.1]; omega) h0 hl]
  rfl

theorem transmission_tail (m : Mem) (buflen : Nat) (t : List Nat) (ht : t.length ≤ 5)
    (hcap : 19 ≤ buflen) (hcap2 : buflen < SIZE_MOD) :
    Str (format_to_n_nul (buf_append ⟨m, 0, buflen⟩ [.str (sv "Transmission"), .ch 32]) t)
      (sv "Transmission " ++ t) ∧
    label (format_to_n_nul (buf_append ⟨m, 0, buflen⟩ [.str (sv "Transmission"), .ch 32]) t) =
      some (c_string (sv "Transmission " ++ t)) := by
  have hres := (buf_append_fmt_result [.str (sv "Transmission"), .ch 32] t m buflen
    (by
      have : (text [.str (sv "Transmission"), .ch 32]).length = 13 := by decide
      omega) hcap2).1
  have e : text [.str (sv "Transmission"), .ch 32] = sv "Transmission " := by decide
  rw [e] at hres
  refine ⟨hres, label_of_Str_cut _ _ hres ?_⟩
  simp only [List.length_append]
  have : (sv "Transmission ").length = 13 := by decide
  omega

/-- C16: for every peer id that begins with `-TR`, in a buffer of at least 19 bytes: when
`id[3..6)` is `000` the buffer receives `Transmission 0.` and the byte `id[6]`; else when
`id[3..5)` is `00` it receives `Transmission 0.` and the span `id[5..7)` parsed as a number
and padded to two digits, which for two digits is those digits; otherwise, `id[3]`, `id[4]`
and `id[5]` being digits, it receives `Transmission `, the digit `id[3]`, `.`, the digits
`id[4]` `id[5]`, and `+` exactly when `id[6]` is `Z` or `X`.  The label is the C string of
that text. -/
theorem transmission_label (cs : Bool) (m : Mem) (buflen : Nat) (pid : List Nat)
    (hpid : is_peer_id pid) (hpre : sv "-TR" <+: pid)
    (hcap : 19 ≤ buflen) (hcap2 : buflen < SIZE_MOD) :
    (sub_view pid 3 3 = sv "000" →
      Str (tr_clientForId cs m buflen pid) (sv "Transmission 0." ++ [at_ pid 6]) ∧
      label (tr_clientForId cs m buflen pid) =
        some (c_string (sv "Transmission 0." ++ [at_ pid 6])) ∧
      (at_ pid 6 ≠ 0 →
        label (tr_clientForId cs m buflen pid) = some (sv "Transmission 0." ++ [at_ pid 6]))) ∧
    (sub_view pid 3 3 ≠ sv "000" → sub_view pid 3 2 = sv "00" →
      label (tr_clientForId cs m buflen pid) =
        some (sv "Transmission 0." ++ fmt_02d (strint pid 5 2 10)) ∧
      (is_digit (at_ pid 5) → is_digit (at_ pid 6) →
        label (tr_clientForId cs m buflen pid) =
          some (sv "Transmission 0." ++ [at_ pid 5, at_ pid 6]))) ∧
    (sub_view pid 3 2 ≠ sv "00" →
      is_digit (at_ pid 3) → is_digit (at_ pid 4) → is_digit (at_ pid 5) →
      label (tr_clientForId cs m buflen pid) =
        some (sv "Transmission " ++ [at_ pid 3, 46, at_ pid 4, at_ pid 5] ++
          (if at_ pid 6 = 90 ∨ at_ pid 6 = 88 then sv "+" else []))) := by
  rw [tr_clientForId_TR cs m buflen pid hpid hpre]
  have hlen : pid.length = 20 := hpid.1
  refine ⟨?_, ?_, ?_⟩
  · intro h000
    unfold transmission_formatter
    simp only [if_pos h000]
    obtain ⟨hstr, hlab⟩ := transmission_tail (m.store 0 0) buflen (sv "0." ++ [at_ pid 6])
      (by simp [sv]) hcap hcap2
    have e : sv "Transmission " ++ (sv "0." ++ [at_ pid 6]) =
        sv "Transmission 0." ++ [at_ pid 6] := by
      rw [← List.append_assoc]; rfl
    rw [e] at hstr hlab
    refine ⟨hstr, hlab, ?_⟩
    intro h6
    rw [hlab, c_string_eq_self]
    simp only [List.mem_append, List.mem_singleton, not_or]
    exact ⟨by decide, fun h => h6 h.symm⟩
  · intro h000 h00
    unfold transmission_formatter
    simp only [if_neg h000, if_pos h00]
    obtain ⟨p0, _, _, _, f0, fl⟩ := span_renderings_of _ (strint_bounds pid 5 2 (by omega))
    obtain ⟨hstr, hlab⟩ := transmission_tail (m.store 0 0) buflen
      (sv "0." ++ fmt_02d (strint pid 5 2 10))
      (by simp only [List.length_append]; have : (sv "0.").length = 2 := by decide
          omega) hcap hcap2
    have e : sv "Transmission " ++ (sv "0." ++ fmt_02d (strint pid 5 2 10)) =
        sv "Transmission 0." ++ fmt_02d (strint pid 5 2 10) := by
      rw [← List.append_assoc]; rfl
    rw [e] at hlab
    have hgen : label (format_to_n_nul
        (buf_append ⟨m.store 0 0, 0, buflen⟩ [.str (sv "Transmission"), .ch 32])
        (sv "0." ++ fmt_02d (strint pid 5 2 10))) =
        some (sv "Transmission 0." ++ fmt_02d (strint pid 5 2 10)) := by
      rw [hlab, c_string_eq_self]
      simp only [List.mem_append, not_or]
      exact ⟨by decide, f0⟩
    refine ⟨hgen, ?_⟩
    intro d5 d6
    rw [hgen, strint_two_digits pid 5 (by omega) d5 d6, fmt_02d_two_digits _ _ d5 d6]
  · intro h00 d3 d4 d5
    have h000 : sub_view pid 3 3 ≠ sv "000" := by
      intro h
      apply h00
      have h2 : sub_view pid 3 2 = (sub_view pid 3 3).take 2 := by
        unfold sub_view
        rw [List.take_take]
        rfl
      rw [h2, h]
      rfl
    unfold transmission_formatter
    simp only [if_neg h000, if_neg h00]
    rw [strint_one_digit pid 3 (by omega) d3, strint_two_digits pid 4 (by omega) d4 d5,
      fmt_d_one_digit _ d3, fmt_02d_two_digits _ _ d4 d5]
    have hplus : ∀ t : List Nat, t = sv "+" ∨ t = sv "" →
        label (format_to_n_nul
          (buf_append ⟨m.store 0 0, 0, buflen⟩ [.str (sv "Transmission"), .ch 32])
          ([at_ pid 3] ++ [46] ++ [at_ pid 4, at_ pid 5] ++ t)) =
        some (sv "Transmission " ++ [at_ pid 3, 46, at_ pid 4, at_ pid 5] ++ t) := by
      intro t ht
      have htl : t.length ≤ 1 ∧ 0 ∉ t := by rcases ht with rfl | rfl <;> decide
      obtain ⟨hstr, hlab⟩ := transmission_tail (m.store 0 0) buflen
        ([at_ pid 3] ++ [46] ++ [at_ pid 4, at_ pid 5] ++ t)
        (by simp; omega) hcap hcap2
      rw [hlab, c_string_eq_self]
      · simp [List.append_assoc]
      · have hT : 0 ∉ sv "Transmission " := by decide
        have h3 := d3.1
        have h4 := d4.1
        have h5 := d5.1
        simp only [List.mem_append, List.mem_cons, List.mem_nil_iff, or_false, not_or]
        refine ⟨hT, ⟨⟨?_, ?_⟩, ?_, ?_⟩, htl.2⟩ <;> omega
    by_cases hz : at_ pid 6 = 90 ∨ at_ pid 6 = 88
    · simp only [if_pos hz]
      exact hplus _ (Or.inl rfl)
    · simp only [if_neg hz]
      exact hplus _ (Or.inr rfl)

/-- Witness of the Transmission rule: `-TR300Z-xxxxxxxxxxxx` is `Transmission 3.00+`. -/
theorem transmission_label_witness :
    is_peer_id (sv "-TR300Z-xxxxxxxxxxxx") ∧
    label (tr_clientForId true Mem.fresh 64 (sv "-TR300Z-xxxxxxxxxxxx")) =
      some (sv "Transmission 3.00+") :=
  ⟨by decide,
    (transmission_label true Mem.fresh 64 (sv "-TR300Z-xxxxxxxxxxxx") (by decide) (by decide)
      (by decide) (by decide)).2.2 (by decide) (by decide) (by decide) (by decide)⟩

/-! ## Only the first ten bytes of the identifier are read -/

theorem at_of_take10 (pid : List Nat) (i : Nat) (h : i < 10) : at_ pid i = at_ (pid.take 10) i :=
  (at_take pid 10 i h).symm

theorem sub_view_of_take10 (pid : List Nat) (off len : Nat) (h : off + len ≤ 10) :
    sub_view pid off len = sub_view (pid.take 10) off len := by
  unfold sub_view
  rw [List.drop_take, List.take_take]
  congr 1
  omega

theorem take_of_take10 (pid : List Nat) (n : Nat) (h : n ≤ 10) :
    pid.take n = (pid.take 10).take n := by
  rw [List.take_take]
  congr 1
  omega

theorem Compare_congr (k1 k2 : List Nat) (c : Client) (hl1 : k1.length = 20)
    (hl2 : k2.length = 20) (h : k1.take 10 = k2.take 10) (hc : c.begins_with.length ≤ 10) :
    Compare_key_client k1 c = Compare_key_client k2 c ∧
    Compare_client_key c k1 = Compare_client_key c k2 := by
  unfold Compare_key_client Compare_client_key
  simp only [hl1, hl2]
  have hmin : min 20 c.begins_with.length = c.begins_with.length := by omega
  rw [hmin, take_of_take10 k1 _ hc, take_of_take10 k2 _ hc, h]
  exact ⟨rfl, rfl⟩

theorem prefix_lengths : ∀ i : Fin 129, (elem Clients i.val).begins_with.length ≤ 10 := by
  decide

theorem elem_prefix_length (i : Nat) : (elem Clients i).begins_with.length ≤ 10 := by
  by_cases h : i < 129
  · exact prefix_lengths ⟨i, h⟩
  · rw [elem_beyond i (by omega)]
    simp

theorem lower_bound_congr (k1 k2 : List Nat)
    (h : ∀ i, Compare_client_key (elem Clients i) k1 = Compare_client_key (elem Clients i) k2)
    (fuel : Nat) : ∀ first len,
    lower_bound Clients k1 fuel first len = lower_bound Clients k2 fuel first len := by
  induction fuel with
  | zero => intro first len; rfl
  | succ f ih =>
    intro first len
    simp only [lower_bound, h, ih]

theorem upper_bound_congr (k1 k2 : List Nat)
    (h : ∀ i, Compare_key_client k1 (elem Clients i) = Compare_key_client k2 (elem Clients i))
    (fuel : Nat) : ∀ first len,
    upper_bound Clients k1 fuel first len = upper_bound Clients k2 fuel first len := by
  induction fuel with
  | zero => intro first len; rfl
  | succ f ih =>
    intro first len
    simp only [upper_bound, h, ih]

theorem equal_range_loop_congr (k1 k2 : List Nat)
    (h1 : ∀ i, Compare_client_key (elem Clients i) k1 = Compare_client_key (elem Clients i) k2)
    (h2 : ∀ i, Compare_key_client k1 (elem Clients i) = Compare_key_client k2 (elem Clients i))
    (fuel : Nat) : ∀ first len,
    equal_range_loop Clients k1 fuel first len = equal_range_loop Clients k2 fuel first len := by
  induction fuel with
  | zero => intro first len; rfl
  | succ f ih =>
    intro first len
    simp only [equal_range_loop, h1, h2, ih, lower_bound_congr k1 k2 h1,
      upper_bound_congr k1 k2 h2]

theorem lookup_congr (k1 k2 : List Nat) (hl1 : k1.length = 20) (hl2 : k2.length = 20)
    (h : k1.take 10 = k2.take 10) : lookup Clients k1 = lookup Clients k2 := by
  have h1 : ∀ i, Compare_client_key (elem Clients i) k1 =
      Compare_client_key (elem Clients i) k2 :=
    fun i => (Compare_congr k1 k2 _ hl1 hl2 h (elem_prefix_length i)).2
  have h2 : ∀ i, Compare_key_client k1 (elem Clients i) =
      Compare_key_client k2 (elem Clients i) :=
    fun i => (Compare_congr k1 k2 _ hl1 hl2 h (elem_prefix_length i)).1
  unfold lookup equal_range
  rw [equal_range_loop_congr k1 k2 h1 h2]

theorem format_func_call_congr (cs : Bool) (f : format_func) (m : Mem) (buf buflen : Nat)
    (name p1 p2 : List Nat) (h : p1.take 10 = p2.take 10) :
    f.call cs m buf buflen name p1 = f.call cs m buf buflen name p2 := by
  have a1 := at_of_take10 p1 1 (by omega)
  have a3 := at_of_take10 p1 3 (by omega)
  have a4 := at_of_take10 p1 4 (by omega)
  have a5 := at_of_take10 p1 5 (by omega)
  have a6 := at_of_take10 p1 6 (by omega)
  have a7 := at_of_take10 p1 7 (by omega)
  have a8 := at_of_take10 p1 8 (by omega)
  have a9 := at_of_take10 p1 9 (by omega)
  have b1 := at_of_take10 p2 1 (by omega)
  have b3 := at_of_take10 p2 3 (by omega)
  have b4 := at_of_take10 p2 4 (by omega)
  have b5 := at_of_take10 p2 5 (by omega)
  have b6 := at_of_take10 p2 6 (by omega)
  have b7 := at_of_take10 p2 7 (by omega)
  have b8 := at_of_take10 p2 8 (by omega)
  have b9 := at_of_take10 p2 9 (by omega)
  have s1 := fun off len (hh : off + len ≤ 10) => sub_view_of_take10 p1 off len hh
  have s2 := fun off len (hh : off + len ≤ 10) => sub_view_of_take10 p2 off len hh
  cases f <;>
    simp only [format_func.call, two_major_two_minor_formatter, three_digit_formatter,
      four_digit_formatter, no_version_formatter, amazon_formatter, aria2_formatter,
      bitbuddy_formatter, bitlord_formatter, bitrocket_formatter, bittorrent_dna_formatter,
      bits_on_wheels_formatter, blizzard_formatter, btpd_formatter, burst_formatter,
      ctorrent_formatter, folx_formatter, ktorrent_formatter, mainline_formatter,
      mediaget_formatter, mldonkey_formatter, opera_formatter, picotorrent_formatter,
      plus_formatter, qvod_formatter, transmission_formatter, utorrent_formatter,
      xbt_formatter, xfplay_formatter, xtorrent_formatter, strint,
      a1, a3, a4, a5, a6, a7, a8, a9, b1, b3, b4, b5, b6, b7, b8, b9,
      s1 6 3 (by omega), s2 6 3 (by omega), s1 4 3 (by omega), s2 4 3 (by omega),
      s1 5 3 (by omega), s2 5 3 (by omega), s1 3 5 (by omega), s2 3 5 (by omega),
      s1 2 4 (by omega), s2 2 4 (by omega), s1 3 3 (by omega), s2 3 3 (by omega),
      s1 3 2 (by omega), s2 3 2 (by omega), s1 5 2 (by omega), s2 5 2 (by omega),
      s1 7 2 (by omega), s2 7 2 (by omega), s1 3 1 (by omega), s2 3 1 (by omega),
      s1 4 1 (by omega), s2 4 1 (by omega), s1 5 1 (by omega), s2 5 1 (by omega),
      s1 4 2 (by omega), s2 4 2 (by omega), h]

/-- C18: two 20-byte identifiers that agree on their bytes 0 to 9 make `tr_clientForId`
perform the same stores, byte for byte, for every capacity and every initial memory; two
calls on the same identifier in particular leave identical output. -/
theorem output_depends_on_first_ten_bytes (cs : Bool) (m : Mem) (buflen : Nat)
    (p1 p2 : List Nat) (hl1 : p1.length = 20) (hl2 : p2.length = 20)
    (h : p1.take 10 = p2.take 10) :
    tr_clientForId cs m buflen p1 = tr_clientForId cs m buflen p2 := by
  have hsh : ∀ m', decodeShad0wClient m' 0 buflen p1 = decodeShad0wClient m' 0 buflen p2 := by
    intro m'
    unfold decodeShad0wClient
    simp only [take_of_take10 p1 9 (by omega), take_of_take10 p2 9 (by omega),
      at_of_take10 p1 0 (by omega), at_of_take10 p2 0 (by omega), h]
  have hbc : ∀ m', decodeBitCometClient m' 0 buflen p1 =
      decodeBitCometClient m' 0 buflen p2 := by
    intro m'
    have hmin : min 20 4 = 4 := rfl
    unfold decodeBitCometClient
    simp only [hl1, hl2, hmin, take_of_take10 p1 4 (by omega), take_of_take10 p2 4 (by omega),
      sub_view_of_take10 p1 6 4 (by omega), sub_view_of_take10 p2 6 4 (by omega),
      at_of_take10 p1 4 (by omega), at_of_take10 p2 4 (by omega),
      at_of_take10 p1 5 (by omega), at_of_take10 p2 5 (by omega), h]
  have hlk := lookup_congr p1 p2 hl1 hl2 h
  have hat : ∀ i, i < 10 → at_ p1 i = at_ p2 i := by
    intro i hi
    rw [at_of_take10 p1 i hi, at_of_take10 p2 i hi, h]
  have hmap : (List.range 8).map (at_ p1) = (List.range 8).map (at_ p2) := by
    apply List.map_congr_left
    intro i hi
    exact hat i (by have := List.mem_range.mp hi; omega)
  unfold tr_clientForId
  simp only [hsh, hbc, hlk, hmap, hat 0 (by omega), hat 1 (by omega), hat 2 (by omega),
    hat 3 (by omega)]
  split
  · rfl
  · split
    · rfl
    · split
      · rfl
      · cases lookup Clients p2 with
        | none => rfl
        | some i => exact format_func_call_congr cs _ _ _ _ _ p1 p2 h

/-- Witness of the first-ten-bytes theorem on two identifiers that differ from byte 10
on. -/
theorem output_depends_on_first_ten_bytes_witness :
    (sv "-TR300Z-xxxxxxxxxxxx").take 10 = (sv "-TR300Z-xxyyyyyyyyyy").take 10 ∧
    tr_clientForId true Mem.fresh 5 (sv "-TR300Z-xxxxxxxxxxxx") =
      tr_clientForId true Mem.fresh 5 (sv "-TR300Z-xxyyyyyyyyyy") :=
  ⟨by decide,
    output_depends_on_first_ten_bytes true Mem.fresh 5 (sv "-TR300Z-xxxxxxxxxxxx")
      (sv "-TR300Z-xxyyyyyyyyyy") (by decide) (by decide) (by decide)⟩

/-! ## Every formatter fits -/

theorem fits_append (a : Arg) (rest : List Arg) (bound : Nat)
    (h : (text (a :: rest)).length ≤ bound) :
    Fits (fun m buflen => (buf_append ⟨m, 0, buflen⟩ (a :: rest)).mem) bound :=
  ⟨text (a :: rest), h, fun m buflen hb hcap =>
    buf_append_result a rest m buflen (by omega) hcap⟩

theorem fits_append_fmt (args : List Arg) (t : List Nat) (bound : Nat)
    (h : (text args).length + t.length ≤ bound) :
    Fits (fun m buflen => format_to_n_nul (buf_append ⟨m, 0, buflen⟩ args) t) bound :=
  ⟨text args ++ t, by simpa using h, fun m buflen hb hcap =>
    buf_append_fmt_result args t m buflen (by omega) hcap⟩

theorem tr_parseNum_bounds16 (s : List Nat) (hs : s.length ≤ 1) (v : Int)
    (h : tr_parseNum s 16 = some v) : 0 ≤ v ∧ v ≤ 15 := by
  unfold tr_parseNum at h
  split at h
  · rename_i rest
    simp only [List.length_cons] at hs
    have : rest = [] := List.eq_nil_of_length_eq_zero (by omega)
    subst this
    simp [parse_digits] at h
  · cases s with
    | nil => simp [parse_digits] at h
    | cons a r =>
      simp only [List.length_cons] at hs
      have : r = [] := List.eq_nil_of_length_eq_zero (by omega)
      subst this
      cases hp : parse_digits 16 [a] none with
      | none => simp [hp] at h
      | some w =>
        have hw := parse_digits_one 16 a w hp
        simp [hp] at h
        omega

theorem strint_hex_bounds (pid : List Nat) (off : Nat) :
    -9 ≤ strint pid off 1 16 ∧ strint pid off 1 16 ≤ 99 := by
  unfold strint
  cases h : tr_parseNum (sub_view pid off 1) 16 with
  | none => simp
  | some v =>
    have := tr_parseNum_bounds16 _ (sub_view_length pid off 1) v h
    simp only [Option.getD_some]
    omega

theorem char_renderings : ∀ k : Fin 385, (itoa ((k.val : Int) - 128)).length ≤ 3 ∧
    (fmt_d ((k.val : Int) - 128)).length ≤ 4 := by
  decide

theorem char_to_int_bounds (cs : Bool) (b : Nat) (hb : b < 256) :
    -128 ≤ char_to_int cs b ∧ char_to_int cs b ≤ 255 := by
  unfold char_to_int
  split <;> rename_i h
  · simp only [Bool.and_eq_true, decide_eq_true_eq] at h
    omega
  · omega

theorem char_renderings_of (v : Int) (h : -128 ≤ v ∧ v ≤ 256) :
    (itoa v).length ≤ 3 ∧ (fmt_d v).length ≤ 4 := by
  have := char_renderings ⟨(v + 128).toNat, by omega⟩
  have e : (((v + 128).toNat : Nat) : Int) - 128 = v := by omega
  simp only [e] at this
  exact this

/-- Every formatter leaves, in every buffer that can hold them, the same bytes: the name and
at most `extra` bytes more. -/
theorem format_func_call_fits (cs : Bool) (f : format_func) (name pid : List Nat)
    (hb : ∀ i, at_ pid i < 256) :
    Fits (fun m buflen => f.call cs m 0 buflen name pid) (name.length + extra f) := by
  have c3 := (charint_props (at_ pid 3)).2.2
  have c4 := (charint_props (at_ pid 4)).2.2
  have c5 := (charint_props (at_ pid 5)).2.2
  have c6 := (charint_props (at_ pid 6)).2.2
  have c7 := (charint_props (at_ pid 7)).2.2
  have v63 := sub_view_length pid 6 3
  have v53 := sub_view_length pid 5 3
  have v35 := sub_view_length pid 3 5
  have v24 := sub_view_length pid 2 4
  have r32 := span_renderings_of _ (strint_bounds pid 3 2 (by omega))
  have r52 := span_renderings_of _ (strint_bounds pid 5 2 (by omega))
  have r72 := span_renderings_of _ (strint_bounds pid 7 2 (by omega))
  have r42 := span_renderings_of _ (strint_bounds pid 4 2 (by omega))
  have r31 := span_renderings_of _ (strint_bounds pid 3 1 (by omega))
  have x3 := span_renderings_of _ (strint_hex_bounds pid 3)
  have x4 := span_renderings_of _ (strint_hex_bounds pid 4)
  have x5 := span_renderings_of _ (strint_hex_bounds pid 5)
  have m6 := (getMnemonicEnd_eq (at_ pid 6)).2.2
  have m7 := (getMnemonicEnd_eq (at_ pid 7)).2.2
  have z3 := (char_renderings_of (char_to_int cs (at_ pid 3) + 1)
    (by have := char_to_int_bounds cs _ (hb 3); omega)).1
  have z4 := (char_renderings_of (char_to_int cs (at_ pid 4))
    (by have := char_to_int_bounds cs _ (hb 4); omega)).1
  have lDev : (sv " Dev ").length = 5 := by decide
  have lRC : (sv " RC ").length = 4 := by decide
  have l105 : (sv " 1.0.5").length = 6 := by decide
  have l106 : (sv " 1.0.6").length = 6 := by decide
  have lpar : (sv " (").length = 2 := by decide
  have l0dot : (sv "0.").length = 2 := by decide
  have lplus : (sv "+").length = 1 := by decide
  have lnone : (sv "").length = 0 := by decide
  cases f with
  | amazon =>
    simp only [format_func.call, amazon_formatter]
    exact fits_append _ _ _ (by simp [text, Arg.text, extra])
  | aria2 =>
    simp only [format_func.call, aria2_formatter]
    by_cases h1 : at_ pid 4 = 45 ∧ at_ pid 6 = 45 ∧ at_ pid 8 = 45
    · simp only [if_pos h1]
      exact fits_append _ _ _ (by simp [text, Arg.text, extra])
    · by_cases h2 : at_ pid 4 = 45 ∧ at_ pid 7 = 45 ∧ at_ pid 9 = 45
      · simp only [if_neg h1, if_pos h2]
        exact fits_append _ _ _ (by simp [text, Arg.text, extra])
      · simp only [if_neg h1, if_neg h2]
        exact fits_append _ _ _ (by simp [text, Arg.text, extra])
  | bitbuddy =>
    simp only [format_func.call, bitbuddy_formatter]
    exact fits_append _ _ _ (by simp [text, Arg.text, extra])
  | bitlord =>
    simp only [format_func.call, bitlord_formatter]
    exact fits_append _ _ _ (by simp [text, Arg.text, extra]; omega)
  | bitrocket =>
    simp only [format_func.call, bitrocket_formatter]
    exact fits_append _ _ _ (by simp [text, Arg.text, extra])
  | bits_on_wheels =>
    simp only [format_func.call, bits_on_wheels_formatter]
    by_cases h1 : sub_view pid 4 3 = sv "A0B"
    · simp only [if_pos h1]
      exact fits_append _ _ _ (by simp [text, Arg.text, extra, l105])
    · by_cases h2 : sub_view pid 4 3 = sv "A0C"
      · simp only [if_neg h1, if_pos h2]
        exact fits_append _ _ _ (by simp [text, Arg.text, extra, l106])
      · simp only [if_neg h1, if_neg h2]
        exact fits_append _ _ _ (by simp [text, Arg.text, extra])
  | bittorrent_dna =>
    simp only [format_func.call, bittorrent_dna_formatter]
    exact fits_append_fmt _ _ _ (by simp [text, Arg.text, extra]; omega)
  | blizzard =>
    simp only [format_func.call, blizzard_formatter]
    exact fits_append _ _ _ (by simp [text, Arg.text, extra]; omega)
  | btpd =>
    simp only [format_func.call, btpd_formatter]
    exact fits_append _ _ _ (by simp [text, Arg.text, extra]; omega)
  | burst =>
    simp only [format_func.call, burst_formatter]
    exact fits_append _ _ _ (by simp [text, Arg.text, extra])
  | ctorrent =>
    simp only [format_func.call, ctorrent_formatter]
    exact fits_append _ _ _ (by simp [text, Arg.text, extra]; omega)
  | folx =>
    simp only [format_func.call, folx_formatter]
    exact fits_append _ _ _ (by simp [text, Arg.text, extra]; omega)
  | four_digit =>
    simp only [format_func.call, four_digit_formatter]
    exact fits_append _ _ _ (by simp [text, Arg.text, extra]; omega)
  | ktorrent =>
    simp only [format_func.call, ktorrent_formatter, three_digit_formatter]
    by_cases h1 : at_ pid 5 = 68
    · simp only [if_pos h1]
      exact fits_append _ _ _ (by simp [text, Arg.text, extra, lDev]; omega)
    · by_cases h2 : at_ pid 5 = 82
      · simp only [if_neg h1, if_pos h2]
        exact fits_append _ _ _ (by simp [text, Arg.text, extra, lRC]; omega)
      · simp only [if_neg h1, if_neg h2]
        exact fits_append _ _ _ (by simp [text, Arg.text, extra]; omega)
  | mainline =>
    simp only [format_func.call, mainline_formatter]
    by_cases h1 : at_ pid 4 = 45 ∧ at_ pid 6 = 45
    · simp only [if_pos h1]
      exact fits_append _ _ _ (by simp [text, Arg.text, extra])
    · by_cases h2 : at_ pid 5 = 45
      · simp only [if_neg h1, if_pos h2]
        exact fits_append _ _ _ (by simp [text, Arg.text, extra])
      · simp only [if_neg h1, if_neg h2]
        exact fits_append _ _ _ (by simp [text, Arg.text, extra])
  | mediaget =>
    simp only [format_func.call, mediaget_formatter]
    exact fits_append _ _ _ (by simp [text, Arg.text, extra]; omega)
  | mldonkey =>
    simp only [format_func.call, mldonkey_formatter]
    exact fits_append _ _ _ (by simp [text, Arg.text, extra]; omega)
  | no_version =>
    simp only [format_func.call, no_version_formatter]
    exact fits_append _ _ _ (by simp [text, Arg.text, extra])
  | opera =>
    simp only [format_func.call, opera_formatter]
    exact fits_append _ _ _ (by simp [text, Arg.text, extra]; omega)
  | picotorrent =>
    simp only [format_func.call, picotorrent_formatter]
    exact fits_append _ _ _ (by simp [text, Arg.text, extra]; omega)
  | plus =>
    simp only [format_func.call, plus_formatter]
    exact fits_append _ _ _ (by simp [text, Arg.text, extra])
  | qvod =>
    simp only [format_func.call, qvod_formatter]
    exact fits_append _ _ _ (by simp [text, Arg.text, extra]; omega)
  | three_digit =>
    simp only [format_func.call, three_digit_formatter]
    exact fits_append _ _ _ (by simp [text, Arg.text, extra]; omega)
  | transmission =>
    simp only [format_func.call, transmission_formatter]
    by_cases h1 : sub_view pid 3 3 = sv "000"
    · simp only [if_pos h1]
      exact fits_append_fmt _ _ _ (by simp [text, Arg.text, extra, l0dot])
    · by_cases h2 : sub_view pid 3 2 = sv "00"
      · simp only [if_neg h1, if_pos h2]
        exact fits_append_fmt _ _ _ (by simp [text, Arg.text, extra, l0dot]; omega)
      · simp only [if_neg h1, if_neg h2]
        by_cases h3 : at_ pid 6 = 90 ∨ at_ pid 6 = 88
        · simp only [if_pos h3]
          exact fits_append_fmt _ _ _ (by simp [text, Arg.text, extra, lplus]; omega)
        · simp only [if_neg h3]
          exact fits_append_fmt _ _ _ (by simp [text, Arg.text, extra, lnone]; omega)
  | two_major_two_minor =>
    simp only [format_func.call, two_major_two_minor_formatter]
    exact fits_append_fmt _ _ _ (by simp [text, Arg.text, extra]; omega)
  | utorrent =>
    simp only [format_func.call, utorrent_formatter]
    by_cases h1 : at_ pid 7 = 45
    · simp only [if_pos h1]
      exact fits_append _ _ _ (by simp [text, Arg.text, extra]; omega)
    · simp only [if_neg h1]
      exact fits_append _ _ _ (by simp [text, Arg.text, extra]; omega)
  | xbt =>
    simp only [format_func.call, xbt_formatter]
    exact fits_append _ _ _ (by simp [text, Arg.text, extra]; omega)
  | xfplay =>
    simp only [format_func.call, xfplay_formatter, three_digit_formatter]
    by_cases h1 : at_ pid 6 = 48
    · simp only [if_pos h1]
      exact fits_append _ _ _ (by simp [text, Arg.text, extra]; omega)
    · simp only [if_neg h1]
      exact fits_append _ _ _ (by simp [text, Arg.text, extra])
  | xtorrent =>
    simp only [format_func.call, xtorrent_formatter]
    exact fits_append_fmt _ _ _ (by simp [text, Arg.text, extra, lpar]; omega)

/-! ## The bespoke decoders fit -/

theorem get_shad0w_int_lt (b n : Nat) (h : get_shad0w_int b = some n) : n < 64 := by
  by_cases hb : b ∈ shad0w_alphabet
  · rw [get_shad0w_int_of_mem b hb] at h
    have := indexOf_alphabet_lt b hb
    simp only [Option.some.injEq] at h
    omega
  · rw [get_shad0w_int_eq_none b hb] at h
    simp at h

theorem shad0w_vals_bounds (r : List Nat) : ∀ (vals out : List Int) (view : List Nat),
    shad0w_vals r vals = some (out, view) →
    out.length + 1 ≤ vals.length + max r.length 1 ∧
      ∀ v ∈ out, v ∈ vals ∨ (0 ≤ v ∧ v < 64) := by
  induction r with
  | nil =>
    intro vals out view h
    simp only [shad0w_vals, Option.some.injEq, Prod.mk.injEq] at h
    obtain ⟨rfl, _⟩ := h
    exact ⟨by simp, fun v hv => Or.inl hv⟩
  | cons b rest ih =>
    intro vals out view h
    cases rest with
    | nil =>
      simp only [shad0w_vals, Option.some.injEq, Prod.mk.injEq] at h
      obtain ⟨rfl, _⟩ := h
      exact ⟨by simp, fun v hv => Or.inl hv⟩
    | cons c rest' =>
      unfold shad0w_vals at h
      cases hg : get_shad0w_int b with
      | none => simp [hg] at h
      | some n =>
        simp only [hg] at h
        have hn := get_shad0w_int_lt b n hg
        obtain ⟨h1, h2⟩ := ih _ _ _ h
        simp only [List.length_append, List.length_cons, List.length_nil] at h1 ⊢
        refine ⟨by omega, fun v hv => ?_⟩
        rcases h2 v hv with hm | hm
        · simp only [List.mem_append, List.mem_singleton] at hm
          rcases hm with hm | rfl
          · exact Or.inl hm
          · exact Or.inr ⟨by omega, by omega⟩
        · exact Or.inr hm

theorem strip_dashes_length (r : List Nat) : (strip_dashes r).length ≤ r.length := by
  induction r with
  | nil => simp [strip_dashes]
  | cons b rest ih =>
    unfold strip_dashes
    split
    · simp only [List.length_cons]; omega
    · exact Nat.le_refl _

theorem shad0w_name_length (b : Nat) (name : List Nat) (h : shad0w_name b = some name) :
    name.length ≤ 20 := by
  unfold shad0w_name at h
  split_ifs at h <;> simp only [Option.some.injEq] at h <;> subst h <;> decide

theorem foldl_dots_within (vals : List Int) : ∀ {c : Cursor} {cap : Nat} {s : List Nat},
    Holds c cap s → s.length + (dots vals).length < cap → c.mem.within cap = true →
    (vals.foldl (fun c num => buf_append c [.num num, .ch 46]) c).mem.within cap = true := by
  induction vals with
  | nil => intro c cap s _ _ hw; simpa using hw
  | cons v rest ih =>
    intro c cap s h hfit hw
    simp only [dots, List.length_append, List.length_singleton] at hfit
    have hlen : s.length + (text [.num v, .ch 46]).length < cap := by
      simp only [text, Arg.text, List.length_append, List.length_singleton, List.length_nil]
      omega
    have h1 := buf_append_holds [.num v, .ch 46] h hlen
    have h2 := (buf_append_at_within [.num v, .ch 46] h.1 hlen hw).1
    exact ih h1 (by
      simp only [text, Arg.text, List.length_append, List.length_singleton, List.length_nil]
      omega) h2

/-- The Shadow decoder either declines whatever the buffer, or leaves one text of at most
35 bytes in every buffer of at least 37 bytes, storing nothing outside it. -/
theorem decodeShad0wClient_fits (pid : List Nat) (hlen : 9 ≤ pid.length) :
    (∀ (m : Mem) (buflen : Nat), decodeShad0wClient m 0 buflen pid = (false, m)) ∨
    ∃ s : List Nat, s.length ≤ 35 ∧
      ∀ (m : Mem) (buflen : Nat), 37 ≤ buflen → buflen < SIZE_MOD →
        (decodeShad0wClient m 0 buflen pid).1 = true ∧
        Str (decodeShad0wClient m 0 buflen pid).2 s ∧
        (m.within buflen = true → (decodeShad0wClient m 0 buflen pid).2.within buflen = true) := by
  by_cases hc : (List.take 9 pid).length ≠ 9 ∨ at_ (List.take 9 pid) 6 ≠ 45 ∨
      at_ (List.take 9 pid) 7 ≠ 45 ∨ at_ (List.take 9 pid) 8 ≠ 45
  · left
    intro m buflen
    unfold decodeShad0wClient
    simp only [if_pos hc]
  cases hv : shad0w_vals (strip_dashes (List.take 9 pid).reverse) [] with
  | none =>
    left
    intro m buflen
    unfold decodeShad0wClient
    simp only [if_neg hc, hv]
  | some r =>
    cases hn : shad0w_name (at_ pid 0) with
    | none =>
      left
      intro m buflen
      exact decodeShad0wClient_no_name _ _ _ _ hn
    | some name =>
      right
      obtain ⟨vals, view⟩ := r
      simp only [not_or, not_not] at hc
      obtain ⟨_, h6, h7, h8⟩ := hc
      rw [at_take pid 9 6 (by omega)] at h6
      rw [at_take pid 9 7 (by omega)] at h7
      rw [at_take pid 9 8 (by omega)] at h8
      have hb := shad0w_vals_bounds _ _ _ _ hv
      have hstrip : (strip_dashes (List.take 9 pid).reverse).length ≤ 6 := by
        obtain ⟨b0, b1, b2, b3, b4, b5, b6, b7, b8, rest, rfl⟩ := peer_id_head9 pid hlen
        simp only [at_, List.getD_cons_zero, List.getD_cons_succ] at h6 h7 h8
        subst h6 h7 h8
        have := strip_dashes_length [b5, b4, b3, b2, b1, b0]
        simpa [strip_dashes] using this
      have hvl : vals.length ≤ 5 := by
        have := hb.1
        simp only [List.length_nil] at this
        omega
      have hd := dots_props vals.reverse (fun v hv => by
        rcases hb.2 v (List.mem_reverse.mp hv) with h | h
        · simp at h
        · have e : ((v.toNat : Nat) : Int) = v := by omega
          have h1 := itoa_no_nul v.toNat (by omega)
          have h2 := itoa_length_le_two v.toNat (by omega)
          rw [e] at h1 h2
          exact ⟨h1, h2⟩)
      rw [List.length_reverse] at hd
      have hnl := shad0w_name_length _ _ hn
      have htot : (name ++ [32] ++ dots vals.reverse).length ≤ 36 := by
        simp only [List.length_append, List.length_singleton]
        omega
      refine ⟨(name ++ [32] ++ dots vals.reverse).dropLast, ?_, fun m buflen hcap hcap2 => ?_⟩
      · rw [List.length_dropLast]
        omega
      have hrun := decodeShad0wClient_run m buflen pid vals view name h6 h7 h8 hlen hv hn
        (by omega) hcap2
      refine ⟨hrun.1, hrun.2, fun hw => ?_⟩
      have hc' : ¬ ((List.take 9 pid).length ≠ 9 ∨ at_ (List.take 9 pid) 6 ≠ 45 ∨
          at_ (List.take 9 pid) 7 ≠ 45 ∨ at_ (List.take 9 pid) 8 ≠ 45) := by
        simp only [at_take pid 9 6 (by omega), at_take pid 9 7 (by omega),
          at_take pid 9 8 (by omega), h6, h7, h8, List.length_take]
        simp
        omega
      have hfit2 : ([] ++ text [.str name, .ch 32]).length + (dots vals.reverse).length
          < buflen := by
        simp only [List.length_append, List.length_singleton, text, Arg.text,
          List.length_nil] at htot ⊢
        omega
      have hat := At_start m buflen (by omega) hcap2
      have h0 := buf_append_holds_of_at (.str name) [.ch 32] hat
        (by simp [text, Arg.text]; omega)
      have w0 := (buf_append_at_within [.str name, .ch 32] hat
        (by simp [text, Arg.text]; omega) hw).1
      have h1 := foldl_dots_holds vals.reverse h0 hfit2
      have w1 := foldl_dots_within vals.reverse h0 hfit2 w0
      unfold decodeShad0wClient
      simp only [if_neg hc', hv, hn]
      split
      · apply within_store _ _ _ _ _ w1
        have := h1.1.buf_eq
        have := h1.1.room
        omega
      · exact w1

/-- The BitComet decoder either declines whatever the buffer, or leaves one text of at most
30 bytes in every buffer of at least 31 bytes, storing nothing outside it. -/
theorem decodeBitCometClient_fits (pid : List Nat) (hb : ∀ i, at_ pid i < 256) :
    (∀ (m : Mem) (buflen : Nat), decodeBitCometClient m 0 buflen pid = (false, m)) ∨
    ∃ s : List Nat, s.length ≤ 30 ∧
      ∀ (m : Mem) (buflen : Nat), 31 ≤ buflen → buflen < SIZE_MOD →
        (decodeBitCometClient m 0 buflen pid).1 = true ∧
        Str (decodeBitCometClient m 0 buflen pid).2 s ∧
        (m.within buflen = true →
          (decodeBitCometClient m 0 buflen pid).2.within buflen = true) := by
  have e4 : at_ pid 4 % 256 = at_ pid 4 := Nat.mod_eq_of_lt (hb 4)
  have e5 : at_ pid 5 % 256 = at_ pid 5 := Nat.mod_eq_of_lt (hb 5)
  have i4 := (itoa_small ⟨at_ pid 4, hb 4⟩).2.2.1
  have f5 := (fmt_02d_small ⟨at_ pid 5, hb 5⟩).2.2
  simp only at i4 f5
  have key : ∀ mod : List Nat, mod.length ≤ 14 →
      ∃ s : List Nat, s.length ≤ 30 ∧
        ∀ (m : Mem) (buflen : Nat), 31 ≤ buflen → buflen < SIZE_MOD →
          Str (format_to_n_nul (buf_append ⟨m, 0, buflen⟩
            [.str (if sub_view pid 6 4 = sv "LORD" then sv "BitLord" else sv "BitComet"),
              .ch 32, .str mod, .num (Int.ofNat (at_ pid 4 % 256)), .ch 46])
            (fmt_02d (Int.ofNat (at_ pid 5 % 256)))) s ∧
          (m.within buflen = true → (format_to_n_nul (buf_append ⟨m, 0, buflen⟩
            [.str (if sub_view pid 6 4 = sv "LORD" then sv "BitLord" else sv "BitComet"),
              .ch 32, .str mod, .num (Int.ofNat (at_ pid 4 % 256)), .ch 46])
            (fmt_02d (Int.ofNat (at_ pid 5 % 256)))).within buflen = true) := by
    intro mod hmod
    have hname : (if sub_view pid 6 4 = sv "LORD" then sv "BitLord" else sv "BitComet").length
        ≤ 8 := by
      split <;> decide
    have hsum : (text [.str (if sub_view pid 6 4 = sv "LORD" then sv "BitLord"
          else sv "BitComet"), .ch 32, .str mod, .num (Int.ofNat (at_ pid 4 % 256)),
          .ch 46]).length + (fmt_02d (Int.ofNat (at_ pid 5 % 256))).length ≤ 30 := by
      rw [e4, e5]
      simp only [text, Arg.text, List.length_append, List.length_singleton, List.length_nil,
        Int.ofNat_eq_coe]
      omega
    exact ⟨_, by simpa using hsum, fun m buflen hcap hcap2 =>
      buf_append_fmt_result _ _ m buflen (by omega) hcap2⟩
  by_cases h1 : pid.take (min pid.length 4) = sv "exbc"
  · right
    obtain ⟨s, hs, H⟩ := key (sv "") (by decide)
    refine ⟨s, hs, fun m buflen hcap hcap2 => ?_⟩
    unfold decodeBitCometClient
    simp only [if_pos h1]
    exact ⟨trivial, H m buflen hcap hcap2⟩
  by_cases h2 : pid.take (min pid.length 4) = sv "FUTB"
  · right
    obtain ⟨s, hs, H⟩ := key (sv "(Solidox Mod) ") (by decide)
    refine ⟨s, hs, fun m buflen hcap hcap2 => ?_⟩
    unfold decodeBitCometClient
    simp only [if_neg h1, if_pos h2]
    exact ⟨trivial, H m buflen hcap hcap2⟩
  by_cases h3 : pid.take (min pid.length 4) = sv "xUTB"
  · right
    obtain ⟨s, hs, H⟩ := key (sv "(Mod 2) ") (by decide)
    refine ⟨s, hs, fun m buflen hcap hcap2 => ?_⟩
    unfold decodeBitCometClient
    simp only [if_neg h1, if_neg h2, if_pos h3]
    exact ⟨trivial, H m buflen hcap hcap2⟩
  left
  intro m buflen
  unfold decodeBitCometClient
  simp only [if_neg h1, if_neg h2, if_neg h3]

/-! ## Every label fits in 46 bytes -/

theorem Clients_extra : ∀ i : Fin 129,
    (elem Clients i.val).name.length + extra (elem Clients i.val).formatter ≤ 46 := by
  decide

theorem registry_entry_fits (i : Nat) :
    (elem Clients i).name.length + extra (elem Clients i).formatter ≤ 46 := by
  by_cases h : i < 129
  · exact Clients_extra ⟨i, h⟩
  · rw [elem_beyond i (by omega)]
    decide

theorem bitspirit_text_length (cs : Bool) (b : Nat) (hb : b < 256) :
    (sv "BitSpirit " ++ fmt_d (if b = 0 then 1 else char_to_int cs b)).length ≤ 14 := by
  have h := (char_renderings_of (if b = 0 then 1 else char_to_int cs b) (by
    have := char_to_int_bounds cs b hb
    split <;> omega)).2
  have : (sv "BitSpirit ").length = 10 := by decide
  rw [List.length_append]
  omega

/-- Whatever the identifier, `tr_clientForId` leaves one and the same text of at most 46
bytes, closed by a NUL, in every buffer of 47 bytes or more, and stores nothing outside the
buffer. -/
theorem tr_clientForId_fits (cs : Bool) (pid : List Nat) (hpid : is_peer_id pid) :
    ∃ s : List Nat, s.length ≤ 46 ∧
      ∀ (m : Mem) (buflen : Nat), 47 ≤ buflen → buflen < SIZE_MOD →
        Str (tr_clientForId cs m buflen pid) s ∧
        (m.within buflen = true → (tr_clientForId cs m buflen pid).within buflen = true) := by
  have hb := at_lt_256 pid hpid
  have hlen : 9 ≤ pid.length := by rw [hpid.1]; omega
  rcases decodeShad0wClient_fits pid hlen with hS | ⟨s, hs, H⟩
  swap
  · refine ⟨s, by omega, fun m buflen hcap hcap2 => ?_⟩
    obtain ⟨h1, h2, h3⟩ := H (m.store 0 0) buflen (by omega) hcap2
    have e : tr_clientForId cs m buflen pid =
        (decodeShad0wClient (m.store 0 0) 0 buflen pid).2 := by
      unfold tr_clientForId
      simp only [h1, if_true]
    rw [e]
    exact ⟨h2, fun hw => h3 (within_store _ _ _ _ (by omega) hw)⟩
  rcases decodeBitCometClient_fits pid hb with hB | ⟨s, hs, H⟩
  swap
  · refine ⟨s, by omega, fun m buflen hcap hcap2 => ?_⟩
    obtain ⟨h1, h2, h3⟩ := H (m.store 0 0) buflen (by omega) hcap2
    have e : tr_clientForId cs m buflen pid =
        (decodeBitCometClient (m.store 0 0) 0 buflen pid).2 := by
      unfold tr_clientForId
      simp only [hS, h1, Bool.false_eq_true, if_false, if_true]
    rw [e]
    exact ⟨h2, fun hw => h3 (within_store _ _ _ _ (by omega) hw)⟩
  by_cases hz : at_ pid 0 = 0 ∧ at_ pid 2 = 66 ∧ at_ pid 3 = 83
  · have ht := bitspirit_text_length cs (at_ pid 1) (hb 1)
    refine ⟨_, Nat.le_trans ht (by decide), fun m buflen hcap hcap2 => ?_⟩
    have e : tr_clientForId cs m buflen pid = format_to_n_nul ⟨m.store 0 0, 0, buflen⟩
        (sv "BitSpirit " ++
          fmt_d (if at_ pid 1 = 0 then 1 else char_to_int cs (at_ pid 1))) := by
      unfold tr_clientForId
      simp only [hS, hB, if_pos hz, Bool.false_eq_true, if_false]
    rw [e]
    have hat := At_start (m.store 0 0) buflen (by omega) hcap2
    have h2 := format_to_n_nul_str
      (sv "BitSpirit " ++ fmt_d (if at_ pid 1 = 0 then 1 else char_to_int cs (at_ pid 1)))
      hat (by simp only [List.length_nil]; omega)
    rw [List.nil_append] at h2
    exact ⟨h2, fun hw => format_to_n_nul_within _ hat (by simp only [List.length_nil]; omega)
      (within_store _ _ _ _ (by omega) hw)⟩
  cases hl : lookup Clients pid with
  | some i =>
    obtain ⟨s, hs, H⟩ :=
      format_func_call_fits cs (elem Clients i).formatter (elem Clients i).name pid hb
    have hi := registry_entry_fits i
    refine ⟨s, by omega, fun m buflen hcap hcap2 => ?_⟩
    rw [tr_clientForId_registry cs m buflen pid i (hS _ _) (hB _ _) hz hl]
    obtain ⟨h2, h3⟩ := H (m.store 0 0) buflen (by omega) hcap2
    exact ⟨h2, fun hw => h3 (within_store _ _ _ _ (by omega) hw)⟩
  | none =>
    have hlen8 : (pid.take 8).length = 8 := by simp [hpid.1]
    have hloop : escape_loop ((List.range 8).map (at_ pid)) [] = escaped (pid.take 8) := by
      rw [first8_eq_take pid hlen]
      rw [escape_loop_eq _ [] (by rw [hlen8]; simp)
        (fun b hbm => hpid.2 b (List.mem_of_mem_take hbm))]
      simp
    have e3 := (escaped_props (pid.take 8)
      (fun b hbm => hpid.2 b (List.mem_of_mem_take hbm))).2.2
    rw [hlen8] at e3
    refine ⟨text [.str (escaped (pid.take 8))], by simp [text, Arg.text]; omega,
      fun m buflen hcap hcap2 => ?_⟩
    have hemp : tr_str_is_empty (m.store 0 0) 0 = true := by
      simp [tr_str_is_empty, load_store]
    have e : tr_clientForId cs m buflen pid =
        (buf_append ⟨m.store 0 0, 0, buflen⟩ [.str (escaped (pid.take 8))]).mem := by
      unfold tr_clientForId
      simp only [hS, hB, hl, hemp, if_neg hz, hloop, Bool.false_eq_true, if_false, if_true]
    rw [e]
    obtain ⟨h2, h3⟩ := buf_append_result (.str (escaped (pid.take 8))) [] (m.store 0 0) buflen
      (by simp [text, Arg.text]; omega) hcap2
    exact ⟨h2, fun hw => h3 (within_store _ _ _ _ (by omega) hw)⟩

theorem longest_label_str (cs : Bool) (m : Mem) (buflen : Nat)
    (hcap : 47 ≤ buflen) (hcap2 : buflen < SIZE_MOD) :
    Str (tr_clientForId cs m buflen (sv "-BPzzzz-000000000000"))
      (sv "BitTorrent Pro (Azureus + Spyware) 35.35.35.35") := by
  have hl : lookup Clients (sv "-BPzzzz-000000000000") = some 19 := by decide
  have he : elem Clients 19 =
      ⟨sv "-BP", sv "BitTorrent Pro (Azureus + Spyware)", format_func.four_digit⟩ := by decide
  have hc : ∀ k, 3 ≤ k → k < 7 → charint (at_ (sv "-BPzzzz-000000000000") k) = sv "35" := by
    decide
  rw [tr_clientForId_dash cs m buflen _ 19 (by decide) (by decide) hl, he]
  simp only [format_func.call, four_digit_formatter, hc 3 (by decide) (by decide),
    hc 4 (by decide) (by decide), hc 5 (by decide) (by decide), hc 6 (by decide) (by decide)]
  have ht : text [.str (sv "BitTorrent Pro (Azureus + Spyware)"), .ch 32, .str (sv "35"),
      .ch 46, .str (sv "35"), .ch 46, .str (sv "35"), .ch 46, .str (sv "35")] =
      sv "BitTorrent Pro (Azureus + Spyware) 35.35.35.35" := by decide
  have h := (buf_append_result (.str (sv "BitTorrent Pro (Azureus + Spyware)"))
    [.ch 32, .str (sv "35"), .ch 46, .str (sv "35"), .ch 46, .str (sv "35"), .ch 46,
      .str (sv "35")] (m.store 0 0) buflen (by rw [ht]; exact Nat.lt_of_lt_of_le (by decide) hcap)
      hcap2).1
  rw [ht] at h
  exact h

/-- C20: for every 20-byte identifier there is one text of at most 46 bytes that
`tr_clientForId` leaves, NUL-terminated, in every buffer of 47 bytes or more: nothing is cut,
the label read back is that text up to its first NUL, and if the stores made before the call
were inside the buffer then so is every store of the call.  The bound is reached: the
identifier `-BPzzzz-000000000000` is labelled
`BitTorrent Pro (Azureus + Spyware) 35.35.35.35`, which has 46 bytes. -/
theorem label_fits_in_46_bytes (cs : Bool) (pid : List Nat) (hpid : is_peer_id pid) :
    (∃ s : List Nat, s.length ≤ 46 ∧
      ∀ (m : Mem) (buflen : Nat), 47 ≤ buflen → buflen < SIZE_MOD →
        Str (tr_clientForId cs m buflen pid) s ∧
        label (tr_clientForId cs m buflen pid) = some (c_string s) ∧
        (m.within buflen = true → (tr_clientForId cs m buflen pid).within buflen = true)) ∧
    (∀ (m : Mem) (buflen : Nat), 47 ≤ buflen → buflen < SIZE_MOD →
      label (tr_clientForId cs m buflen (sv "-BPzzzz-000000000000")) =
        some (sv "BitTorrent Pro (Azureus + Spyware) 35.35.35.35")) ∧
    (sv "BitTorrent Pro (Azureus + Spyware) 35.35.35.35").length = 46 := by
  refine ⟨?_, fun m buflen hcap hcap2 => ?_, by decide⟩
  · obtain ⟨s, hs, H⟩ := tr_clientForId_fits cs pid hpid
    refine ⟨s, hs, fun m buflen hcap hcap2 => ?_⟩
    obtain ⟨h1, h2⟩ := H m buflen hcap hcap2
    exact ⟨h1, label_of_Str_cut _ _ h1 (by omega), h2⟩
  · exact label_of_Str _ _ (longest_label_str cs m buflen hcap hcap2) (by decide) (by decide)

/-- Witness for C20: the identifier `-UT355W-` followed by twelve bytes 0, in a fresh buffer
of 47 bytes. -/
theorem label_fits_in_46_bytes_witness :
    is_peer_id (sv "-UT355W-" ++ List.replicate 12 0) ∧
    ∃ s : List Nat, s.length ≤ 46 ∧
      Str (tr_clientForId true Mem.fresh 47 (sv "-UT355W-" ++ List.replicate 12 0)) s ∧
      (tr_clientForId true Mem.fresh 47 (sv "-UT355W-" ++ List.replicate 12 0)).within 47
        = true :=
  ⟨by decide,
    let ⟨s, hs, H⟩ := (label_fits_in_46_bytes true (sv "-UT355W-" ++ List.replicate 12 0)
      (by decide)).1
    ⟨s, hs, (H Mem.fresh 47 (by decide) (by decide)).1,
      (H Mem.fresh 47 (by decide) (by decide)).2.2 (by decide)⟩⟩

/-! ## Which record the lookup can select -/

theorem sv_lt_extend (p q : List Nat) : ∀ key : List Nat,
    sv_lt p (key.take (min key.length p.length)) = true →
    sv_lt (p ++ q) (key.take (min key.length (p ++ q).length)) = true := by
  induction p with
  | nil => intro key h; simp [sv_lt] at h
  | cons a as ih =>
    intro key h
    cases key with
    | nil => simp [sv_lt] at h
    | cons b bs =>
      simp only [List.length_cons, List.cons_append, Nat.add_min_add_right, List.take_succ_cons,
        sv_lt] at h ⊢
      by_cases h1 : a < b
      · simp only [if_pos h1]
      · rw [if_neg h1] at h ⊢
        by_cases h2 : b < a
        · rw [if_pos h2] at h
          exact absurd h (by decide)
        · rw [if_neg h2] at h ⊢
          exact ih bs h

/-- Where `lower_bound` stops: inside the range, right after a record that compares below the
key unless at the start of the range, and on a record that does not compare below the key
unless at the end of the range. -/
theorem lower_bound_stop (table : List Client) (key : List Nat) (fuel : Nat) :
    ∀ (first len : Nat), len ≤ fuel →
      first ≤ lower_bound table key fuel first len ∧
      lower_bound table key fuel first len ≤ first + len ∧
      (lower_bound table key fuel first len = first ∨
        Compare_client_key (elem table (lower_bound table key fuel first len - 1)) key = true) ∧
      (lower_bound table key fuel first len < first + len →
        Compare_client_key (elem table (lower_bound table key fuel first len)) key = false) := by
  induction fuel with
  | zero =>
    intro first len hle
    have : len = 0 := by omega
    subst this
    simp [lower_bound]
  | succ f ih =>
    intro first len hle
    unfold lower_bound
    by_cases hpos : 0 < len
    · simp only [if_pos hpos]
      by_cases hc : Compare_client_key (elem table (first + len / 2)) key = true
      · simp only [hc, if_true]
        obtain ⟨h1, h2, h3, h4⟩ := ih (first + len / 2 + 1) (len - len / 2 - 1) (by omega)
        refine ⟨by omega, by omega, ?_, fun hlt => h4 (by omega)⟩
        rcases h3 with h3 | h3
        · right
          rw [h3]
          simpa using hc
        · exact Or.inr h3
      · simp only [hc, Bool.false_eq_true, if_false]
        obtain ⟨h1, h2, h3, h4⟩ := ih first (len / 2) (by omega)
        refine ⟨h1, by omega, h3, fun _ => ?_⟩
        by_cases he : lower_bound table key f first (len / 2) < first + len / 2
        · exact h4 he
        · have : lower_bound table key f first (len / 2) = first + len / 2 := by omega
          rw [this]
          simpa using hc
    · rw [if_neg hpos]
      refine ⟨Nat.le_refl _, by omega, Or.inl rfl, fun h => ?_⟩
      omega

/-- Where `equal_range` starts a non-empty range: right after a record that compares below
the key unless at the start, and on a record that does not compare below the key. -/
theorem equal_range_loop_first (table : List Client) (key : List Nat) (fuel : Nat) :
    ∀ (first len : Nat), len ≤ fuel →
      (equal_range_loop table key fuel first len).1 ≠
        (equal_range_loop table key fuel first len).2 →
      ((equal_range_loop table key fuel first len).1 = first ∨
        Compare_client_key (elem table ((equal_range_loop table key fuel first len).1 - 1)) key
          = true) ∧
      Compare_client_key (elem table (equal_range_loop table key fuel first len).1) key
        = false := by
  induction fuel with
  | zero =>
    intro first len _ hne
    simp [equal_range_loop] at hne
  | succ f ih =>
    intro first len hle
    unfold equal_range_loop
    by_cases hpos : 0 < len
    · simp only [if_pos hpos]
      by_cases hc : Compare_client_key (elem table (first + len / 2)) key = true
      · simp only [hc, if_true]
        intro hne
        obtain ⟨h1, h2⟩ := ih (first + len / 2 + 1) (len - len / 2 - 1) (by omega) hne
        refine ⟨?_, h2⟩
        rcases h1 with h1 | h1
        · right
          rw [h1]
          simpa using hc
        · exact Or.inr h1
      · simp only [hc, Bool.false_eq_true, if_false]
        by_cases hk : Compare_key_client key (elem table (first + len / 2)) = true
        · simp only [hk, if_true]
          intro hne
          exact ih first (len / 2) (by omega) hne
        · simp only [hk, Bool.false_eq_true, if_false]
          intro _
          obtain ⟨h1, h2, h3, h4⟩ := lower_bound_stop table key (len / 2) first (len / 2)
            (Nat.le_refl _)
          refine ⟨h3, ?_⟩
          by_cases he : lower_bound table key (len / 2) first (len / 2) < first + len / 2
          · exact h4 he
          · have : lower_bound table key (len / 2) first (len / 2) = first + len / 2 := by
              omega
            rw [this]
            simpa using hc
    · simp only [if_neg hpos]
      intro hne
      exact absurd rfl hne

/-- The record the lookup selects does not compare below the key, and the record before it,
if any, does. -/
theorem lookup_selected (table : List Client) (key : List Nat) (i : Nat)
    (h : lookup table key = some i) :
    (i = 0 ∨ Compare_client_key (elem table (i - 1)) key = true) ∧
    Compare_client_key (elem table i) key = false := by
  unfold lookup at h
  simp only at h
  split at h
  · rename_i hc
    simp only [Option.some.injEq] at h
    have := equal_range_loop_first table key table.length 0 table.length (Nat.le_refl _)
    unfold equal_range at hc h
    rw [h] at this hc
    exact this hc.2
  · simp at h

/-- A record whose prefix extends the prefix of the record before it is never selected. -/
theorem lookup_skips_extension (table : List Client) (key : List Nat) (i : Nat) (q : List Nat)
    (hi : 0 < i)
    (h : (elem table i).begins_with = (elem table (i - 1)).begins_with ++ q) :
    lookup table key ≠ some i := by
  intro hl
  obtain ⟨h1, h2⟩ := lookup_selected table key i hl
  rcases h1 with h1 | h1
  · omega
  · unfold Compare_client_key at h1 h2
    simp only at h1 h2
    rw [h] at h2
    rw [sv_lt_extend _ q key h1] at h2
    exact absurd h2 (by decide)

theorem live_records (cs : Bool) : ∀ i : Fin 129,
    i.val = 90 ∨ i.val = 114 ∨ i.val = 119 ∨
      (is_peer_id (padded (elem Clients i.val).begins_with) ∧
        lookup Clients (padded (elem Clients i.val).begins_with) = some i.val ∧
        tr_clientForId cs Mem.fresh 64 (padded (elem Clients i.val).begins_with) =
          (elem Clients i.val).formatter.call cs (Mem.fresh.store 0 0) 0 64
            (elem Clients i.val).name (padded (elem Clients i.val).begins_with)) := by
  cases cs <;> decide

/-- C21, where it fails: the lookup never selects the records `-WT-` (index 90), `Mbrst`
(114) and `QVOD` (119), whatever the key, because each extends the prefix of the record
before it and `eq.first` stops no later than that one.  The identifier
`QVOD0054xxxxxxxxxxxx` is given to the record `Q` and labelled `Queen Bee`, where the `QVOD`
record would have given `QVOD 0.0.5.4`.  Each of the other 126 records is selected, and its
formatter run, for its own prefix filled up with `0`. -/
theorem three_records_never_selected :
    (∀ key : List Nat, lookup Clients key ≠ some 90 ∧ lookup Clients key ≠ some 114 ∧
      lookup Clients key ≠ some 119) ∧
    ((elem Clients 90).begins_with = sv "-WT-" ∧ (elem Clients 114).begins_with = sv "Mbrst" ∧
      (elem Clients 119).begins_with = sv "QVOD") ∧
    (is_peer_id (sv "QVOD0054xxxxxxxxxxxx") ∧
      lookup Clients (sv "QVOD0054xxxxxxxxxxxx") = some 118 ∧
      (∀ cs, label (tr_clientForId cs Mem.fresh 64 (sv "QVOD0054xxxxxxxxxxxx")) =
        some (sv "Queen Bee")) ∧
      (∀ cs, label ((elem Clients 119).formatter.call cs (Mem.fresh.store 0 0) 0 64
        (elem Clients 119).name (sv "QVOD0054xxxxxxxxxxxx")) = some (sv "QVOD 0.0.5.4"))) ∧
    (∀ (cs : Bool) (i : Fin 129), i.val = 90 ∨ i.val = 114 ∨ i.val = 119 ∨
      (is_peer_id (padded (elem Clients i.val).begins_with) ∧
        lookup Clients (padded (elem Clients i.val).begins_with) = some i.val ∧
        tr_clientForId cs Mem.fresh 64 (padded (elem Clients i.val).begins_with) =
          (elem Clients i.val).formatter.call cs (Mem.fresh.store 0 0) 0 64
            (elem Clients i.val).name (padded (elem Clients i.val).begins_with))) := by
  refine ⟨fun key => ⟨?_, ?_, ?_⟩, by decide, by decide, live_records⟩
  · exact lookup_skips_extension Clients key 90 (sv "-") (by decide) (by decide)
  · exact lookup_skips_extension Clients key 114 (sv "brst") (by decide) (by decide)
  · exact lookup_skips_extension Clients key 119 (sv "VOD") (by decide) (by decide)

/-! ## The view the Shadow decoder takes `front()` of -/

theorem shad0w_vals_view (r : List Nat) : ∀ (vals out : List Int) (view : List Nat),
    shad0w_vals r vals = some (out, view) → view.length = min r.length 1 := by
  induction r with
  | nil =>
    intro vals out view h
    simp only [shad0w_vals, Option.some.injEq, Prod.mk.injEq] at h
    obtain ⟨_, rfl⟩ := h
    rfl
  | cons b rest ih =>
    intro vals out view h
    cases rest with
    | nil =>
      simp only [shad0w_vals, Option.some.injEq, Prod.mk.injEq] at h
      obtain ⟨_, rfl⟩ := h
      rfl
    | cons c rest' =>
      unfold shad0w_vals at h
      cases hg : get_shad0w_int b with
      | none => simp [hg] at h
      | some n =>
        simp only [hg] at h
        have := ih _ _ _ h
        simp only [List.length_cons] at this ⊢
        omega

theorem strip_dashes_eq_nil (r : List Nat) : strip_dashes r = [] ↔ ∀ b ∈ r, b = 45 := by
  induction r with
  | nil => simp [strip_dashes]
  | cons b rest ih =>
    unfold strip_dashes
    by_cases hb : b = 45
    · rw [if_pos hb, ih]
      simp [hb]
    · rw [if_neg hb]
      simp [hb]

/-- The view is empty at `front()` exactly when the first nine bytes are all `-`; otherwise,
when `front()` is reached, one byte is left. -/
theorem shad0w_front_size_eq (pid : List Nat) (n : Nat) (hlen : 9 ≤ pid.length)
    (h : shad0w_front_size pid = some n) :
    (n = 0 ↔ pid.take 9 = List.replicate 9 45) ∧ n ≤ 1 := by
  unfold shad0w_front_size at h
  simp only at h
  split at h
  · simp at h
  · cases hv : shad0w_vals (strip_dashes (List.take 9 pid).reverse) [] with
    | none => simp [hv] at h
    | some r =>
      simp only [hv, Option.some.injEq] at h
      have hview := shad0w_vals_view _ _ r.1 r.2 hv
      rw [h] at hview
      refine ⟨?_, by omega⟩
      have hz : n = 0 ↔ strip_dashes (List.take 9 pid).reverse = [] := by
        rw [← List.length_eq_zero]
        omega
      rw [hz, strip_dashes_eq_nil]
      constructor
      · intro hall
        rw [List.eq_replicate_iff]
        exact ⟨by simp; omega, fun b hb => hall b (List.mem_reverse.mpr hb)⟩
      · intro he b hb
        rw [he] at hb
        simp only [List.reverse_replicate] at hb
        exact (List.mem_replicate.mp hb).2

/-- C23, where it fails: for every identifier whose first nine bytes are `-` the stripping
loop removes all nine, the loop over the values has nothing to do, and `peer_id.front()` is
evaluated on an empty view; the byte read there is the `-` at `data()`, no `case` takes it,
and the decoder declines.  That is the only way to reach `front()` with an empty view: for
any other identifier that reaches it, exactly one byte is left. -/
theorem shad0w_front_on_empty_view :
    (∀ rest : List Nat, shad0w_front_size (List.replicate 9 45 ++ rest) = some 0) ∧
    (∀ (m : Mem) (buf buflen : Nat) (rest : List Nat),
      decodeShad0wClient m buf buflen (List.replicate 9 45 ++ rest) = (false, m)) ∧
    (∀ (pid : List Nat) (n : Nat), 9 ≤ pid.length → shad0w_front_size pid = some n →
      (n = 0 ↔ pid.take 9 = List.replicate 9 45) ∧ n ≤ 1) ∧
    shad0w_front_size (sv "S58B-----xxxxxxxxxxx") = some 1 := by
  refine ⟨fun rest => ?_, fun m buf buflen rest => ?_, shad0w_front_size_eq, by decide⟩
  · rfl
  · exact decodeShad0wClient_no_name _ _ _ _ rfl

/-! ## The Shadow decoder with no version bytes -/

theorem shad0w_vals_no_version (pid : List Nat) (hlen : 9 ≤ pid.length)
    (h0 : at_ pid 0 ≠ 45) (hd : ∀ i, 1 ≤ i → i ≤ 8 → at_ pid i = 45) :
    shad0w_vals (strip_dashes (List.take 9 pid).reverse) [] = some ([], [at_ pid 0]) := by
  obtain ⟨b0, b1, b2, b3, b4, b5, b6, b7, b8, rest, rfl⟩ := peer_id_head9 pid hlen
  have e1 := hd 1 (by omega) (by omega)
  have e2 := hd 2 (by omega) (by omega)
  have e3 := hd 3 (by omega) (by omega)
  have e4 := hd 4 (by omega) (by omega)
  have e5 := hd 5 (by omega) (by omega)
  have e6 := hd 6 (by omega) (by omega)
  have e7 := hd 7 (by omega) (by omega)
  have e8 := hd 8 (by omega) (by omega)
  simp only [at_, List.getD_cons_zero, List.getD_cons_succ] at h0 e1 e2 e3 e4 e5 e6 e7 e8 ⊢
  subst e1 e2 e3 e4 e5 e6 e7 e8
  simp [strip_dashes, h0, shad0w_vals]

/-! ## The Xtorrent rule -/

theorem lookup_xtorrent (b3 b4 b5 b6 b7 b8 b9 b10 b11 b12 b13 b14 b15 b16 b17 b18 b19 : Nat) :
    lookup Clients (sv "-XC" ++
      [b3, b4, b5, b6, b7, b8, b9, b10, b11, b12, b13, b14, b15, b16, b17, b18, b19]) = some 93 ∧
    lookup Clients (sv "-XX" ++
      [b3, b4, b5, b6, b7, b8, b9, b10, b11, b12, b13, b14, b15, b16, b17, b18, b19]) = some 98 :=
  ⟨rfl, rfl⟩

theorem lookup_xtorrent_head (pid : List Nat) (hlen : pid.length = 20)
    (hpre : sv "-XC" <+: pid ∨ sv "-XX" <+: pid) :
    ∃ i, lookup Clients pid = some i ∧
      elem Clients i = ⟨pid.take 3, sv "Xtorrent", format_func.xtorrent⟩ := by
  rcases hpre with ⟨t, rfl⟩ | ⟨t, rfl⟩
  · have ht : t.length = 17 := by
      rw [List.length_append] at hlen
      have : (sv "-XC").length = 3 := by decide
      omega
    match t, ht with
    | [b3, b4, b5, b6, b7, b8, b9, b10, b11, b12, b13, b14, b15, b16, b17, b18, b19], _ =>
      exact ⟨93, (lookup_xtorrent b3 b4 b5 b6 b7 b8 b9 b10 b11 b12 b13 b14 b15 b16 b17 b18
        b19).1, rfl⟩
  · have ht : t.length = 17 := by
      rw [List.length_append] at hlen
      have : (sv "-XX").length = 3 := by decide
      omega
    match t, ht with
    | [b3, b4, b5, b6, b7, b8, b9, b10, b11, b12, b13, b14, b15, b16, b17, b18, b19], _ =>
      exact ⟨98, (lookup_xtorrent b3 b4 b5 b6 b7 b8 b9 b10 b11 b12 b13 b14 b15 b16 b17 b18
        b19).2, rfl⟩

theorem charint_no_paren (ch : Nat) : 41 ∉ charint ch := by
  by_cases h : ch < 123
  · have : ∀ n : Fin 123, 41 ∉ charint n.val := by decide
    exact this ⟨ch, h⟩
  · rw [charint_high ch (by omega)]
    decide

theorem decimal_no_paren : ∀ n : Fin 100, 41 ∉ decimal n.val ∧ 0 ∉ decimal n.val ∧
    (decimal n.val).length ≤ 2 ∧ fmt_d (n.val : Int) = decimal n.val := by
  decide

/-- What the Xtorrent rule gives: for every identifier that begins with `-XC` or `-XX` and
has ASCII digits in bytes 5 and 6, in a buffer of at least 19 bytes, the label is
`Xtorrent `, `charint(id[3])`, `.`, `charint(id[4])`, ` (` and the number `id[5..7)`, and
nothing after it; no byte of the label is a `)`. -/
theorem xtorrent_label (cs : Bool) (m : Mem) (buflen : Nat) (pid : List Nat)
    (hpid : is_peer_id pid) (hpre : sv "-XC" <+: pid ∨ sv "-XX" <+: pid)
    (h5 : is_digit (at_ pid 5)) (h6 : is_digit (at_ pid 6))
    (hcap : 19 ≤ buflen) (hcap2 : buflen < SIZE_MOD) :
    label (tr_clientForId cs m buflen pid) =
      some (sv "Xtorrent " ++ charint (at_ pid 3) ++ [46] ++ charint (at_ pid 4) ++ sv " (" ++
        decimal (two_digits (at_ pid 5) (at_ pid 6))) ∧
    41 ∉ sv "Xtorrent " ++ charint (at_ pid 3) ++ [46] ++ charint (at_ pid 4) ++ sv " (" ++
      decimal (two_digits (at_ pid 5) (at_ pid 6)) := by
  have hlen : 9 ≤ pid.length := by rw [hpid.1]; omega
  obtain ⟨i, hl, hel⟩ := lookup_xtorrent_head pid hpid.1 hpre
  have h0 : at_ pid 0 = 45 := by
    rcases hpre with ⟨t, rfl⟩ | ⟨t, rfl⟩ <;> rfl
  obtain ⟨p41, p0, plen, pfmt⟩ :=
    decimal_no_paren ⟨two_digits (at_ pid 5) (at_ pid 6), two_digits_lt _ _ h5 h6⟩
  simp only at p41 p0 plen pfmt
  obtain ⟨c30, _, c3l⟩ := charint_props (at_ pid 3)
  obtain ⟨c40, _, c4l⟩ := charint_props (at_ pid 4)
  have lname : (sv "Xtorrent ").length = 9 := by decide
  have lpar : (sv " (").length = 2 := by decide
  have hstr : Str (tr_clientForId cs m buflen pid)
      (sv "Xtorrent " ++ charint (at_ pid 3) ++ [46] ++ charint (at_ pid 4) ++ sv " (" ++
        decimal (two_digits (at_ pid 5) (at_ pid 6))) := by
    rw [tr_clientForId_dash cs m buflen pid i hlen h0 hl, hel]
    simp only [format_func.call, xtorrent_formatter]
    rw [strint_two_digits pid 5 (by rw [hpid.1]; omega) h5 h6, pfmt]
    have hres := (buf_append_fmt_result [.str (sv "Xtorrent"), .ch 32,
      .str (charint (at_ pid 3)), .ch 46, .str (charint (at_ pid 4)), .str (sv " (")]
      (decimal (two_digits (at_ pid 5) (at_ pid 6))) (m.store 0 0) buflen
      (by
        have : (sv "Xtorrent").length = 8 := by decide
        simp only [text, Arg.text, List.length_append, List.length_singleton, List.length_nil]
        omega) hcap2).1
    have e : text [.str (sv "Xtorrent"), .ch 32, .str (charint (at_ pid 3)), .ch 46,
        .str (charint (at_ pid 4)), .str (sv " (")] =
        sv "Xtorrent " ++ charint (at_ pid 3) ++ [46] ++ charint (at_ pid 4) ++ sv " (" := by
      have : sv "Xtorrent " = sv "Xtorrent" ++ [32] := by decide
      rw [this]
      simp [text, Arg.text, List.append_assoc]
    rw [e] at hres
    exact hres
  refine ⟨label_of_Str _ _ hstr ?_ ?_, ?_⟩
  · simp only [List.mem_append, List.mem_singleton, not_or]
    exact ⟨⟨⟨⟨⟨by decide, c30⟩, by decide⟩, c40⟩, by decide⟩, p0⟩
  · simp only [List.length_append, List.length_singleton]
    omega
  · simp only [List.mem_append, List.mem_singleton, not_or]
    exact ⟨⟨⟨⟨⟨by decide, charint_no_paren _⟩, by decide⟩, charint_no_paren _⟩, by decide⟩,
      p41⟩

/-- C24, where it fails: `xtorrent_formatter` writes ` (` and the number and stops, so the
parenthesis stays open.  `-XX0025-xxxxxxxxxxxx` is labelled `Xtorrent 0.0 (25` and
`-XC1234-xxxxxxxxxxxx` is labelled `Xtorrent 1.2 (34`, whatever the signedness of `char`,
and so it is for every identifier the rule applies to: the label has no `)` at all.  The
BitRocket rule does close its parenthesis: `-BR0012-xxxxxxxxxxxx` is `BitRocket 0.0 (12)`. -/
theorem xtorrent_leaves_parenthesis_open :
    (∀ cs, label (tr_clientForId cs Mem.fresh 64 (sv "-XX0025-xxxxxxxxxxxx")) =
      some (sv "Xtorrent 0.0 (25")) ∧
    (∀ cs, label (tr_clientForId cs Mem.fresh 64 (sv "-XC1234-xxxxxxxxxxxx")) =
      some (sv "Xtorrent 1.2 (34")) ∧
    (∀ cs, label (tr_clientForId cs Mem.fresh 64 (sv "-BR0012-xxxxxxxxxxxx")) =
      some (sv "BitRocket 0.0 (12)")) ∧
    (∀ (cs : Bool) (m : Mem) (buflen : Nat) (pid : List Nat), is_peer_id pid →
      sv "-XC" <+: pid ∨ sv "-XX" <+: pid → is_digit (at_ pid 5) → is_digit (at_ pid 6) →
      19 ≤ buflen → buflen < SIZE_MOD →
      label (tr_clientForId cs m buflen pid) =
        some (sv "Xtorrent " ++ charint (at_ pid 3) ++ [46] ++ charint (at_ pid 4) ++
          sv " (" ++ decimal (two_digits (at_ pid 5) (at_ pid 6))) ∧
      41 ∉ sv "Xtorrent " ++ charint (at_ pid 3) ++ [46] ++ charint (at_ pid 4) ++ sv " (" ++
        decimal (two_digits (at_ pid 5) (at_ pid 6))) := by
  refine ⟨by decide, by decide, by decide, ?_⟩
  intro cs m buflen pid hpid hpre h5 h6 hcap hcap2
  exact xtorrent_label cs m buflen pid hpid hpre h5 h6 hcap hcap2

/-! ## The Shadow decoder in a buffer the label just fits -/

theorem decodeShad0wClient_accepts (m : Mem) (buf buflen : Nat) (pid : List Nat)
    (r : List Int × List Nat) (name : List Nat)
    (h6 : at_ pid 6 = 45) (h7 : at_ pid 7 = 45) (h8 : at_ pid 8 = 45) (hlen : 9 ≤ pid.length)
    (hv : shad0w_vals (strip_dashes (List.take 9 pid).reverse) [] = some r)
    (hn : shad0w_name (at_ pid 0) = some name) :
    (decodeShad0wClient m buf buflen pid).1 = true := by
  have hc : ¬ ((List.take 9 pid).length ≠ 9 ∨ at_ (List.take 9 pid) 6 ≠ 45 ∨
      at_ (List.take 9 pid) 7 ≠ 45 ∨ at_ (List.take 9 pid) 8 ≠ 45) := by
    simp only [at_take pid 9 6 (by omega), at_take pid 9 7 (by omega),
      at_take pid 9 8 (by omega), h6, h7, h8, List.length_take]
    simp
    omega
  unfold decodeShad0wClient
  simp only [if_neg hc, hv, hn]
  split <;> rfl

/-- With one byte of room left, `buf_append(char)` stores no character: it writes the NUL
where it stands and gives back a room of 0. -/
theorem buf_append_char_tight {c : Cursor} {cap : Nat} {s : List Nat} (x : Nat)
    (h : At c cap s) (ht : s.length + 1 = cap) :
    buf_append_char c x = ⟨c.mem.store c.buf 0, c.buf, 0⟩ := by
  have hb : c.buflen = 1 := by rw [h.len_eq]; omega
  have hs : size_sub 1 1 = 0 := size_sub_of_le 1 1 (Nat.le_refl _) (by decide)
  unfold buf_append_char
  simp [hb, hs]

/-- The store `buf[-1] = 0` after such a `buf_append(char)` lands on the last byte of the
text. -/
theorem tight_drop_str {c : Cursor} {cap : Nat} {s : List Nat} (x : Nat)
    (h : At c cap s) (ht : s.length + 1 = cap) (hne : s ≠ []) :
    0 < (buf_append_char c x).buf ∧
    Str ((buf_append_char c x).mem.store ((buf_append_char c x).buf - 1) 0) s.dropLast := by
  have hpos : 0 < s.length := List.length_pos.mpr hne
  rw [buf_append_char_tight x h ht]
  simp only
  rw [h.buf_eq]
  refine ⟨hpos, ?_, ?_⟩
  · intro i hi
    rw [List.length_dropLast] at hi
    have hi2 : i < s.length := by omega
    rw [load_store, if_neg (by omega), load_store, if_neg (by omega), h.bytes i hi2]
    simp [List.getD_eq_getElem?_getD, List.getElem?_dropLast, hi, List.getElem?_eq_getElem hi2]
  · rw [List.length_dropLast, load_store, if_pos rfl]

theorem dots_append (a b : List Int) : dots (a ++ b) = dots a ++ dots b := by
  induction a with
  | nil => simp [dots]
  | cons v rest ih => simp [dots, ih, List.append_assoc]

theorem shad0w_name_ne_nil (b : Nat) (name : List Nat) (h : shad0w_name b = some name) :
    name ≠ [] := by
  unfold shad0w_name at h
  split_ifs at h <;> simp only [Option.some.injEq] at h <;> subst h <;> decide

/-- The Shadow decoder in a buffer of exactly as many bytes as it has text to write (name,
space, and each value with its `.`): the last separator is not stored, and `buf[-1] = 0`
removes the byte before it. -/
theorem decodeShad0wClient_run_tight (m : Mem) (buflen : Nat) (pid : List Nat)
    (vals : List Int) (view name : List Nat)
    (h6 : at_ pid 6 = 45) (h7 : at_ pid 7 = 45) (h8 : at_ pid 8 = 45) (hlen : 9 ≤ pid.length)
    (hv : shad0w_vals (strip_dashes (List.take 9 pid).reverse) [] = some (vals, view))
    (hn : shad0w_name (at_ pid 0) = some name)
    (hfit : (name ++ [32] ++ dots vals.reverse).length = buflen) (hcap : buflen < SIZE_MOD) :
    Str (decodeShad0wClient m 0 buflen pid).2
      (name ++ [32] ++ dots vals.reverse).dropLast.dropLast := by
  have hc : ¬ ((List.take 9 pid).length ≠ 9 ∨ at_ (List.take 9 pid) 6 ≠ 45 ∨
      at_ (List.take 9 pid) 7 ≠ 45 ∨ at_ (List.take 9 pid) 8 ≠ 45) := by
    simp only [at_take pid 9 6 (by omega), at_take pid 9 7 (by omega),
      at_take pid 9 8 (by omega), h6, h7, h8, List.length_take]
    simp
    omega
  have hne := shad0w_name_ne_nil _ _ hn
  have hnpos : 0 < name.length := List.length_pos.mpr hne
  simp only [List.length_append, List.length_singleton] at hfit
  have hat := At_start m buflen (by omega) hcap
  unfold decodeShad0wClient
  simp only [if_neg hc, hv, hn]
  rcases List.eq_nil_or_concat vals.reverse with hnil | ⟨init, v, hcons⟩
  · rw [hnil] at hfit ⊢
    simp only [dots, List.length_nil, List.foldl_nil, List.append_nil] at hfit ⊢
    have hh : Holds (buf_append ⟨m, 0, buflen⟩ [.str name]) buflen name := by
      have := buf_append_holds_of_at (.str name) [] hat (by simp [text, Arg.text]; omega)
      simpa [text, Arg.text] using this
    have e : buf_append ⟨m, 0, buflen⟩ [.str name, .ch 32] =
        buf_append_char (buf_append ⟨m, 0, buflen⟩ [.str name]) 32 := by
      simp [buf_append, buf_append1]
    obtain ⟨h1, h2⟩ := tight_drop_str 32 hh.1 (by omega) hne
    rw [e, if_pos h1, List.dropLast_concat]
    exact h2
  · rw [List.concat_eq_append] at hcons
    rw [hcons] at hfit ⊢
    rw [dots_append] at hfit ⊢
    simp only [dots, List.length_append, List.length_singleton, List.length_nil,
      List.append_nil] at hfit ⊢
    have h0 : Holds (buf_append ⟨m, 0, buflen⟩ [.str name, .ch 32]) buflen (name ++ [32]) := by
      have := buf_append_holds_of_at (.str name) [.ch 32] hat
        (by simp [text, Arg.text]; omega)
      simpa [text, Arg.text] using this
    have h1 := foldl_dots_holds init h0 (by simp; omega)
    have h2 : Holds (buf_append (init.foldl (fun c num => buf_append c [.num num, .ch 46])
        (buf_append ⟨m, 0, buflen⟩ [.str name, .ch 32])) [.num v]) buflen
        (name ++ [32] ++ dots init ++ itoa v) := by
      have := buf_append_holds [.num v] h1 (by simp [text, Arg.text]; omega)
      simpa [text, Arg.text] using this
    have e : (init ++ [v]).foldl (fun c num => buf_append c [.num num, .ch 46])
        (buf_append ⟨m, 0, buflen⟩ [.str name, .ch 32]) =
        buf_append_char (buf_append (init.foldl
          (fun c num => buf_append c [.num num, .ch 46])
          (buf_append ⟨m, 0, buflen⟩ [.str name, .ch 32])) [.num v]) 46 := by
      simp [List.foldl_append, buf_append, buf_append1]
    obtain ⟨h3, h4⟩ := tight_drop_str 46 h2.1
      (by simp only [List.length_append, List.length_singleton]; omega) (by simp)
    have hd : (name ++ [32] ++ (dots init ++ (itoa v ++ [46]))).dropLast =
        name ++ [32] ++ dots init ++ itoa v := by
      have : name ++ [32] ++ (dots init ++ (itoa v ++ [46])) =
          (name ++ [32] ++ dots init ++ itoa v) ++ [46] := by
        simp [List.append_assoc]
      rw [this, List.dropLast_concat]
    rw [e, if_pos h3, hd]
    exact h4

/-- The Shadow label by capacity: the decoder reports a match whatever the buffer; in a buffer
of two bytes more than the label it leaves the label; in a buffer of one byte more than the
label, which the label and its NUL would fit, it leaves the label less its last byte. -/
theorem shad0w_label_by_capacity (m : Mem) (buflen : Nat) (pid : List Nat) (k : Nat)
    (name : List Nat) (hpid : is_peer_id pid)
    (h6 : at_ pid 6 = 45) (h7 : at_ pid 7 = 45) (h8 : at_ pid 8 = 45)
    (hname : (at_ pid 0, name) ∈ shad0w_names)
    (hk1 : 1 ≤ k) (hk9 : k < 9) (hk : at_ pid k ≠ 45)
    (hrest : ∀ j, k < j → j < 9 → at_ pid j = 45)
    (halpha : ∀ i, 1 ≤ i → i ≤ k → at_ pid i ∈ shad0w_alphabet) :
    (decodeShad0wClient m 0 buflen pid).1 = true ∧
    (shad0w_label name pid k).length ≤ 35 ∧
    ((shad0w_label name pid k).length + 2 ≤ buflen → buflen < SIZE_MOD →
      label (decodeShad0wClient m 0 buflen pid).2 = some (shad0w_label name pid k)) ∧
    (buflen = (shad0w_label name pid k).length + 1 →
      label (decodeShad0wClient m 0 buflen pid).2 = some (shad0w_label name pid k).dropLast) := by
  have hlen : 9 ≤ pid.length := by rw [hpid.1]; omega
  have hk5 : k ≤ 5 := by
    by_contra hcon
    have : k = 6 ∨ k = 7 ∨ k = 8 := by omega
    rcases this with rfl | rfl | rfl
    · exact hk h6
    · exact hk h7
    · exact hk h8
  obtain ⟨hn, hn0, hnlen⟩ := shad0w_name_of_mem _ _ hname
  have hv := shad0w_vals_of_k pid k hlen h6 h7 h8 hk1 hk9 hk hrest halpha
  have hidx : ∀ i, i < k → List.indexOf (at_ pid (i + 1)) shad0w_alphabet < 64 :=
    fun i hi => indexOf_alphabet_lt _ (halpha (i + 1) (by omega) (by omega))
  have hV : ∀ v ∈ (List.range k).map
      (fun i => ((List.indexOf (at_ pid (i + 1)) shad0w_alphabet : Nat) : Int)),
      0 ∉ itoa v ∧ (itoa v).length ≤ 2 := by
    intro v hvm
    simp only [List.mem_map, List.mem_range] at hvm
    obtain ⟨i, hi, rfl⟩ := hvm
    exact ⟨itoa_no_nul _ (by have := hidx i hi; omega), itoa_length_le_two _ (hidx i hi)⟩
  obtain ⟨hd0, hdlen⟩ := dots_props _ hV
  simp only [List.length_map, List.length_range] at hdlen
  have hmap : (List.range k).map
      (fun i => itoa ((List.indexOf (at_ pid (i + 1)) shad0w_alphabet : Nat) : Int)) =
      (List.range k).map (fun i => decimal (List.indexOf (at_ pid (i + 1)) shad0w_alphabet)) := by
    apply List.map_congr_left
    intro i hi
    exact itoa_eq_decimal _ (by have := hidx i (List.mem_range.mp hi); omega)
  have hshape : (name ++ [32] ++ dots ((List.range k).map
      (fun i => ((List.indexOf (at_ pid (i + 1)) shad0w_alphabet : Nat) : Int)))).dropLast =
      shad0w_label name pid k := by
    unfold shad0w_label
    rw [← hmap]
    cases hr : (List.range k).map
        (fun i => ((List.indexOf (at_ pid (i + 1)) shad0w_alphabet : Nat) : Int)) with
    | nil =>
      have := congrArg List.length hr
      simp at this
      omega
    | cons v rest =>
      rw [dropLast_dots, ← hr, List.map_map]
      rfl
  have hL : (shad0w_label name pid k).length + 1 = (name ++ [32] ++ dots ((List.range k).map
      (fun i => ((List.indexOf (at_ pid (i + 1)) shad0w_alphabet : Nat) : Int)))).length := by
    rw [← hshape, List.length_dropLast]
    simp only [List.length_append, List.length_singleton]
    omega
  have hT : (name ++ [32] ++ dots ((List.range k).map
      (fun i => ((List.indexOf (at_ pid (i + 1)) shad0w_alphabet : Nat) : Int)))).length
      ≤ 36 := by
    simp only [List.length_append, List.length_singleton]
    omega
  have hL0 : 0 ∉ shad0w_label name pid k := by
    rw [← hshape]
    intro hmem
    have := List.mem_of_mem_dropLast hmem
    simp only [List.mem_append, List.mem_singleton] at this
    rcases this with (h | h) | h
    · exact hn0 h
    · exact absurd h (by decide)
    · exact hd0 h
  refine ⟨decodeShad0wClient_accepts m 0 buflen pid _ name h6 h7 h8 hlen hv hn, by omega,
    fun hcap hcap2 => ?_, fun hcap => ?_⟩
  · have hrun := decodeShad0wClient_run m buflen pid _ _ name h6 h7 h8 hlen hv hn
      (by simp only [List.reverse_reverse]; omega) hcap2
    simp only [List.reverse_reverse] at hrun
    rw [hshape] at hrun
    exact label_of_Str _ _ hrun.2 hL0 (by omega)
  · have hrun := decodeShad0wClient_run_tight m buflen pid _ _ name h6 h7 h8 hlen hv hn
      (by simp only [List.reverse_reverse]; omega)
      (by
        have : (36 : Nat) < SIZE_MOD := by decide
        omega)
    simp only [List.reverse_reverse] at hrun
    rw [hshape] at hrun
    apply label_of_Str _ _ hrun
    · exact fun hmem => hL0 (List.mem_of_mem_dropLast hmem)
    · rw [List.length_dropLast]
      omega

/-- C4, where it fails: `S58B-----xxxxxxxxxxx` is matched and labelled `Shad0w 5.8.11` in a
buffer of 15 bytes, but in a buffer of 14 bytes, which holds the 13 bytes of the label and
the NUL, the label is `Shad0w 5.8.1`: the `.` after the last value finds no room, and the
store `buf[-1] = 0` meant for it removes the last digit.  So it is for every identifier of
the Shadow form: the match is reported whatever the buffer, the label is as the claim says
when the buffer has two bytes more than the label, and loses its last byte when the buffer
has one byte more.  A registry rule keeps its label in such a buffer:
`-AZ2060-xxxxxxxxxxxx` in 23 bytes is `Azureus / Vuze 2.0.6.0` (22 bytes). -/
theorem shad0w_label_cut_in_exact_buffer :
    (is_peer_id (sv "S58B-----xxxxxxxxxxx") ∧
      shad0w_label (sv "Shad0w") (sv "S58B-----xxxxxxxxxxx") 3 = sv "Shad0w 5.8.11" ∧
      (sv "Shad0w 5.8.11").length = 13 ∧
      label (decodeShad0wClient Mem.fresh 0 15 (sv "S58B-----xxxxxxxxxxx")).2 =
        some (sv "Shad0w 5.8.11") ∧
      label (decodeShad0wClient Mem.fresh 0 14 (sv "S58B-----xxxxxxxxxxx")).2 =
        some (sv "Shad0w 5.8.1") ∧
      (∀ cs, label (tr_clientForId cs Mem.fresh 14 (sv "S58B-----xxxxxxxxxxx")) =
        some (sv "Shad0w 5.8.1"))) ∧
    (∀ cs, label (tr_clientForId cs Mem.fresh 23 (sv "-AZ2060-xxxxxxxxxxxx")) =
      some (sv "Azureus / Vuze 2.0.6.0") ∧ (sv "Azureus / Vuze 2.0.6.0").length = 22) ∧
    (∀ (m : Mem) (buflen : Nat) (pid : List Nat) (k : Nat) (name : List Nat),
      is_peer_id pid → at_ pid 6 = 45 → at_ pid 7 = 45 → at_ pid 8 = 45 →
      (at_ pid 0, name) ∈ shad0w_names → 1 ≤ k → k < 9 → at_ pid k ≠ 45 →
      (∀ j, k < j → j < 9 → at_ pid j = 45) →
      (∀ i, 1 ≤ i → i ≤ k → at_ pid i ∈ shad0w_alphabet) →
      (decodeShad0wClient m 0 buflen pid).1 = true ∧
      (shad0w_label name pid k).length ≤ 35 ∧
      ((shad0w_label name pid k).length + 2 ≤ buflen → buflen < SIZE_MOD →
        label (decodeShad0wClient m 0 buflen pid).2 = some (shad0w_label name pid k)) ∧
      (buflen = (shad0w_label name pid k).length + 1 →
        label (decodeShad0wClient m 0 buflen pid).2 =
          some (shad0w_label name pid k).dropLast)) := by
  refine ⟨by decide, by decide, ?_⟩
  intro m buflen pid k name hpid h6 h7 h8 hname hk1 hk9 hk hrest halpha
  exact shad0w_label_by_capacity m buflen pid k name hpid h6 h7 h8 hname hk1 hk9 hk hrest halpha

/-- The Shadow decoder on an identifier with no version bytes, by capacity: the match is
reported whatever the buffer; with two bytes more than the name the label is the name, the
NUL stored on the space; with one byte more than the name the label is the name less its
last byte. -/
theorem shad0w_name_only_by_capacity (cs : Bool) (m : Mem) (buflen : Nat)
    (pid name : List Nat) (hpid : is_peer_id pid) (hname : (at_ pid 0, name) ∈ shad0w_names)
    (hd : ∀ i, 1 ≤ i → i ≤ 8 → at_ pid i = 45) :
    (decodeShad0wClient m 0 buflen pid).1 = true ∧
    (name.length + 2 ≤ buflen → buflen < SIZE_MOD →
      label (decodeShad0wClient m 0 buflen pid).2 = some name ∧
      label (tr_clientForId cs m buflen pid) = some name ∧
      Str (buf_append ⟨m, 0, buflen⟩ [.str name, .ch 32]).mem (name ++ [32]) ∧
      (decodeShad0wClient m 0 buflen pid).2 =
        (buf_append ⟨m, 0, buflen⟩ [.str name, .ch 32]).mem.store name.length 0) ∧
    (buflen = name.length + 1 →
      label (decodeShad0wClient m 0 buflen pid).2 = some name.dropLast ∧
      label (tr_clientForId cs m buflen pid) = some name.dropLast) := by
  have hlen : 9 ≤ pid.length := by rw [hpid.1]; omega
  obtain ⟨hn, hn0, hnl⟩ := shad0w_name_of_mem _ _ hname
  have h0 : at_ pid 0 ≠ 45 := by
    intro h
    rw [h] at hn
    have hnone : shad0w_name 45 = none := by decide
    rw [hnone] at hn
    exact absurd hn (by simp)
  have hv := shad0w_vals_no_version pid hlen h0 hd
  have h6 := hd 6 (by omega) (by omega)
  have h7 := hd 7 (by omega) (by omega)
  have h8 := hd 8 (by omega) (by omega)
  have hacc : ∀ m' : Mem, (decodeShad0wClient m' 0 buflen pid).1 = true :=
    fun m' => decodeShad0wClient_accepts m' 0 buflen pid _ name h6 h7 h8 hlen hv hn
  have hclient : tr_clientForId cs m buflen pid =
      (decodeShad0wClient (m.store 0 0) 0 buflen pid).2 := by
    unfold tr_clientForId
    simp only [hacc (m.store 0 0), if_true]
  have hdrop : (name ++ [32] ++ dots ([] : List Int).reverse).dropLast = name := by
    simp [dots]
  refine ⟨hacc m, fun hcap hcap2 => ?_, fun hcap => ?_⟩
  · have run : ∀ m' : Mem, Str (decodeShad0wClient m' 0 buflen pid).2 name := by
      intro m'
      have := (decodeShad0wClient_run m' buflen pid [] [at_ pid 0] name h6 h7 h8 hlen hv hn
        (by simp [dots]; omega) hcap2).2
      rw [hdrop] at this
      exact this
    have hh := buf_append_holds_of_at (.str name) [.ch 32]
      (At_start m buflen (by omega) hcap2) (by simp [text, Arg.text]; omega)
    have hh' : Holds (buf_append ⟨m, 0, buflen⟩ [.str name, .ch 32]) buflen
        (name ++ [32]) := by
      simpa [text, Arg.text] using hh
    refine ⟨label_of_Str _ _ (run m) hn0 (by omega), ?_, hh'.str, ?_⟩
    · rw [hclient]
      exact label_of_Str _ _ (run (m.store 0 0)) hn0 (by omega)
    · have hc : ¬ ((List.take 9 pid).length ≠ 9 ∨ at_ (List.take 9 pid) 6 ≠ 45 ∨
          at_ (List.take 9 pid) 7 ≠ 45 ∨ at_ (List.take 9 pid) 8 ≠ 45) := by
        simp only [at_take pid 9 6 (by omega), at_take pid 9 7 (by omega),
          at_take pid 9 8 (by omega), h6, h7, h8, List.length_take]
        simp
        omega
      have hbuf : (buf_append ⟨m, 0, buflen⟩ [.str name, .ch 32]).buf = name.length + 1 := by
        rw [hh'.1.buf_eq]
        simp
      unfold decodeShad0wClient
      simp only [if_neg hc, hv, hn, List.reverse_nil, List.foldl_nil, hbuf]
      simp
  · have run : ∀ m' : Mem, Str (decodeShad0wClient m' 0 buflen pid).2 name.dropLast := by
      intro m'
      have := decodeShad0wClient_run_tight m' buflen pid [] [at_ pid 0] name h6 h7 h8 hlen
        hv hn (by simp [dots]; omega)
        (by
          have : (21 : Nat) < SIZE_MOD := by decide
          omega)
      rw [hdrop] at this
      exact this
    have hd0 : 0 ∉ name.dropLast := fun hmem => hn0 (List.mem_of_mem_dropLast hmem)
    have hdl : name.dropLast.length < 64 := by
      rw [List.length_dropLast]
      omega
    refine ⟨label_of_Str _ _ (run m) hd0 hdl, ?_⟩
    rw [hclient]
    exact label_of_Str _ _ (run (m.store 0 0)) hd0 hdl

/-- C22, where it fails: `T--------xxxxxxxxxxx` is matched and labelled `BitTornado` in a
buffer of 12 bytes, but in a buffer of 11 bytes, which holds the ten bytes of the name and
the NUL, the label is `BitTornad`: the separator space finds no room, and the store
`buf[-1] = 0` meant for it removes the last byte of the name.  So it is for each of the seven
names: the match is reported whatever the buffer, the label is the name when the buffer has
two bytes more than the name (the NUL then lands on the space), and the name less its last
byte when the buffer has one byte more. -/
theorem shad0w_name_cut_in_exact_buffer :
    (is_peer_id (sv "T--------xxxxxxxxxxx") ∧ (sv "BitTornado").length = 10 ∧
      (∀ cs, label (tr_clientForId cs Mem.fresh 12 (sv "T--------xxxxxxxxxxx")) =
        some (sv "BitTornado")) ∧
      label (decodeShad0wClient Mem.fresh 0 11 (sv "T--------xxxxxxxxxxx")).2 =
        some (sv "BitTornad") ∧
      (∀ cs, label (tr_clientForId cs Mem.fresh 11 (sv "T--------xxxxxxxxxxx")) =
        some (sv "BitTornad"))) ∧
    (∀ (cs : Bool) (m : Mem) (buflen : Nat) (pid name : List Nat),
      is_peer_id pid → (at_ pid 0, name) ∈ shad0w_names →
      (∀ i, 1 ≤ i → i ≤ 8 → at_ pid i = 45) →
      (decodeShad0wClient m 0 buflen pid).1 = true ∧
      (name.length + 2 ≤ buflen → buflen < SIZE_MOD →
        label (decodeShad0wClient m 0 buflen pid).2 = some name ∧
        label (tr_clientForId cs m buflen pid) = some name ∧
        Str (buf_append ⟨m, 0, buflen⟩ [.str name, .ch 32]).mem (name ++ [32]) ∧
        (decodeShad0wClient m 0 buflen pid).2 =
          (buf_append ⟨m, 0, buflen⟩ [.str name, .ch 32]).mem.store name.length 0) ∧
      (buflen = name.length + 1 →
        label (decodeShad0wClient m 0 buflen pid).2 = some name.dropLast ∧
        label (tr_clientForId cs m buflen pid) = some name.dropLast)) := by
  refine ⟨by decide, ?_⟩
  intro cs m buflen pid name hpid hname hd
  exact shad0w_name_only_by_capacity cs m buflen pid name hpid hname hd

/-! ## Digit spans that cannot be parsed -/

theorem span_int_eq (pid : List Nat) (off span base : Nat) :
    itoa (strint pid off span base) = span_int pid off span base := by
  unfold strint span_int
  cases tr_parseNum (sub_view pid off span) base with
  | none => decide
  | some v => rfl

theorem span_d_eq (pid : List Nat) (off span base : Nat) :
    fmt_d (strint pid off span base) = span_d pid off span base := by
  unfold strint span_d
  cases tr_parseNum (sub_view pid off span) base with
  | none => decide
  | some v => rfl

theorem span_02d_eq (pid : List Nat) (off span base : Nat) :
    fmt_02d (strint pid off span base) = span_02d pid off span base := by
  unfold strint span_02d
  cases tr_parseNum (sub_view pid off span) base with
  | none => decide
  | some v => rfl

theorem strint_layout_rule (f : format_func) (name pid t : List Nat)
    (h : strint_layout f name pid = some t) : f ∈ strint_rules := by
  cases f <;> first | decide | (simp [strint_layout] at h)

/-- What a rule of `strint_rules` leaves in a buffer its text fits: the layout, every span
that cannot be parsed shown as zero. -/
theorem strint_layout_str (cs : Bool) (f : format_func) (name pid t : List Nat) (m : Mem)
    (buflen : Nat) (h : strint_layout f name pid = some t) (hfit : t.length < buflen)
    (hcap : buflen < SIZE_MOD) :
    Str (f.call cs m 0 buflen name pid) t := by
  cases f with
  | two_major_two_minor =>
    simp only [strint_layout, Option.some.injEq] at h
    subst h
    simp only [format_func.call, two_major_two_minor_formatter, span_02d_eq]
    have := (buf_append_fmt_result [.str name, .ch 32, .num (strint pid 3 2 10), .ch 46]
      (span_02d pid 5 2 10) m buflen
      (by
        simp only [text, Arg.text, List.length_append, List.length_singleton, List.length_nil,
          List.length_cons, span_int_eq] at hfit ⊢
        omega) hcap).1
    simpa [text, Arg.text, span_int_eq] using this
  | bittorrent_dna =>
    simp only [strint_layout, Option.some.injEq] at h
    subst h
    simp only [format_func.call, bittorrent_dna_formatter, span_d_eq]
    have := (buf_append_fmt_result [.str name, .ch 32]
      (span_d pid 3 2 10 ++ [46] ++ span_d pid 5 2 10 ++ [46] ++ span_d pid 7 2 10) m buflen
      (by
        simp only [text, Arg.text, List.length_append, List.length_singleton, List.length_nil,
          List.length_cons] at hfit ⊢
        omega) hcap).1
    simpa [text, Arg.text] using this
  | transmission =>
    simp only [strint_layout] at h
    simp only [format_func.call, transmission_formatter, span_d_eq, span_02d_eq]
    by_cases h1 : sub_view pid 3 3 = sv "000"
    · simp only [if_pos h1, Option.some.injEq] at h ⊢
      subst h
      have := (buf_append_fmt_result [.str name, .ch 32] (sv "0." ++ [at_ pid 6]) m buflen
        (by
        simp only [text, Arg.text, List.length_append, List.length_singleton, List.length_nil,
          List.length_cons] at hfit ⊢
        omega) hcap).1
      simpa [text, Arg.text] using this
    · by_cases h2 : sub_view pid 3 2 = sv "00"
      · simp only [if_neg h1, if_pos h2, Option.some.injEq] at h ⊢
        subst h
        have := (buf_append_fmt_result [.str name, .ch 32]
          (sv "0." ++ span_02d pid 5 2 10) m buflen
          (by
        simp only [text, Arg.text, List.length_append, List.length_singleton, List.length_nil,
          List.length_cons] at hfit ⊢
        omega) hcap).1
        simpa [text, Arg.text] using this
      · simp only [if_neg h1, if_neg h2, Option.some.injEq] at h ⊢
        subst h
        have e : sv "" = ([] : List Nat) := by decide
        rw [e]
        have := (buf_append_fmt_result [.str name, .ch 32]
          (span_d pid 3 1 10 ++ [46] ++ span_02d pid 4 2 10 ++
            (if at_ pid 6 = 90 ∨ at_ pid 6 = 88 then sv "+" else [])) m buflen
          (by
        simp only [text, Arg.text, List.length_append, List.length_singleton, List.length_nil,
          List.length_cons] at hfit ⊢
        omega) hcap).1
        simpa [text, Arg.text] using this
  | utorrent =>
    simp only [strint_layout] at h
    simp only [format_func.call, utorrent_formatter]
    by_cases h1 : at_ pid 7 = 45
    · simp only [if_pos h1, Option.some.injEq] at h ⊢
      subst h
      have := (buf_append_result (.str name) [.ch 32, .num (strint pid 3 1 16), .ch 46,
        .num (strint pid 4 1 16), .ch 46, .num (strint pid 5 1 16),
        .str (getMnemonicEnd (at_ pid 6))] m buflen
        (by
        simp only [text, Arg.text, List.length_append, List.length_singleton, List.length_nil,
          List.length_cons, span_int_eq, (getMnemonicEnd_eq _).1] at hfit ⊢
        omega) hcap).1
      simpa [text, Arg.text, span_int_eq, (getMnemonicEnd_eq _).1] using this
    · simp only [if_neg h1, Option.some.injEq] at h ⊢
      subst h
      have := (buf_append_result (.str name) [.ch 32, .num (strint pid 3 1 16), .ch 46,
        .num (strint pid 4 1 16), .ch 46, .num (strint pid 5 2 10),
        .str (getMnemonicEnd (at_ pid 7))] m buflen
        (by
        simp only [text, Arg.text, List.length_append, List.length_singleton, List.length_nil,
          List.length_cons, span_int_eq, (getMnemonicEnd_eq _).1] at hfit ⊢
        omega) hcap).1
      simpa [text, Arg.text, span_int_eq, (getMnemonicEnd_eq _).1] using this
  | xtorrent =>
    simp only [strint_layout, Option.some.injEq] at h
    subst h
    simp only [format_func.call, xtorrent_formatter, span_d_eq]
    have := (buf_append_fmt_result [.str name, .ch 32, .str (charint (at_ pid 3)), .ch 46,
      .str (charint (at_ pid 4)), .str (sv " (")] (span_d pid 5 2 10) m buflen
      (by
        simp only [text, Arg.text, List.length_append, List.length_singleton, List.length_nil,
          List.length_cons] at hfit ⊢
        omega) hcap).1
    simpa [text, Arg.text] using this
  | _ => simp [strint_layout] at h

theorem span_lengths (pid : List Nat) (off span : Nat) (hspan : span ≤ 2) :
    (span_int pid off span 10).length ≤ 2 ∧ (span_d pid off span 10).length ≤ 2 ∧
    (span_02d pid off span 10).length ≤ 2 ∧ (span_int pid off 1 16).length ≤ 2 := by
  have h := span_renderings_of _ (strint_bounds pid off span hspan)
  have x := span_renderings_of _ (strint_hex_bounds pid off)
  rw [span_int_eq, span_d_eq, span_02d_eq] at h
  rw [span_int_eq] at x
  exact ⟨h.2.1, h.2.2.2.1, h.2.2.2.2.2, x.2.1⟩

theorem strint_layout_length (f : format_func) (name pid t : List Nat)
    (h : strint_layout f name pid = some t) : t.length ≤ name.length + extra f := by
  have s32 := span_lengths pid 3 2 (by omega)
  have s52 := span_lengths pid 5 2 (by omega)
  have s72 := span_lengths pid 7 2 (by omega)
  have s42 := span_lengths pid 4 2 (by omega)
  have s31 := span_lengths pid 3 1 (by omega)
  have s41 := span_lengths pid 4 1 (by omega)
  have s51 := span_lengths pid 5 1 (by omega)
  have c3 := (charint_props (at_ pid 3)).2.2
  have c4 := (charint_props (at_ pid 4)).2.2
  have m6 := (getMnemonicEnd_eq (at_ pid 6)).2.2
  have m7 := (getMnemonicEnd_eq (at_ pid 7)).2.2
  rw [(getMnemonicEnd_eq _).1] at m6 m7
  have l0dot : (sv "0.").length = 2 := by decide
  have lplus : (sv "+").length = 1 := by decide
  have lpar : (sv " (").length = 2 := by decide
  cases f with
  | two_major_two_minor =>
    simp only [strint_layout, Option.some.injEq] at h
    subst h
    simp only [List.length_append, List.length_singleton, extra]
    omega
  | bittorrent_dna =>
    simp only [strint_layout, Option.some.injEq] at h
    subst h
    simp only [List.length_append, List.length_singleton, extra]
    omega
  | transmission =>
    simp only [strint_layout] at h
    by_cases h1 : sub_view pid 3 3 = sv "000"
    · simp only [if_pos h1, Option.some.injEq] at h
      subst h
      simp only [List.length_append, List.length_singleton, extra]
      omega
    · by_cases h2 : sub_view pid 3 2 = sv "00"
      · simp only [if_neg h1, if_pos h2, Option.some.injEq] at h
        subst h
        simp only [List.length_append, List.length_singleton, extra]
        omega
      · simp only [if_neg h1, if_neg h2, Option.some.injEq] at h
        subst h
        simp only [List.length_append, List.length_singleton, extra]
        split
        · omega
        · simp only [List.length_nil]
          omega
  | utorrent =>
    simp only [strint_layout] at h
    by_cases h1 : at_ pid 7 = 45
    · simp only [if_pos h1, Option.some.injEq] at h
      subst h
      simp only [List.length_append, List.length_singleton, extra]
      omega
    · simp only [if_neg h1, Option.some.injEq] at h
      subst h
      simp only [List.length_append, List.length_singleton, extra]
      omega
  | xtorrent =>
    simp only [strint_layout, Option.some.injEq] at h
    subst h
    simp only [List.length_append, List.length_singleton, extra]
    omega
  | _ => simp [strint_layout] at h

theorem strint_records : ∀ c ∈ Clients, c.formatter ∈ strint_rules →
    ∃ i ∈ List.range 129, (i, c.begins_with) ∈ strint_heads ∧ elem Clients i = c ∧
      (c.begins_with.head? = some 45 ∨ c.begins_with.head? = some 84 ∨
        c.begins_with.head? = some 68) := by
  decide

theorem lookup_strint_tail (b3 b4 b5 b6 b7 b8 b9 b10 b11 b12 b13 b14 b15 b16 b17 b18 b19 : Nat) :
    ∀ e ∈ strint_heads,
      lookup Clients (e.2 ++
        [b3, b4, b5, b6, b7, b8, b9, b10, b11, b12, b13, b14, b15, b16, b17, b18, b19])
        = some e.1 := by
  simp only [strint_heads, List.forall_mem_cons, List.not_mem_nil, false_imp_iff, implies_true,
    and_true]
  repeat' constructor

theorem strint_heads_length : ∀ e ∈ strint_heads, e.2.length = 3 := by
  decide

theorem lookup_strint_head (i : Nat) (p : List Nat) (h : (i, p) ∈ strint_heads)
    (pid : List Nat) (hlen : pid.length = 20) (hpre : p <+: pid) :
    lookup Clients pid = some i := by
  obtain ⟨t, rfl⟩ := hpre
  have hp : p.length = 3 := strint_heads_length _ h
  have ht : t.length = 17 := by rw [List.length_append, hp] at hlen; omega
  match t, ht with
  | [b3, b4, b5, b6, b7, b8, b9, b10, b11, b12, b13, b14, b15, b16, b17, b18, b19], _ =>
    exact lookup_strint_tail b3 b4 b5 b6 b7 b8 b9 b10 b11 b12 b13 b14 b15 b16 b17 b18 b19
      (i, p) h

/-- C17: for every record of `Clients` whose rule reads a digit span with `strint` (the rules
of `two_major_two_minor`, `bittorrent_dna`, `transmission`, `utorrent` and `xtorrent`, 15
records) and every identifier that begins with its prefix and is not taken by the Shadow
decoder, in a buffer the text fits, `tr_clientForId` leaves the rule's layout, in which every
span that cannot be parsed, alone or with others, stands as the number 0 (`0`, or `00` where
the rule pads to two digits): the rule completes, and the label is that text as a C string. -/
theorem malformed_span_shows_zero (cs : Bool) (m : Mem) (buflen : Nat) (pid : List Nat)
    (c : Client) (t : List Nat) (hc : c ∈ Clients) (hpid : is_peer_id pid)
    (hpre : c.begins_with <+: pid)
    (hs : (decodeShad0wClient (m.store 0 0) 0 buflen pid).1 = false)
    (hlay : strint_layout c.formatter c.name pid = some t)
    (hfit : t.length < buflen) (hcap2 : buflen < SIZE_MOD) :
    Str (tr_clientForId cs m buflen pid) t ∧
    label (tr_clientForId cs m buflen pid) = some (c_string t) ∧
    (∀ off span base, tr_parseNum (sub_view pid off span) base = none →
      strint pid off span base = 0 ∧ span_int pid off span base = sv "0" ∧
      span_d pid off span base = sv "0" ∧ span_02d pid off span base = sv "00") := by
  obtain ⟨i, _, hmem, hel, hhead⟩ :=
    strint_records c hc (strint_layout_rule _ _ _ _ hlay)
  have hl := lookup_strint_head i _ hmem pid hpid.1 hpre
  have h0 : at_ pid 0 = 45 ∨ at_ pid 0 = 84 ∨ at_ pid 0 = 68 := by
    rcases hhead with h | h | h
    · exact Or.inl (at_zero_of_head _ _ _ h hpre)
    · exact Or.inr (Or.inl (at_zero_of_head _ _ _ h hpre))
    · exact Or.inr (Or.inr (at_zero_of_head _ _ _ h hpre))
  have hstr : Str (tr_clientForId cs m buflen pid) t := by
    rw [tr_clientForId_registry cs m buflen pid i (decodeShad0wClient_fst_false _ _ _ _ hs)
      (decodeBitCometClient_other_lead _ _ _ (by rw [hpid.1]; omega)
        (by rcases h0 with h | h | h <;> rw [h] <;> decide))
      (by rcases h0 with h | h | h <;> rw [h] <;> simp) hl, hel]
    exact strint_layout_str cs _ _ _ _ _ _ hlay hfit hcap2
  have hlen := strint_layout_length _ _ _ _ hlay
  have hreg := registry_entry_fits i
  rw [hel] at hreg
  refine ⟨hstr, label_of_Str_cut _ _ hstr (by omega), ?_⟩
  intro off span base hnone
  unfold strint span_int span_d span_02d
  rw [hnone]
  exact ⟨rfl, rfl, rfl, rfl⟩

/-- Witness for C17, in buffers of one byte more than the label: `-AXzzyy-xxxxxxxxxxxx`
(both spans malformed) is `BitPump 0.00`, `-AX12yy-xxxxxxxxxxxx` (one span malformed) is
`BitPump 12.00`, and `-XX00zz-xxxxxxxxxxxx` is `Xtorrent 0.0 (0`. -/
theorem malformed_span_shows_zero_witness :
    is_peer_id (sv "-AXzzyy-xxxxxxxxxxxx") ∧
    label (tr_clientForId true Mem.fresh 13 (sv "-AXzzyy-xxxxxxxxxxxx")) =
      some (sv "BitPump 0.00") ∧
    label (tr_clientForId true Mem.fresh 14 (sv "-AX12yy-xxxxxxxxxxxx")) =
      some (sv "BitPump 12.00") ∧
    label (tr_clientForId true Mem.fresh 16 (sv "-XX00zz-xxxxxxxxxxxx")) =
      some (sv "Xtorrent 0.0 (0") :=
  ⟨by decide,
    (malformed_span_shows_zero true Mem.fresh 13 (sv "-AXzzyy-xxxxxxxxxxxx")
      (Client.mk (sv "-AX") (sv "BitPump") format_func.two_major_two_minor)
      (sv "BitPump 0.00") (by decide) (by decide) (by decide) (by decide) (by decide)
      (by decide) (by decide)).2.1,
    (malformed_span_shows_zero true Mem.fresh 14 (sv "-AX12yy-xxxxxxxxxxxx")
      (Client.mk (sv "-AX") (sv "BitPump") format_func.two_major_two_minor)
      (sv "BitPump 12.00") (by decide) (by decide) (by decide) (by decide) (by decide)
      (by decide) (by decide)).2.1,
    (malformed_span_shows_zero true Mem.fresh 16 (sv "-XX00zz-xxxxxxxxxxxx")
      (Client.mk (sv "-XX") (sv "Xtorrent") format_func.xtorrent)
      (sv "Xtorrent 0.0 (0") (by decide) (by decide) (by decide) (by decide) (by decide)
      (by decide) (by decide)).2.1⟩

end Transmission
